import Mathlib

/-!
# Exact polynomial reconstruction (`fraction.js`, `solver.js`)

A shallow embedding of the two source files of the repository:

* `Fraction` (`src/fraction.js`): exact rational arithmetic on JavaScript `BigInt`
  values.  `BigInt` is modelled by `Int`; `/` and `%` on `BigInt` truncate towards
  zero, which is `Int.tdiv` and `Int.tmod`.
* `solvePolynomial` (`src/solver.js`): decoding of the digit strings, selection of
  the solving points, construction of the `k x (k+1)` system, forward elimination
  with the pivot search of the source, back-substitution and the validation pass.

A JavaScript exception is modelled by the `error` alternative of `Except JsError`.
`src/OptimisedCode/` holds the same two functions, statement for statement.
-/

namespace HashiraTest

/-! ## Exceptions -/

/-- The exceptions the two files can raise. -/
inductive JsError where
  /-- `throw new Error("Denominator cannot be zero.")` in the constructor of `Fraction`. -/
  | denominatorZero
  /-- `throw new Error("Cannot divide by a zero fraction.")` in `Fraction.divide`. -/
  | divideByZero
  /-- A `RangeError` of the runtime: `BigInt` division by zero, `BigInt(NaN)`,
  `Array(n)` with an `n` that is not an array length (negative, or `2 ^ 32` or more). -/
  | rangeError
  /-- A `TypeError` of the runtime: a property read on `undefined`. -/
  | typeError
  deriving DecidableEq, Repr

deriving instance DecidableEq for Except

/-! ## `fraction.js` -/

/-- The two fields `num` and `den` of an object of class `Fraction`. -/
structure Fraction where
  num : Int
  den : Int
  deriving DecidableEq, Repr

namespace Fraction

/-- The recursion of `gcd(a, b) { return b === 0n ? a : this.gcd(b, a % b); }`,
unfolded at most `fuel` times. -/
def gcdLoop : Nat → Int → Int → Int
  | 0, a, _ => a
  | fuel + 1, a, b => if b = 0 then a else gcdLoop fuel b (Int.tmod a b)

/-- The method `gcd(a, b)`.  Each call replaces `b` by `a % b`, of strictly smaller
absolute value, so `|b| + 1` unfoldings reach `b === 0n`
(`gcd_eq` below is the equation of the source). -/
def gcd (a b : Int) : Int := gcdLoop (b.natAbs + 1) a b

/-- The constructor: `new Fraction(numerator, denominator)`.  A call with one argument,
`new Fraction(n)`, takes the default `denominator = 1n` and is written `new n 1`. -/
def new (numerator : Int) (denominator : Int) : Except JsError Fraction :=
  if denominator = 0 then .error .denominatorZero
  else
    let commonDivisor := gcd numerator denominator
    -- `BigInt` division by `0n` raises a RangeError
    if commonDivisor = 0 then .error .rangeError
    else
      let num := Int.tdiv numerator commonDivisor
      let den := Int.tdiv denominator commonDivisor
      if den < 0 then .ok ⟨-num, -den⟩ else .ok ⟨num, den⟩

/-- The method `add(other)`. -/
def add (self other : Fraction) : Except JsError Fraction :=
  let newNum := self.num * other.den + other.num * self.den
  let newDen := self.den * other.den
  new newNum newDen

/-- The method `subtract(other)`. -/
def subtract (self other : Fraction) : Except JsError Fraction :=
  let newNum := self.num * other.den - other.num * self.den
  let newDen := self.den * other.den
  new newNum newDen

/-- The method `multiply(other)`. -/
def multiply (self other : Fraction) : Except JsError Fraction :=
  new (self.num * other.num) (self.den * other.den)

/-- The method `divide(other)`. -/
def divide (self other : Fraction) : Except JsError Fraction :=
  if other.num = 0 then .error .divideByZero
  else new (self.num * other.den) (self.den * other.num)

/-- The rational number `num / den` an object stands for. -/
def toRat (p : Fraction) : ℚ := (p.num : ℚ) / (p.den : ℚ)

/-- The canonical form: positive denominator, numerator and denominator coprime. -/
def Canonical (p : Fraction) : Prop := 0 < p.den ∧ Int.gcd p.num p.den = 1

instance (p : Fraction) : Decidable p.Canonical := by
  unfold Canonical; infer_instance

end Fraction

/-! ## `solver.js` -/

/-- A decoded point `{ x, y }`. -/
structure Point where
  x : Int
  y : Int
  deriving DecidableEq, Repr

/-- One member `"x": { "base": b, "value": v }` of the parsed problem description,
with `x` standing for `BigInt(key)` and `base` for `parseInt(data[key].base, 10)`. -/
structure Entry where
  x : Int
  base : Nat
  value : String
  deriving DecidableEq, Repr

/-- What a solve prints: the coefficients `c_degree ... c_0` and, for every unused
point, its `x` with `true` for the line `OK` and `false` for the line `FAILED!`. -/
structure Solution where
  coefficients : List Fraction
  report : List (Int × Bool)
  deriving DecidableEq, Repr

/-- The system matrix: an array of rows. -/
abbrev Mat := List (List Fraction)

/-- A loop `for (let i = start; i < start + n; i++) state = body(i, state)`; an
exception raised by the body leaves the loop. -/
def forLoop {σ : Type} (body : Nat → σ → Except JsError σ) : Nat → Nat → σ → Except JsError σ
  | 0, _, s => .ok s
  | n + 1, i, s =>
    match body i s with
    | .error e => .error e
    | .ok s1 => forLoop body n (i + 1) s1

/-- A loop `for (let i = n - 1; i >= 0; i--) state = body(i, state)`. -/
def forDown {σ : Type} (body : Nat → σ → Except JsError σ) : Nat → σ → Except JsError σ
  | 0, s => .ok s
  | n + 1, s =>
    match body n s with
    | .error e => .error e
    | .ok s1 => forDown body n s1

/-- The value of one digit character by the digit table of `parseInt`. -/
def digitValue (c : Char) : Option Nat :=
  if '0' ≤ c ∧ c ≤ '9' then some (c.toNat - '0'.toNat)
  else if 'a' ≤ c ∧ c ≤ 'z' then some (c.toNat - 'a'.toNat + 10)
  else if 'A' ≤ c ∧ c ≤ 'Z' then some (c.toNat - 'A'.toNat + 10)
  else none

/-- The call `parseInt(value[i], base)` on a string of one character: `none` is `NaN`.
The radix is taken modulo `2 ^ 32` (`ToInt32`); `0` stands for `10`; a radix outside
`2..36` gives `NaN`. -/
def parseInt (c : Char) (base : Nat) : Option Nat :=
  let int32 := base % 4294967296
  let radix := if int32 = 0 then 10 else int32
  if radix < 2 ∨ 36 < radix then none
  else
    match digitValue c with
    | some d => if d < radix then some d else none
    | none => none

/-- The helper `stringToBigInt(value, base)`; `BigInt(NaN)` raises a RangeError. -/
def stringToBigInt (value : String) (base : Nat) : Except JsError Int :=
  value.toList.foldlM
    (fun result c =>
      match parseInt c base with
      | none => .error .rangeError
      | some digit => .ok (result * (base : Int) + (digit : Int)))
    (0 : Int)

/-- The loop `for (const key in data)` that decodes the points. -/
def decodePoints : List Entry → Except JsError (List Point)
  | [] => .ok []
  | e :: rest =>
    match stringToBigInt e.value e.base with
    | .error err => .error err
    | .ok y =>
      match decodePoints rest with
      | .error err => .error err
      | .ok points => .ok (⟨e.x, y⟩ :: points)

/-- Insertion of a point by the comparator `(a, b) => (a.x < b.x ? -1 : 1)`. -/
def insertPoint (p : Point) : List Point → List Point
  | [] => [p]
  | q :: rest => if p.x < q.x then p :: q :: rest else q :: insertPoint p rest

/-- The call `points.sort((a, b) => (a.x < b.x ? -1 : 1))`, as the insertion sort
driven by that comparator: each point goes before the first point the comparator
puts it before. -/
def sortPoints (points : List Point) : List Point :=
  points.foldl (fun sorted p => insertPoint p sorted) []

/-- The value `Math.abs(Number(n))` for a `BigInt` `n`: the nearest double, ties to
the even significand, as a natural number; `Infinity` is written `2 ^ 1024`, which is
above every finite double. -/
def numberAbs (n : Int) : Nat :=
  let a := n.natAbs
  if a < 2 ^ 53 then a
  else
    let shift := Nat.log2 a - 52
    let q := a / 2 ^ shift
    let r := a % 2 ^ shift
    let half := 2 ^ (shift - 1)
    let rounded := if half < r ∨ (r = half ∧ q % 2 = 1) then q + 1 else q
    let v := rounded * 2 ^ shift
    if 2 ^ 1024 ≤ v then 2 ^ 1024 else v

/-- A read `matrix[i][j]` whose value is used as a `Fraction`: on `undefined` the
use raises a TypeError. -/
def getEntry (matrix : Mat) (i j : Nat) : Except JsError Fraction :=
  match matrix[i]? with
  | none => .error .typeError
  | some row =>
    match row[j]? with
    | none => .error .typeError
    | some f => .ok f

/-- An assignment `matrix[i][j] = v`; at each use `j` is below the length of the row. -/
def setEntry (matrix : Mat) (i j : Nat) (v : Fraction) : Except JsError Mat :=
  match matrix[i]? with
  | none => .error .typeError
  | some row => .ok (matrix.set i (row.set j v))

/-- A read `coefficients[j]` used as a `Fraction`. -/
def getCoeff (coefficients : List Fraction) (j : Nat) : Except JsError Fraction :=
  match coefficients[j]? with
  | none => .error .typeError
  | some f => .ok f

/-- The rows of the system: `matrix[i][j] = new Fraction(p.x ** BigInt(degree - j))`
and `matrix[i][k] = new Fraction(p.y)`, on a matrix filled with `new Fraction(0n)`.
The lengths `k` and `k + 1` are array lengths here; `solve` holds the RangeError of
the allocation for the other `k`. -/
def buildMatrix (k : Nat) (solvingPoints : List Point) : Except JsError Mat := do
  let zero ← Fraction.new 0 1
  let matrix : Mat := List.replicate k (List.replicate (k + 1) zero)
  forLoop (fun i matrix =>
    match solvingPoints[i]? with
    | none => .error .typeError
    | some p => do
      let matrix ← forLoop (fun j matrix => do
        let entry ← Fraction.new (p.x ^ (k - 1 - j)) 1
        setEntry matrix i j entry) k 0 matrix
      let entry ← Fraction.new p.y 1
      setEntry matrix i k entry) k 0 matrix

/-- The pivot search of step `i`: `max = i`, then for `j = i + 1 .. k - 1`,
`if (Math.abs(Number(matrix[j][i].num)) > Math.abs(Number(matrix[max][i].num))) max = j`. -/
def findMax (k i : Nat) (matrix : Mat) : Except JsError Nat :=
  forLoop (fun j max => do
    let a ← getEntry matrix j i
    let b ← getEntry matrix max i
    pure (if numberAbs a.num > numberAbs b.num then j else max)) (k - (i + 1)) (i + 1) i

/-- The swap `[matrix[i], matrix[max]] = [matrix[max], matrix[i]]`; both indices are
below the number of rows. -/
def swapRows (matrix : Mat) (i max : Nat) : Mat :=
  (matrix.set i (matrix.getD max [])).set max (matrix.getD i [])

/-- The inner loops of step `i` on row `j`: `factor = matrix[j][i].divide(matrix[i][i])`,
then `matrix[j][l] = matrix[j][l].subtract(factor.multiply(matrix[i][l]))` for
`l = i .. k`. -/
def eliminateRow (k i j : Nat) (matrix : Mat) : Except JsError Mat := do
  let a ← getEntry matrix j i
  let pivot ← getEntry matrix i i
  let factor ← a.divide pivot
  forLoop (fun l matrix => do
    let x ← getEntry matrix j l
    let y ← getEntry matrix i l
    let t ← factor.multiply y
    let v ← x.subtract t
    setEntry matrix j l v) (k + 1 - i) i matrix

/-- One iteration of the elimination loop: pivot search, swap, elimination of the
rows below. -/
def eliminateStep (k i : Nat) (matrix : Mat) : Except JsError Mat := do
  let max ← findMax k i matrix
  forLoop (eliminateRow k i) (k - (i + 1)) (i + 1) (swapRows matrix i max)

/-- The forward elimination: `for (let i = 0; i < k; i++)`. -/
def eliminate (k : Nat) (matrix : Mat) : Except JsError Mat :=
  forLoop (eliminateStep k) k 0 matrix

/-- One iteration of the back-substitution loop, for row `i`. -/
def backSubstituteRow (k : Nat) (matrix : Mat) (i : Nat) (coefficients : List Fraction) :
    Except JsError (List Fraction) := do
  let zero ← Fraction.new 0 1
  let sum ← forLoop (fun j sum => do
    let a ← getEntry matrix i j
    let c ← getCoeff coefficients j
    let t ← a.multiply c
    sum.add t) (k - (i + 1)) (i + 1) zero
  let rhs ← getEntry matrix i k
  let d ← rhs.subtract sum
  let pivot ← getEntry matrix i i
  let c ← d.divide pivot
  pure (coefficients.set i c)

/-- The back-substitution: `for (let i = k - 1; i >= 0; i--)` on
`coefficients = Array(k).fill(new Fraction(0n))`. -/
def backSubstitute (k : Nat) (matrix : Mat) : Except JsError (List Fraction) := do
  let zero ← Fraction.new 0 1
  forDown (backSubstituteRow k matrix) k (List.replicate k zero)

/-- The function `evaluatePolynomial(x, coeffs)`. -/
def evaluatePolynomial (x : Int) (coeffs : List Fraction) : Except JsError Fraction := do
  let zero ← Fraction.new 0 1
  forLoop (fun i result => do
    let c ← getCoeff coeffs i
    let power ← Fraction.new (x ^ (coeffs.length - 1 - i)) 1
    let term ← c.multiply power
    result.add term) coeffs.length 0 zero

/-- The validation loop `for (const point of unusedPoints)`: `true` when
`calculatedY.num === point.y && calculatedY.den === 1n`. -/
def validate (coefficients : List Fraction) : List Point → Except JsError (List (Int × Bool))
  | [] => .ok []
  | point :: rest => do
    let calculatedY ← evaluatePolynomial point.x coefficients
    let verdicts ← validate coefficients rest
    pure ((point.x, decide (calculatedY.num = point.y ∧ calculatedY.den = 1)) :: verdicts)

/-- The solving set `points.slice(0, k)` of the sorted points. -/
def solvingPoints (k : Nat) (points : List Point) : List Point :=
  (sortPoints points).take k

/-- The validation set `points.slice(k)` of the sorted points. -/
def unusedPoints (k : Nat) (points : List Point) : List Point :=
  (sortPoints points).drop k

/-- The reconstruction from the solving points: matrix, elimination,
back-substitution. -/
def reconstruct (k : Nat) (solving : List Point) : Except JsError (List Fraction) := do
  let matrix ← buildMatrix k solving
  let matrix ← eliminate k matrix
  backSubstitute k matrix

/-- The body of `solvePolynomial` from the sort on, for the decoded points and
`k = data.keys.k`.  The allocation of the matrix raises a RangeError when a length is
not an array length: `Array(k)` for `k < 0` and for `k ≥ 2 ^ 32`, and `Array(k + 1)`,
in the first call of the `map` callback, for `k = 2 ^ 32 - 1`.  An array holds at most
`2 ^ 32 - 1` elements, so such a `k` is above the number of points; the one exception,
`k = 2 ^ 32 - 1` on exactly `2 ^ 32 - 1` points, where `Array(k + 1)` raises as well,
is left out of the guard, as are the lists longer than any array. -/
def solve (k : Int) (points : List Point) : Except JsError Solution :=
  if k < 0 ∨ (4294967295 ≤ k ∧ (points.length : Int) < k) then .error .rangeError
  else do
    let coefficients ← reconstruct k.toNat (solvingPoints k.toNat points)
    let report ← validate coefficients (unusedPoints k.toNat points)
    pure ⟨coefficients, report⟩

/-- The function `solvePolynomial`, on the parsed problem description. -/
def solvePolynomial (k : Int) (data : List Entry) : Except JsError Solution := do
  let points ← decodePoints data
  solve k points

/-! ## Notions used in the statements -/

/-- The object stored at `matrix[r][c]` (`0/1` outside the matrix). -/
def entF (matrix : Mat) (r c : Nat) : Fraction := (matrix.getD r []).getD c ⟨0, 1⟩

/-- The rational number stored at `matrix[r][c]`. -/
def ent (matrix : Mat) (r c : Nat) : ℚ := (entF matrix r c).toRat

/-- The rational number stored at `coefficients[j]`. -/
def cval (coefficients : List Fraction) (j : Nat) : ℚ :=
  (coefficients.getD j ⟨0, 1⟩).toRat

/-- A matrix of `k` rows of `k + 1` entries. -/
def Shape (k : Nat) (matrix : Mat) : Prop :=
  matrix.length = k ∧ ∀ row ∈ matrix, row.length = k + 1

/-- Every entry of the matrix is canonical. -/
def AllCanonical (matrix : Mat) : Prop :=
  ∀ row ∈ matrix, ∀ f ∈ row, Fraction.Canonical f

/-- The vector `c` satisfies the `k` homogeneous equations `sum_j E r j * c j = 0`,
`j = 0 .. k`, of the table `E`.  With `c k = -1` these are the equations
`sum_(j<k) E r j * c j = E r k` of the augmented system. -/
def Ann (k : Nat) (E : Nat → Nat → ℚ) (c : Nat → ℚ) : Prop :=
  ∀ r, r < k → ∑ j in Finset.range (k + 1), E r j * c j = 0

/-- The coefficient part of the table `E` (columns `0 .. k - 1`) is singular: a
non-zero vector satisfies its homogeneous equations. -/
def Singular (k : Nat) (E : Nat → Nat → ℚ) : Prop :=
  ∃ c : Nat → ℚ, c k = 0 ∧ (∃ j, j < k ∧ c j ≠ 0) ∧ Ann k E c

/-- Columns `0 .. i - 1` of the table are zero below the diagonal. -/
def Echelon (k i : Nat) (E : Nat → Nat → ℚ) : Prop :=
  ∀ r c, c < i → c < r → r < k → E r c = 0

/-- The value at `x` of the polynomial with coefficients `c 0, ..., c (k - 1)`,
highest degree first. -/
def polyEval (k : Nat) (c : Nat → ℚ) (x : ℚ) : ℚ :=
  ∑ j in Finset.range k, c j * x ^ (k - 1 - j)

/-- The vector of the augmented system made of the coefficients: `c k = -1`. -/
def extend (k : Nat) (coefficients : List Fraction) (j : Nat) : ℚ :=
  if j < k then cval coefficients j else -1

/-- The table of the system of the solving points: row `r` holds the powers
`x_r ^ (k - 1 - c)` in the columns `c < k` and `y_r` in column `k`. -/
def systemTable (k : Nat) (solving : List Point) (r c : Nat) : ℚ :=
  if c < k then ((solving.getD r ⟨0, 0⟩).x : ℚ) ^ (k - 1 - c)
  else ((solving.getD r ⟨0, 0⟩).y : ℚ)

/-- The digit values of the characters of a digit string, first character first
(`0` for a character that is no digit). -/
def digitsOf (value : String) : List Nat :=
  value.toList.map fun c => (digitValue c).getD 0

/-- The value `sum_i d_i * b ^ (n - 1 - i)` of the digits `d_0 ... d_(n-1)` in base `b`. -/
def digitSum (b : Nat) (ds : List Nat) : Int :=
  ∑ i in Finset.range ds.length, (ds.getD i 0 : Int) * (b : Int) ^ (ds.length - 1 - i)

/-- The character of the digit `d`: `0..9`, then `a..z`. -/
def digitChar (d : Nat) : Char :=
  if d < 10 then Char.ofNat (48 + d) else Char.ofNat (87 + d)

/-- The base-`b` numeral of the natural number `m`, most significant digit first
(the empty string for `0`). -/
def numeral (b m : Nat) : String :=
  String.mk ((Nat.digits b m).reverse.map digitChar)

instance (k : Nat) (matrix : Mat) : Decidable (Shape k matrix) := by
  unfold Shape; infer_instance

instance (matrix : Mat) : Decidable (AllCanonical matrix) := by
  unfold AllCanonical; infer_instance

/-! ## Theorems -/

namespace Fraction

/-! ### The Euclidean recursion -/

theorem natAbs_tmod (a b : Int) : (Int.tmod a b).natAbs = a.natAbs % b.natAbs := by
  cases a <;> cases b <;> simp [Int.tmod, Int.natAbs_neg] <;> rfl

theorem gcdLoop_natAbs (fuel : Nat) : ∀ a b : Int, b.natAbs < fuel →
    (gcdLoop fuel a b).natAbs = Int.gcd a b := by
  induction fuel with
  | zero => intro a b h; omega
  | succ n ih =>
    intro a b h
    unfold gcdLoop
    by_cases hb : b = 0
    · subst hb; simp
    · rw [if_neg hb]
      have hpos : 0 < b.natAbs := Int.natAbs_pos.mpr hb
      have hlt : (Int.tmod a b).natAbs < n := by
        rw [natAbs_tmod]
        have := Nat.mod_lt a.natAbs hpos
        omega
      rw [ih b (Int.tmod a b) hlt, Int.gcd_def, Int.gcd_def, natAbs_tmod]
      rw [Nat.gcd_comm, ← Nat.gcd_rec, Nat.gcd_comm]

theorem gcdLoop_fuel (fuel : Nat) : ∀ (fuel2 : Nat) (a b : Int), b.natAbs < fuel →
    b.natAbs < fuel2 → gcdLoop fuel a b = gcdLoop fuel2 a b := by
  induction fuel with
  | zero => intro f a b h; omega
  | succ n ih =>
    intro f a b h h2
    cases f with
    | zero => omega
    | succ m =>
      unfold gcdLoop
      by_cases hb : b = 0
      · simp [hb]
      · rw [if_neg hb, if_neg hb]
        have hpos : 0 < b.natAbs := Int.natAbs_pos.mpr hb
        have := Nat.mod_lt a.natAbs hpos
        apply ih <;> rw [natAbs_tmod] <;> omega

/-- The equation of the source: `gcd(a, b) = b === 0n ? a : gcd(b, a % b)`. -/
theorem gcd_eq (a b : Int) : gcd a b = if b = 0 then a else gcd b (Int.tmod a b) := by
  unfold gcd
  by_cases hb : b = 0
  · simp [hb, gcdLoop]
  · rw [if_neg hb]
    conv_lhs => unfold gcdLoop
    rw [if_neg hb]
    have hpos : 0 < b.natAbs := Int.natAbs_pos.mpr hb
    have := Nat.mod_lt a.natAbs hpos
    apply gcdLoop_fuel <;> rw [natAbs_tmod] <;> omega

theorem gcd_natAbs (a b : Int) : (gcd a b).natAbs = Int.gcd a b :=
  gcdLoop_natAbs _ a b (Nat.lt_succ_self _)

theorem gcd_ne_zero (a b : Int) (hb : b ≠ 0) : gcd a b ≠ 0 := by
  intro h
  have h1 := gcd_natAbs a b
  rw [h] at h1
  have h2 : Int.gcd a b = 0 := by simpa using h1.symm
  rw [Int.gcd_eq_zero_iff] at h2
  exact hb h2.2

end Fraction


namespace Fraction

/-! ### The constructor -/

theorem new_zero_den (a : Int) : new a 0 = .error .denominatorZero := by
  simp [new]

theorem new_ok (a b : Int) (hb : b ≠ 0) :
    ∃ r, new a b = .ok r ∧ r.Canonical ∧ r.toRat = (a : ℚ) / (b : ℚ) := by
  have hg : gcd a b ≠ 0 := gcd_ne_zero a b hb
  have hga : gcd a b ∣ a := by
    rw [← Int.natAbs_dvd, gcd_natAbs]; exact Int.gcd_dvd_left
  have hgb : gcd a b ∣ b := by
    rw [← Int.natAbs_dvd, gcd_natAbs]; exact Int.gcd_dvd_right
  obtain ⟨a1, ha1⟩ := hga
  obtain ⟨b1, hb1⟩ := hgb
  have hb1ne : b1 ≠ 0 := by
    intro h; rw [h, mul_zero] at hb1; exact hb hb1
  have hcop : Int.gcd a1 b1 = 1 := by
    have h0 := gcd_natAbs a b
    have hpos : 0 < (gcd a b).natAbs := Int.natAbs_pos.mpr hg
    generalize gcd a b = g at ha1 hb1 h0 hpos
    have h1 : Int.gcd a b = g.natAbs * Int.gcd a1 b1 := by
      rw [ha1, hb1]
      exact Int.gcd_mul_left _ _ _
    rw [← h0] at h1
    have h2 : g.natAbs * 1 = g.natAbs * Int.gcd a1 b1 := by rw [mul_one]; exact h1
    exact (Nat.eq_of_mul_eq_mul_left hpos h2).symm
  have hnum : Int.tdiv a (gcd a b) = a1 := by
    generalize gcd a b = g at ha1 hg
    rw [ha1]
    exact Int.mul_tdiv_cancel_left _ hg
  have hden : Int.tdiv b (gcd a b) = b1 := by
    generalize gcd a b = g at hb1 hg
    rw [hb1]
    exact Int.mul_tdiv_cancel_left _ hg
  have hgq : ((gcd a b : Int) : ℚ) ≠ 0 := by exact_mod_cast hg
  have hb1q : (b1 : ℚ) ≠ 0 := by exact_mod_cast hb1ne
  have hval : (a : ℚ) / (b : ℚ) = (a1 : ℚ) / (b1 : ℚ) := by
    have e1 : (a : ℚ) = ((gcd a b : Int) : ℚ) * (a1 : ℚ) := by exact_mod_cast ha1
    have e2 : (b : ℚ) = ((gcd a b : Int) : ℚ) * (b1 : ℚ) := by exact_mod_cast hb1
    rw [e1, e2]
    field_simp
    ring
  unfold new
  rw [if_neg hb]
  simp only [if_neg hg, hnum, hden]
  by_cases hneg : b1 < 0
  · rw [if_pos hneg]
    refine ⟨⟨-a1, -b1⟩, rfl, ⟨?_, ?_⟩, ?_⟩
    · show 0 < -b1
      omega
    · show Int.gcd (-a1) (-b1) = 1
      rw [Int.gcd_neg, Int.neg_gcd]; exact hcop
    · show ((-a1 : Int) : ℚ) / ((-b1 : Int) : ℚ) = _
      rw [hval]; push_cast; rw [neg_div_neg_eq]
  · rw [if_neg hneg]
    refine ⟨⟨a1, b1⟩, rfl, ⟨?_, hcop⟩, ?_⟩
    · show 0 < b1
      omega
    · show (a1 : ℚ) / (b1 : ℚ) = _
      rw [hval]

theorem Canonical.den_ne_zero {p : Fraction} (hp : p.Canonical) : p.den ≠ 0 := by
  have := hp.1; omega

theorem Canonical.num_eq {p : Fraction} (hp : p.Canonical) : p.toRat.num = p.num :=
  Rat.num_div_eq_of_coprime hp.1 hp.2

theorem Canonical.den_eq {p : Fraction} (hp : p.Canonical) : (p.toRat.den : Int) = p.den :=
  Rat.den_div_eq_of_coprime hp.1 hp.2

/-- A canonical object is determined by the rational number it stands for. -/
theorem Canonical.ext {p q : Fraction} (hp : p.Canonical) (hq : q.Canonical)
    (h : p.toRat = q.toRat) : p = q := by
  have h1 : p.num = q.num := by rw [← hp.num_eq, ← hq.num_eq, h]
  have h2 : p.den = q.den := by rw [← hp.den_eq, ← hq.den_eq, h]
  cases p; cases q; simp_all

theorem toRat_eq_zero_iff {p : Fraction} (hp : p.Canonical) : p.toRat = 0 ↔ p.num = 0 := by
  rw [← hp.num_eq]; exact Rat.num_eq_zero.symm

/-! ### The four operations -/

theorem add_ok (p q : Fraction) (hp : p.Canonical) (hq : q.Canonical) :
    ∃ r, p.add q = .ok r ∧ r.Canonical ∧ r.toRat = p.toRat + q.toRat := by
  have h1 := hp.den_ne_zero
  have h2 := hq.den_ne_zero
  obtain ⟨r, hr, hc, hv⟩ := new_ok (p.num * q.den + q.num * p.den) (p.den * q.den)
    (mul_ne_zero h1 h2)
  refine ⟨r, hr, hc, ?_⟩
  have h1q : (p.den : ℚ) ≠ 0 := by exact_mod_cast h1
  have h2q : (q.den : ℚ) ≠ 0 := by exact_mod_cast h2
  rw [hv]; unfold toRat; push_cast; field_simp; try ring

theorem subtract_ok (p q : Fraction) (hp : p.Canonical) (hq : q.Canonical) :
    ∃ r, p.subtract q = .ok r ∧ r.Canonical ∧ r.toRat = p.toRat - q.toRat := by
  have h1 := hp.den_ne_zero
  have h2 := hq.den_ne_zero
  obtain ⟨r, hr, hc, hv⟩ := new_ok (p.num * q.den - q.num * p.den) (p.den * q.den)
    (mul_ne_zero h1 h2)
  refine ⟨r, hr, hc, ?_⟩
  have h1q : (p.den : ℚ) ≠ 0 := by exact_mod_cast h1
  have h2q : (q.den : ℚ) ≠ 0 := by exact_mod_cast h2
  rw [hv]; unfold toRat; push_cast; field_simp; try ring

theorem multiply_ok (p q : Fraction) (hp : p.Canonical) (hq : q.Canonical) :
    ∃ r, p.multiply q = .ok r ∧ r.Canonical ∧ r.toRat = p.toRat * q.toRat := by
  have h1 := hp.den_ne_zero
  have h2 := hq.den_ne_zero
  obtain ⟨r, hr, hc, hv⟩ := new_ok (p.num * q.num) (p.den * q.den) (mul_ne_zero h1 h2)
  refine ⟨r, hr, hc, ?_⟩
  have h1q : (p.den : ℚ) ≠ 0 := by exact_mod_cast h1
  have h2q : (q.den : ℚ) ≠ 0 := by exact_mod_cast h2
  rw [hv]; unfold toRat; push_cast; field_simp; try ring

theorem divide_zero (p q : Fraction) (hq : q.num = 0) : p.divide q = .error .divideByZero := by
  simp [divide, hq]

theorem divide_ok (p q : Fraction) (hp : p.Canonical) (hq : q.Canonical) (hn : q.num ≠ 0) :
    ∃ r, p.divide q = .ok r ∧ r.Canonical ∧ r.toRat = p.toRat / q.toRat := by
  have h1 := hp.den_ne_zero
  have h2 := hq.den_ne_zero
  obtain ⟨r, hr, hc, hv⟩ := new_ok (p.num * q.den) (p.den * q.num) (mul_ne_zero h1 hn)
  refine ⟨r, ?_, hc, ?_⟩
  · unfold divide; rw [if_neg hn]; exact hr
  · have h1q : (p.den : ℚ) ≠ 0 := by exact_mod_cast h1
    have h2q : (q.den : ℚ) ≠ 0 := by exact_mod_cast h2
    have h3q : (q.num : ℚ) ≠ 0 := by exact_mod_cast hn
    rw [hv]; unfold toRat; push_cast; field_simp; try ring

theorem new_int (a : Int) : new a 1 = .ok ⟨a, 1⟩ := by
  obtain ⟨r, hr, hc, hv⟩ := new_ok a 1 one_ne_zero
  rw [hr]
  congr 1
  apply Canonical.ext hc
  · exact ⟨Int.one_pos, by simp⟩
  · rw [hv]; simp [toRat]

end Fraction

namespace Fraction

/-! ### The contract of `Fraction` -/

/-- C5 (canonical form): for `b ≠ 0`, `new Fraction(a, b)` succeeds with `den > 0`,
`gcd(|num|, den) = 1` and `num / den = a / b`; zero is stored as `0/1` whatever the
sign of `b`; and on canonical operands `add`, `subtract` and `multiply` return a
canonical object, as does every successful `divide`. -/
theorem canonical_invariant (a b : Int) (hb : b ≠ 0) (p q : Fraction)
    (hp : p.Canonical) (hq : q.Canonical) :
    (∃ r, new a b = .ok r ∧ 0 < r.den ∧ Nat.gcd r.num.natAbs r.den.natAbs = 1 ∧
      (r.num : ℚ) / (r.den : ℚ) = (a : ℚ) / (b : ℚ)) ∧
    new 0 b = .ok ⟨0, 1⟩ ∧
    (∃ r, p.add q = .ok r ∧ r.Canonical) ∧
    (∃ r, p.subtract q = .ok r ∧ r.Canonical) ∧
    (∃ r, p.multiply q = .ok r ∧ r.Canonical) ∧
    (∀ r, p.divide q = .ok r → r.Canonical) := by
  refine ⟨?_, ?_, ?_, ?_, ?_, ?_⟩
  · obtain ⟨r, hr, hc, hv⟩ := new_ok a b hb
    exact ⟨r, hr, hc.1, hc.2, hv⟩
  · obtain ⟨r, hr, hc, hv⟩ := new_ok 0 b hb
    rw [hr]
    congr 1
    apply Canonical.ext hc ⟨Int.one_pos, by simp⟩
    rw [hv]; simp [toRat]
  · obtain ⟨r, hr, hc, _⟩ := add_ok p q hp hq
    exact ⟨r, hr, hc⟩
  · obtain ⟨r, hr, hc, _⟩ := subtract_ok p q hp hq
    exact ⟨r, hr, hc⟩
  · obtain ⟨r, hr, hc, _⟩ := multiply_ok p q hp hq
    exact ⟨r, hr, hc⟩
  · intro r hr
    by_cases hn : q.num = 0
    · rw [divide_zero p q hn] at hr; cases hr
    · obtain ⟨r1, hr1, hc, _⟩ := divide_ok p q hp hq hn
      rw [hr1] at hr
      cases hr
      exact hc

theorem canonical_invariant_witness :
    ((-6 : Int) ≠ 0 ∧ Canonical ⟨1, 2⟩ ∧ Canonical ⟨-1, 3⟩) ∧
    ((∃ r, new 4 (-6) = .ok r ∧ 0 < r.den ∧ Nat.gcd r.num.natAbs r.den.natAbs = 1 ∧
      (r.num : ℚ) / (r.den : ℚ) = ((4 : Int) : ℚ) / ((-6 : Int) : ℚ)) ∧
    new 0 (-6) = .ok ⟨0, 1⟩ ∧
    (∃ r, add ⟨1, 2⟩ ⟨-1, 3⟩ = .ok r ∧ r.Canonical) ∧
    (∃ r, subtract ⟨1, 2⟩ ⟨-1, 3⟩ = .ok r ∧ r.Canonical) ∧
    (∃ r, multiply ⟨1, 2⟩ ⟨-1, 3⟩ = .ok r ∧ r.Canonical) ∧
    (∀ r, divide ⟨1, 2⟩ ⟨-1, 3⟩ = .ok r → r.Canonical)) :=
  ⟨⟨by decide, by decide, by decide⟩,
    canonical_invariant 4 (-6) (by decide) ⟨1, 2⟩ ⟨-1, 3⟩ (by decide) (by decide)⟩

/-- C6 (reduction canonicality): for `b ≠ 0` and `m ≠ 0`, `new Fraction(a, b)` and
`new Fraction(a * m, b * m)` are the same object: equal `num`, equal `den`. -/
theorem new_scale (a b m : Int) (hb : b ≠ 0) (hm : m ≠ 0) :
    ∃ r, new a b = .ok r ∧ new (a * m) (b * m) = .ok r := by
  obtain ⟨r, hr, hc, hv⟩ := new_ok a b hb
  obtain ⟨r2, hr2, hc2, hv2⟩ := new_ok (a * m) (b * m) (mul_ne_zero hb hm)
  refine ⟨r, hr, ?_⟩
  rw [hr2]
  congr 1
  apply Canonical.ext hc2 hc
  rw [hv, hv2]
  have hmq : (m : ℚ) ≠ 0 := by exact_mod_cast hm
  push_cast
  exact mul_div_mul_right _ _ hmq

theorem new_scale_witness :
    ((4 : Int) ≠ 0 ∧ (-3 : Int) ≠ 0) ∧
    ∃ r, new 6 4 = .ok r ∧ new (6 * (-3)) (4 * (-3)) = .ok r :=
  ⟨⟨by decide, by decide⟩, new_scale 6 4 (-3) (by decide) (by decide)⟩

/-- C7: on canonical operands `add`, `subtract` and `multiply` never fail, and the
`num` and `den` of the result are the numerator and the denominator, in lowest terms
with positive denominator, of the exact sum, difference and product. -/
theorem add_subtract_multiply_exact (p q : Fraction) (hp : p.Canonical) (hq : q.Canonical) :
    (∃ r, p.add q = .ok r ∧ r.num = (p.toRat + q.toRat).num ∧
      r.den = ((p.toRat + q.toRat).den : Int)) ∧
    (∃ r, p.subtract q = .ok r ∧ r.num = (p.toRat - q.toRat).num ∧
      r.den = ((p.toRat - q.toRat).den : Int)) ∧
    (∃ r, p.multiply q = .ok r ∧ r.num = (p.toRat * q.toRat).num ∧
      r.den = ((p.toRat * q.toRat).den : Int)) := by
  refine ⟨?_, ?_, ?_⟩
  · obtain ⟨r, hr, hc, hv⟩ := add_ok p q hp hq
    exact ⟨r, hr, by rw [← hv, hc.num_eq], by rw [← hv, hc.den_eq]⟩
  · obtain ⟨r, hr, hc, hv⟩ := subtract_ok p q hp hq
    exact ⟨r, hr, by rw [← hv, hc.num_eq], by rw [← hv, hc.den_eq]⟩
  · obtain ⟨r, hr, hc, hv⟩ := multiply_ok p q hp hq
    exact ⟨r, hr, by rw [← hv, hc.num_eq], by rw [← hv, hc.den_eq]⟩

theorem add_subtract_multiply_exact_witness :
    (Canonical ⟨-3, 4⟩ ∧ Canonical ⟨5, 6⟩) ∧
    ((∃ r, add ⟨-3, 4⟩ ⟨5, 6⟩ = .ok r ∧ r.num = (toRat ⟨-3, 4⟩ + toRat ⟨5, 6⟩).num ∧
      r.den = ((toRat ⟨-3, 4⟩ + toRat ⟨5, 6⟩).den : Int)) ∧
    (∃ r, subtract ⟨-3, 4⟩ ⟨5, 6⟩ = .ok r ∧ r.num = (toRat ⟨-3, 4⟩ - toRat ⟨5, 6⟩).num ∧
      r.den = ((toRat ⟨-3, 4⟩ - toRat ⟨5, 6⟩).den : Int)) ∧
    (∃ r, multiply ⟨-3, 4⟩ ⟨5, 6⟩ = .ok r ∧ r.num = (toRat ⟨-3, 4⟩ * toRat ⟨5, 6⟩).num ∧
      r.den = ((toRat ⟨-3, 4⟩ * toRat ⟨5, 6⟩).den : Int))) :=
  ⟨⟨by decide, by decide⟩, add_subtract_multiply_exact ⟨-3, 4⟩ ⟨5, 6⟩ (by decide) (by decide)⟩

/-- C8: on canonical operands `divide` fails exactly when `other.num` is `0`, with
the error of `divide` itself (as for `1/1` divided by `0/1`); otherwise it returns
the exact quotient in lowest terms with positive denominator, whatever the sign of
the divisor. -/
theorem divide_contract (p q : Fraction) (hp : p.Canonical) (hq : q.Canonical) :
    ((∃ e, p.divide q = .error e) ↔ q.num = 0) ∧
    (p.divide q = .error .divideByZero ↔ q.num = 0) ∧
    (q.num ≠ 0 → ∃ r, p.divide q = .ok r ∧ 0 < r.den ∧
      r.num = (p.toRat / q.toRat).num ∧ r.den = ((p.toRat / q.toRat).den : Int)) ∧
    divide ⟨1, 1⟩ ⟨0, 1⟩ = .error .divideByZero := by
  have key : q.num ≠ 0 → ∃ r, p.divide q = .ok r ∧ 0 < r.den ∧
      r.num = (p.toRat / q.toRat).num ∧ r.den = ((p.toRat / q.toRat).den : Int) := by
    intro hn
    obtain ⟨r, hr, hc, hv⟩ := divide_ok p q hp hq hn
    exact ⟨r, hr, hc.1, by rw [← hv, hc.num_eq], by rw [← hv, hc.den_eq]⟩
  refine ⟨⟨?_, ?_⟩, ⟨?_, ?_⟩, key, rfl⟩
  · rintro ⟨e, he⟩
    by_contra hn
    obtain ⟨r, hr, _⟩ := key hn
    rw [hr] at he; cases he
  · intro hn; exact ⟨_, divide_zero p q hn⟩
  · intro he
    by_contra hn
    obtain ⟨r, hr, _⟩ := key hn
    rw [hr] at he; cases he
  · exact divide_zero p q

theorem divide_contract_witness :
    (Canonical ⟨3, 4⟩ ∧ Canonical ⟨-5, 6⟩) ∧
    (((∃ e, divide ⟨3, 4⟩ ⟨-5, 6⟩ = .error e) ↔ (-5 : Int) = 0) ∧
    (divide ⟨3, 4⟩ ⟨-5, 6⟩ = .error .divideByZero ↔ (-5 : Int) = 0) ∧
    ((-5 : Int) ≠ 0 → ∃ r, divide ⟨3, 4⟩ ⟨-5, 6⟩ = .ok r ∧ 0 < r.den ∧
      r.num = (toRat ⟨3, 4⟩ / toRat ⟨-5, 6⟩).num ∧
      r.den = ((toRat ⟨3, 4⟩ / toRat ⟨-5, 6⟩).den : Int)) ∧
    divide ⟨1, 1⟩ ⟨0, 1⟩ = .error .divideByZero) :=
  ⟨⟨by decide, by decide⟩, divide_contract ⟨3, 4⟩ ⟨-5, 6⟩ (by decide) (by decide)⟩

/-- C9: `new Fraction(a, b)` fails exactly when `b` is `0`, with the error of the
constructor (as for `new Fraction(5, 0)`); for `b ≠ 0` the computed gcd is not `0`,
so the two divisions by it are defined, and the construction succeeds. -/
theorem new_fails_iff (a b : Int) :
    ((∃ e, new a b = .error e) ↔ b = 0) ∧
    (new a b = .error .denominatorZero ↔ b = 0) ∧
    (b ≠ 0 → gcd a b ≠ 0 ∧ ∃ r, new a b = .ok r) ∧
    new 5 0 = .error .denominatorZero := by
  have key : b ≠ 0 → gcd a b ≠ 0 ∧ ∃ r, new a b = .ok r := by
    intro hb
    obtain ⟨r, hr, _⟩ := new_ok a b hb
    exact ⟨gcd_ne_zero a b hb, r, hr⟩
  refine ⟨⟨?_, ?_⟩, ⟨?_, ?_⟩, key, rfl⟩
  · rintro ⟨e, he⟩
    by_contra hb
    obtain ⟨_, r, hr⟩ := key hb
    rw [hr] at he; cases he
  · intro hb; subst hb; exact ⟨_, new_zero_den a⟩
  · intro he
    by_contra hb
    obtain ⟨_, r, hr⟩ := key hb
    rw [hr] at he; cases he
  · intro hb; subst hb; exact new_zero_den a

theorem new_fails_iff_witness :
    ((∃ e, new 7 (-2) = .error e) ↔ (-2 : Int) = 0) ∧
    (new 7 (-2) = .error .denominatorZero ↔ (-2 : Int) = 0) ∧
    ((-2 : Int) ≠ 0 → gcd 7 (-2) ≠ 0 ∧ ∃ r, new 7 (-2) = .ok r) ∧
    new 5 0 = .error .denominatorZero :=
  new_fails_iff 7 (-2)

end Fraction

/-! ### Loops -/

theorem forLoop_spec {σ : Type} (body : Nat → σ → Except JsError σ) (P : Nat → σ → Prop)
    (Q : JsError → Prop) : ∀ (n i : Nat) (s : σ), P i s →
    (∀ j s, i ≤ j → j < i + n → P j s →
      (∃ s1, body j s = .ok s1 ∧ P (j + 1) s1) ∨ (∃ e, body j s = .error e ∧ Q e)) →
    (∃ s1, forLoop body n i s = .ok s1 ∧ P (i + n) s1) ∨
      (∃ e, forLoop body n i s = .error e ∧ Q e) := by
  intro n
  induction n with
  | zero => intro i s h _; exact Or.inl ⟨s, rfl, h⟩
  | succ n ih =>
    intro i s h hstep
    rcases hstep i s (Nat.le_refl i) (by omega) h with ⟨s1, hs1, hP⟩ | ⟨e, he, hQ⟩
    · have := ih (i + 1) s1 hP (fun j s hj hlt hPj => hstep j s (by omega) (by omega) hPj)
      simp only [forLoop, hs1]
      rw [show i + (n + 1) = i + 1 + n by omega]
      exact this
    · right
      exact ⟨e, by simp only [forLoop, he], hQ⟩

theorem forLoop_ok {σ : Type} (body : Nat → σ → Except JsError σ) (P : Nat → σ → Prop)
    (n i : Nat) (s : σ) (h0 : P i s)
    (hstep : ∀ j s, i ≤ j → j < i + n → P j s → ∃ s1, body j s = .ok s1 ∧ P (j + 1) s1) :
    ∃ s1, forLoop body n i s = .ok s1 ∧ P (i + n) s1 := by
  rcases forLoop_spec body P (fun _ => False) n i s h0
    (fun j s hj hlt hP => Or.inl (hstep j s hj hlt hP)) with h | ⟨_, _, hF⟩
  · exact h
  · exact hF.elim

theorem forDown_spec {σ : Type} (body : Nat → σ → Except JsError σ) (P : Nat → σ → Prop)
    (Q : JsError → Prop) : ∀ (n : Nat) (s : σ), P n s →
    (∀ j s, j < n → P (j + 1) s →
      (∃ s1, body j s = .ok s1 ∧ P j s1) ∨ (∃ e, body j s = .error e ∧ Q e)) →
    (∃ s1, forDown body n s = .ok s1 ∧ P 0 s1) ∨
      (∃ e, forDown body n s = .error e ∧ Q e) := by
  intro n
  induction n with
  | zero => intro s h _; exact Or.inl ⟨s, rfl, h⟩
  | succ n ih =>
    intro s h hstep
    rcases hstep n s (Nat.lt_succ_self n) h with ⟨s1, hs1, hP⟩ | ⟨e, he, hQ⟩
    · have := ih s1 hP (fun j s hj hPj => hstep j s (by omega) hPj)
      simp only [forDown, hs1]
      exact this
    · right
      exact ⟨e, by simp only [forDown, he], hQ⟩

/-! ### Reads and writes of the matrix -/

theorem Shape.row_length {k : Nat} {m : Mat} (h : Shape k m) {r : Nat} (hr : r < k) :
    (m.getD r []).length = k + 1 := by
  have hlen : r < m.length := by rw [h.1]; exact hr
  rw [List.getD_eq_getElem _ _ hlen]
  exact h.2 _ (List.getElem_mem hlen)

theorem getEntry_ok {k : Nat} {m : Mat} (h : Shape k m) {r c : Nat} (hr : r < k)
    (hc : c < k + 1) : getEntry m r c = .ok (entF m r c) := by
  have hlen : r < m.length := by rw [h.1]; exact hr
  have hrow := h.row_length hr
  unfold getEntry entF
  rw [List.getD_eq_getElem _ _ hlen] at hrow ⊢
  rw [List.getElem?_eq_getElem hlen]
  have hc2 : c < (m[r]).length := by rw [hrow]; exact hc
  simp only [List.getElem?_eq_getElem hc2, List.getD_eq_getElem _ _ hc2]

theorem entF_canonical {k : Nat} {m : Mat} (h : Shape k m) (hcan : AllCanonical m)
    {r c : Nat} (hr : r < k) (hc : c < k + 1) : (entF m r c).Canonical := by
  have hlen : r < m.length := by rw [h.1]; exact hr
  have hrow := h.row_length hr
  unfold entF
  rw [List.getD_eq_getElem _ _ hlen] at hrow ⊢
  have hc2 : c < (m[r]).length := by rw [hrow]; exact hc
  rw [List.getD_eq_getElem _ _ hc2]
  exact hcan _ (List.getElem_mem hlen) _ (List.getElem_mem hc2)

theorem setEntry_ok {k : Nat} {m : Mat} (h : Shape k m) (hcan : AllCanonical m)
    {r c : Nat} (hr : r < k) (hc : c < k + 1) (v : Fraction) (hv : v.Canonical) :
    ∃ m1, setEntry m r c v = .ok m1 ∧ Shape k m1 ∧ AllCanonical m1 ∧
      ∀ r1 c1, entF m1 r1 c1 = if r1 = r ∧ c1 = c then v else entF m r1 c1 := by
  have hlen : r < m.length := by rw [h.1]; exact hr
  have hrow := h.row_length hr
  rw [List.getD_eq_getElem _ _ hlen] at hrow
  have hc2 : c < (m[r]).length := by rw [hrow]; exact hc
  refine ⟨m.set r ((m[r]).set c v), ?_, ⟨?_, ?_⟩, ?_, ?_⟩
  · unfold setEntry
    rw [List.getElem?_eq_getElem hlen]
  · rw [List.length_set]; exact h.1
  · intro row hmem
    rcases List.mem_or_eq_of_mem_set hmem with h1 | h1
    · exact h.2 row h1
    · rw [h1, List.length_set]; exact hrow
  · intro row hmem f hf
    rcases List.mem_or_eq_of_mem_set hmem with h1 | h1
    · exact hcan row h1 f hf
    · rw [h1] at hf
      rcases List.mem_or_eq_of_mem_set hf with h2 | h2
      · exact hcan _ (List.getElem_mem hlen) f h2
      · rw [h2]; exact hv
  · intro r1 c1
    unfold entF
    by_cases hr1 : r1 = r
    · subst hr1
      have e1 : (m.set r1 ((m[r1]).set c v)).getD r1 [] = (m[r1]).set c v := by
        rw [List.getD_eq_getElem?_getD, List.getElem?_set_self hlen]; rfl
      rw [e1, List.getD_eq_getElem _ _ hlen]
      by_cases hc1 : c1 = c
      · subst hc1
        simp [List.getD_eq_getElem?_getD, List.getElem?_set_self hc2]
      · have hne : c ≠ c1 := fun h => hc1 h.symm
        simp [hc1, List.getD_eq_getElem?_getD, List.getElem?_set_ne hne]
    · have hne : r ≠ r1 := fun h => hr1 h.symm
      simp [hr1, List.getD_eq_getElem?_getD, List.getElem?_set_ne hne]

theorem swapRows_ok {k : Nat} {m : Mat} (h : Shape k m) (hcan : AllCanonical m)
    {i mx : Nat} (hi : i < k) (hmx : mx < k) :
    Shape k (swapRows m i mx) ∧ AllCanonical (swapRows m i mx) ∧
      ∀ r c, entF (swapRows m i mx) r c =
        entF m (if r = mx then i else if r = i then mx else r) c := by
  have hli : i < m.length := by rw [h.1]; exact hi
  have hlm : mx < m.length := by rw [h.1]; exact hmx
  have hmi : m.getD i [] ∈ m := by
    rw [List.getD_eq_getElem _ _ hli]; exact List.getElem_mem hli
  have hmm : m.getD mx [] ∈ m := by
    rw [List.getD_eq_getElem _ _ hlm]; exact List.getElem_mem hlm
  have hmem : ∀ row ∈ swapRows m i mx, row ∈ m := by
    intro row hrow
    unfold swapRows at hrow
    rcases List.mem_or_eq_of_mem_set hrow with h1 | h1
    · rcases List.mem_or_eq_of_mem_set h1 with h2 | h2
      · exact h2
      · rw [h2]; exact hmm
    · rw [h1]; exact hmi
  refine ⟨⟨?_, fun row hrow => h.2 row (hmem row hrow)⟩,
    fun row hrow => hcan row (hmem row hrow), ?_⟩
  · unfold swapRows; rw [List.length_set, List.length_set]; exact h.1
  · intro r c
    unfold entF swapRows
    congr 1
    have hlm2 : mx < (m.set i (m.getD mx [])).length := by rw [List.length_set]; exact hlm
    by_cases h1 : r = mx
    · subst h1
      rw [if_pos rfl, List.getD_eq_getElem?_getD, List.getElem?_set_self hlm2]
      rfl
    · have hne : mx ≠ r := fun h => h1 h.symm
      rw [if_neg h1]
      by_cases h2 : r = i
      · subst h2
        simp [List.getD_eq_getElem?_getD, List.getElem?_set_ne hne, List.getElem?_set_self hli]
      · have hne2 : i ≠ r := fun h => h2 h.symm
        simp [h2, List.getD_eq_getElem?_getD, List.getElem?_set_ne hne, List.getElem?_set_ne hne2]

/-! ### The pivot search -/

theorem numberAbs_eq_zero (n : Int) : numberAbs n = 0 ↔ n = 0 := by
  unfold numberAbs
  dsimp only
  by_cases h : n.natAbs < 2 ^ 53
  · rw [if_pos h]; exact Int.natAbs_eq_zero
  · rw [if_neg h]
    have hge : 2 ^ 53 ≤ n.natAbs := Nat.le_of_not_lt h
    have hn : n ≠ 0 := by
      intro h0; rw [h0] at hge; simp at hge
    have hne : n.natAbs ≠ 0 := by omega
    have hlog : 2 ^ Nat.log2 n.natAbs ≤ n.natAbs := Nat.log2_self_le hne
    have hp : 0 < 2 ^ (Nat.log2 n.natAbs - 52) := Nat.two_pow_pos _
    have hq : 0 < n.natAbs / 2 ^ (Nat.log2 n.natAbs - 52) := by
      apply Nat.div_pos _ hp
      exact le_trans (Nat.pow_le_pow_right (by decide) (Nat.sub_le _ _)) hlog
    have hr : 0 < (if 2 ^ (Nat.log2 n.natAbs - 52 - 1) < n.natAbs % 2 ^ (Nat.log2 n.natAbs - 52) ∨
        (n.natAbs % 2 ^ (Nat.log2 n.natAbs - 52) = 2 ^ (Nat.log2 n.natAbs - 52 - 1) ∧
          n.natAbs / 2 ^ (Nat.log2 n.natAbs - 52) % 2 = 1)
        then n.natAbs / 2 ^ (Nat.log2 n.natAbs - 52) + 1
        else n.natAbs / 2 ^ (Nat.log2 n.natAbs - 52)) := by
      by_cases hc : 2 ^ (Nat.log2 n.natAbs - 52 - 1) < n.natAbs % 2 ^ (Nat.log2 n.natAbs - 52) ∨
        (n.natAbs % 2 ^ (Nat.log2 n.natAbs - 52) = 2 ^ (Nat.log2 n.natAbs - 52 - 1) ∧
          n.natAbs / 2 ^ (Nat.log2 n.natAbs - 52) % 2 = 1)
      · rw [if_pos hc]; exact Nat.succ_pos _
      · rw [if_neg hc]; exact hq
    have hv := Nat.mul_pos hr hp
    constructor
    · intro hz
      exfalso
      by_cases hinf : 2 ^ 1024 ≤ (if 2 ^ (Nat.log2 n.natAbs - 52 - 1) <
          n.natAbs % 2 ^ (Nat.log2 n.natAbs - 52) ∨
        (n.natAbs % 2 ^ (Nat.log2 n.natAbs - 52) = 2 ^ (Nat.log2 n.natAbs - 52 - 1) ∧
          n.natAbs / 2 ^ (Nat.log2 n.natAbs - 52) % 2 = 1)
        then n.natAbs / 2 ^ (Nat.log2 n.natAbs - 52) + 1
        else n.natAbs / 2 ^ (Nat.log2 n.natAbs - 52)) * 2 ^ (Nat.log2 n.natAbs - 52)
      · rw [if_pos hinf] at hz
        exact absurd hz (by positivity)
      · rw [if_neg hinf] at hz
        exact absurd hz (Nat.ne_of_gt hv)
    · intro h0; exact absurd h0 hn

theorem findMax_ok {k : Nat} {m : Mat} (h : Shape k m) {i : Nat} (hi : i < k) :
    ∃ mx, findMax k i m = .ok mx ∧ i ≤ mx ∧ mx < k ∧
      ∀ r, i ≤ r → r < k →
        numberAbs (entF m r i).num ≤ numberAbs (entF m mx i).num := by
  have key := forLoop_ok
    (fun j max => do
      let a ← getEntry m j i
      let b ← getEntry m max i
      pure (if numberAbs a.num > numberAbs b.num then j else max))
    (fun j mx => i ≤ mx ∧ mx < j ∧
      ∀ r, i ≤ r → r < j → numberAbs (entF m r i).num ≤ numberAbs (entF m mx i).num)
    (k - (i + 1)) (i + 1) i
    ⟨Nat.le_refl i, Nat.lt_succ_self i, fun r h1 h2 => by
      have : r = i := by omega
      subst this; exact Nat.le_refl _⟩
    (by
      intro j mx hj hjk ⟨h1, h2, h3⟩
      have hjk2 : j < k := by omega
      have hmk : mx < k := by omega
      have hik : i < k + 1 := by omega
      simp only [getEntry_ok h hjk2 hik, getEntry_ok h hmk hik, bind, Except.bind, pure,
        Except.pure]
      by_cases hgt : numberAbs (entF m j i).num > numberAbs (entF m mx i).num
      · refine ⟨j, by rw [if_pos hgt], by omega, Nat.lt_succ_self j, ?_⟩
        intro r hr1 hr2
        by_cases hrj : r = j
        · subst hrj; exact Nat.le_refl _
        · exact le_trans (h3 r hr1 (by omega)) (Nat.le_of_lt hgt)
      · refine ⟨mx, by rw [if_neg hgt], h1, by omega, ?_⟩
        intro r hr1 hr2
        by_cases hrj : r = j
        · subst hrj; exact Nat.le_of_not_lt hgt
        · exact h3 r hr1 (by omega))
  obtain ⟨mx, hmx, h1, h2, h3⟩ := key
  have e : i + 1 + (k - (i + 1)) = k := by omega
  rw [e] at h2 h3
  exact ⟨mx, hmx, h1, h2, h3⟩

/-! ### One elimination step -/

theorem ent_setEntry {k : Nat} {m : Mat} (h : Shape k m) (hcan : AllCanonical m)
    {r c : Nat} (hr : r < k) (hc : c < k + 1) (v : Fraction) (hv : v.Canonical) :
    ∃ m1, setEntry m r c v = .ok m1 ∧ Shape k m1 ∧ AllCanonical m1 ∧
      ∀ r1 c1, ent m1 r1 c1 = if r1 = r ∧ c1 = c then v.toRat else ent m r1 c1 := by
  obtain ⟨m1, h1, h2, h3, h4⟩ := setEntry_ok h hcan hr hc v hv
  refine ⟨m1, h1, h2, h3, ?_⟩
  intro r1 c1
  unfold ent
  rw [h4 r1 c1]
  split_ifs <;> rfl

theorem eliminateRow_loop {k : Nat} {m : Mat} (h : Shape k m) (hcan : AllCanonical m)
    {i j : Nat} (hij : i ≠ j) (hi : i < k) (hj : j < k) (factor : Fraction)
    (hf : factor.Canonical) :
    ∃ m1, forLoop (fun l matrix => do
        let x ← getEntry matrix j l
        let y ← getEntry matrix i l
        let t ← factor.multiply y
        let v ← x.subtract t
        setEntry matrix j l v) (k + 1 - i) i m = .ok m1 ∧
      Shape k m1 ∧ AllCanonical m1 ∧
      ∀ r c, ent m1 r c =
        if r = j ∧ i ≤ c ∧ c < k + 1 then ent m j c - factor.toRat * ent m i c
        else ent m r c := by
  have key := forLoop_ok
    (fun l matrix => do
        let x ← getEntry matrix j l
        let y ← getEntry matrix i l
        let t ← factor.multiply y
        let v ← x.subtract t
        setEntry matrix j l v)
    (fun l m1 => Shape k m1 ∧ AllCanonical m1 ∧
      ∀ r c, ent m1 r c =
        if r = j ∧ i ≤ c ∧ c < l then ent m j c - factor.toRat * ent m i c
        else ent m r c)
    (k + 1 - i) i m
    ⟨h, hcan, fun r c => by
      have : ¬ (r = j ∧ i ≤ c ∧ c < i) := by omega
      rw [if_neg this]⟩
    (by
      intro l m1 hil hlk ⟨hs, hc, hE⟩
      have hlk2 : l < k + 1 := by omega
      obtain ⟨t, ht, htc, htv⟩ := Fraction.multiply_ok factor (entF m1 i l) hf
        (entF_canonical hs hc hi hlk2)
      obtain ⟨v, hv, hvc, hvv⟩ := Fraction.subtract_ok (entF m1 j l) t
        (entF_canonical hs hc hj hlk2) htc
      obtain ⟨m2, hm2, hs2, hc2, hE2⟩ := ent_setEntry hs hc hj hlk2 v hvc
      refine ⟨m2, ?_, hs2, hc2, ?_⟩
      · simp only [getEntry_ok hs hj hlk2, getEntry_ok hs hi hlk2, ht, hv, hm2, bind,
          Except.bind]
      · intro r c
        rw [hE2 r c]
        have e1 : ent m1 j l = ent m j l := by
          rw [hE j l]
          have : ¬ (j = j ∧ i ≤ l ∧ l < l) := by omega
          rw [if_neg this]
        have e2 : ent m1 i l = ent m i l := by
          rw [hE i l]
          have : ¬ (i = j ∧ i ≤ l ∧ l < l) := by omega
          rw [if_neg this]
        by_cases hrc : r = j ∧ c = l
        · obtain ⟨hr1, hc1⟩ := hrc
          subst hr1; subst hc1
          rw [if_pos ⟨rfl, rfl⟩, if_pos ⟨rfl, hil, Nat.lt_succ_self _⟩, hvv, htv]
          show ent m1 r c - factor.toRat * ent m1 i c = _
          rw [e1, e2]
        · rw [if_neg hrc, hE r c]
          by_cases hc1 : r = j ∧ i ≤ c ∧ c < l
          · have hc2 : r = j ∧ i ≤ c ∧ c < l + 1 := by omega
            rw [if_pos hc1, if_pos hc2]
          · have hc2 : ¬ (r = j ∧ i ≤ c ∧ c < l + 1) := by omega
            rw [if_neg hc1, if_neg hc2])
  obtain ⟨m1, hm1, hs, hc, hE⟩ := key
  have e : i + (k + 1 - i) = k + 1 := by omega
  rw [e] at hE
  exact ⟨m1, hm1, hs, hc, hE⟩

theorem ent_ne_zero_iff {k : Nat} {m : Mat} (h : Shape k m) (hcan : AllCanonical m)
    {r c : Nat} (hr : r < k) (hc : c < k + 1) : ent m r c ≠ 0 ↔ (entF m r c).num ≠ 0 := by
  unfold ent
  rw [Ne, Fraction.toRat_eq_zero_iff (entF_canonical h hcan hr hc)]

theorem eliminateRow_ok {k : Nat} {m : Mat} (h : Shape k m) (hcan : AllCanonical m)
    {i j : Nat} (hij : i ≠ j) (hi : i < k) (hj : j < k) (hp : ent m i i ≠ 0) :
    ∃ m1, eliminateRow k i j m = .ok m1 ∧ Shape k m1 ∧ AllCanonical m1 ∧
      ∀ r c, ent m1 r c =
        if r = j ∧ i ≤ c ∧ c < k + 1 then ent m j c - ent m j i / ent m i i * ent m i c
        else ent m r c := by
  have hik : i < k + 1 := by omega
  have hpn := (ent_ne_zero_iff h hcan hi hik).mp hp
  obtain ⟨factor, hfac, hfc, hfv⟩ := Fraction.divide_ok (entF m j i) (entF m i i)
    (entF_canonical h hcan hj hik) (entF_canonical h hcan hi hik) hpn
  obtain ⟨m1, hm1, hs, hc, hE⟩ := eliminateRow_loop h hcan hij hi hj factor hfc
  refine ⟨m1, ?_, hs, hc, ?_⟩
  · unfold eliminateRow
    simp only [getEntry_ok h hj hik, getEntry_ok h hi hik, hfac, bind, Except.bind]
    exact hm1
  · intro r c
    rw [hE r c, hfv]
    rfl

theorem eliminateRow_zero {k : Nat} {m : Mat} (h : Shape k m) (hcan : AllCanonical m)
    {i j : Nat} (hi : i < k) (hj : j < k) (hp : ent m i i = 0) :
    eliminateRow k i j m = .error .divideByZero := by
  have hik : i < k + 1 := by omega
  have hpn : (entF m i i).num = 0 := by
    by_contra hne
    exact (ent_ne_zero_iff h hcan hi hik).mpr hne hp
  unfold eliminateRow
  simp only [getEntry_ok h hj hik, getEntry_ok h hi hik, Fraction.divide_zero _ _ hpn, bind,
    Except.bind]

theorem eliminateRows_ok {k : Nat} {m : Mat} (h : Shape k m) (hcan : AllCanonical m)
    {i : Nat} (hi : i < k) (hp : ent m i i ≠ 0) :
    ∃ m1, forLoop (eliminateRow k i) (k - (i + 1)) (i + 1) m = .ok m1 ∧
      Shape k m1 ∧ AllCanonical m1 ∧
      ∀ r c, ent m1 r c =
        if i < r ∧ r < k ∧ i ≤ c ∧ c < k + 1 then
          ent m r c - ent m r i / ent m i i * ent m i c
        else ent m r c := by
  have key := forLoop_ok (eliminateRow k i)
    (fun j m1 => Shape k m1 ∧ AllCanonical m1 ∧
      ∀ r c, ent m1 r c =
        if i < r ∧ r < j ∧ i ≤ c ∧ c < k + 1 then
          ent m r c - ent m r i / ent m i i * ent m i c
        else ent m r c)
    (k - (i + 1)) (i + 1) m
    ⟨h, hcan, fun r c => by
      have : ¬ (i < r ∧ r < i + 1 ∧ i ≤ c ∧ c < k + 1) := by omega
      rw [if_neg this]⟩
    (by
      intro j m1 hij hjk ⟨hs, hc, hE⟩
      have hjk2 : j < k := by omega
      have erow : ∀ r c, ¬ (i < r ∧ r < j) → ent m1 r c = ent m r c := by
        intro r c hr
        rw [hE r c]
        have : ¬ (i < r ∧ r < j ∧ i ≤ c ∧ c < k + 1) := by omega
        rw [if_neg this]
      have hp1 : ent m1 i i ≠ 0 := by
        rw [erow i i (by omega)]; exact hp
      obtain ⟨m2, hm2, hs2, hc2, hE2⟩ := eliminateRow_ok hs hc (show i ≠ j by omega) hi hjk2 hp1
      refine ⟨m2, hm2, hs2, hc2, ?_⟩
      intro r c
      rw [hE2 r c]
      by_cases hrc : r = j ∧ i ≤ c ∧ c < k + 1
      · have hrc2 : i < r ∧ r < j + 1 ∧ i ≤ c ∧ c < k + 1 := by omega
        rw [if_pos hrc, if_pos hrc2]
        obtain ⟨hr1, _, _⟩ := hrc
        subst hr1
        rw [erow r c (by omega), erow r i (by omega), erow i i (by omega), erow i c (by omega)]
      · rw [if_neg hrc, hE r c]
        by_cases hc1 : i < r ∧ r < j ∧ i ≤ c ∧ c < k + 1
        · have hc2 : i < r ∧ r < j + 1 ∧ i ≤ c ∧ c < k + 1 := by omega
          rw [if_pos hc1, if_pos hc2]
        · have hc2 : ¬ (i < r ∧ r < j + 1 ∧ i ≤ c ∧ c < k + 1) := by omega
          rw [if_neg hc1, if_neg hc2])
  obtain ⟨m1, hm1, hs, hc, hE⟩ := key
  have e : i + 1 + (k - (i + 1)) = k := by omega
  rw [e] at hE
  exact ⟨m1, hm1, hs, hc, hE⟩

/-! ### Linear algebra of the tables -/

theorem ann_swap (k : Nat) (E1 E : Nat → Nat → ℚ) (s : Nat → Nat)
    (hs : ∀ r, r < k → s r < k) (hss : ∀ r, r < k → s (s r) = r)
    (hE : ∀ r c, E1 r c = E (s r) c) (c : Nat → ℚ) : Ann k E1 c ↔ Ann k E c := by
  constructor
  · intro h r hr
    have := h (s r) (hs r hr)
    simp only [hE, hss r hr] at this
    exact this
  · intro h r hr
    simp only [hE]
    exact h (s r) (hs r hr)

theorem ann_elim (k i : Nat) (E1 E2 : Nat → Nat → ℚ) (f : Nat → ℚ) (hi : i < k)
    (h1 : ∀ r c, r ≤ i → E2 r c = E1 r c)
    (h2 : ∀ r c, i < r → r < k → c < k + 1 → E2 r c = E1 r c - f r * E1 i c)
    (c : Nat → ℚ) : Ann k E2 c ↔ Ann k E1 c := by
  have hrow : ∀ r, i < r → r < k →
      ∑ j in Finset.range (k + 1), E2 r j * c j =
        ∑ j in Finset.range (k + 1), E1 r j * c j -
          f r * ∑ j in Finset.range (k + 1), E1 i j * c j := by
    intro r hir hrk
    rw [Finset.mul_sum, ← Finset.sum_sub_distrib]
    apply Finset.sum_congr rfl
    intro j hj
    rw [h2 r j hir hrk (Finset.mem_range.mp hj)]
    ring
  have hrow1 : ∀ r, r ≤ i →
      ∑ j in Finset.range (k + 1), E2 r j * c j =
        ∑ j in Finset.range (k + 1), E1 r j * c j := by
    intro r hr
    apply Finset.sum_congr rfl
    intro j _
    rw [h1 r j hr]
  constructor
  · intro h r hr
    have hi0 : ∑ j in Finset.range (k + 1), E1 i j * c j = 0 := by
      rw [← hrow1 i (Nat.le_refl i)]; exact h i hi
    by_cases hri : r ≤ i
    · rw [← hrow1 r hri]; exact h r hr
    · have := h r hr
      rw [hrow r (by omega) hr, hi0, mul_zero, sub_zero] at this
      exact this
  · intro h r hr
    by_cases hri : r ≤ i
    · rw [hrow1 r hri]; exact h r hr
    · rw [hrow r (by omega) hr, h r hr, h i hi, mul_zero, sub_zero]

theorem singular_of_zero_column (k i : Nat) (E : Nat → Nat → ℚ) (hi : i < k)
    (hech : Echelon k i E) (hz : ∀ r, i ≤ r → r < k → E r i = 0) : Singular k E := by
  have hdet : (Matrix.of fun (r c : Fin (i + 1)) => E r c).det = 0 := by
    apply Matrix.det_eq_zero_of_row_eq_zero (Fin.last i)
    intro j
    show E i j = 0
    by_cases hj : (j : Nat) < i
    · exact hech i j hj hj hi
    · have : (j : Nat) = i := by have := j.isLt; omega
      rw [this]; exact hz i (Nat.le_refl i) hi
  obtain ⟨v, hv0, hv⟩ := Matrix.exists_mulVec_eq_zero_iff.mpr hdet
  have hsum : ∀ r, ∑ j in Finset.range (k + 1),
      E r j * (if h : j < i + 1 then v ⟨j, h⟩ else 0) =
      ∑ j : Fin (i + 1), E r j * v j := by
    intro r
    rw [← Finset.sum_subset (Finset.range_subset.mpr (show i + 1 ≤ k + 1 by omega)),
      ← Fin.sum_univ_eq_sum_range
        (fun j => E r j * (if h : j < i + 1 then v ⟨j, h⟩ else 0)) (i + 1)]
    · apply Finset.sum_congr rfl
      intro j _
      simp
    · intro j _ hj
      have : ¬ j < i + 1 := by simpa using hj
      simp [this]
  refine ⟨fun j => if h : j < i + 1 then v ⟨j, h⟩ else 0, ?_, ?_, ?_⟩
  · have : ¬ k < i + 1 := by omega
    simp [this]
  · obtain ⟨j, hj⟩ := Function.ne_iff.mp hv0
    refine ⟨j, by have := j.isLt; omega, ?_⟩
    simpa using hj
  · intro r hr
    rw [hsum r]
    by_cases hri : r < i + 1
    · have := congrFun hv ⟨r, hri⟩
      simpa [Matrix.mulVec, Matrix.dotProduct] using this
    · apply Finset.sum_eq_zero
      intro j _
      have hjlt := j.isLt
      have : E r j = 0 := by
        by_cases hj : (j : Nat) < i
        · exact hech r j hj (by omega) hr
        · have hji : (j : Nat) = i := by omega
          rw [hji]; exact hz r (by omega) hr
      rw [this, zero_mul]

theorem nonsingular_of_triangular (k : Nat) (E : Nat → Nat → ℚ) (hech : Echelon k k E)
    (hd : ∀ i, i < k → E i i ≠ 0) : ¬ Singular k E := by
  rintro ⟨c, hck, ⟨j0, hj0, hcj0⟩, hann⟩
  have key : ∀ n j, j < k → k ≤ j + n → c j = 0 := by
    intro n
    induction n with
    | zero => intro j h1 h2; omega
    | succ n ih =>
      intro j hjk hle
      have hrow := hann j hjk
      rw [Finset.sum_eq_single j] at hrow
      · rcases mul_eq_zero.mp hrow with h | h
        · exact absurd h (hd j hjk)
        · exact h
      · intro l hl hlj
        have hl2 : l < k + 1 := Finset.mem_range.mp hl
        by_cases hlt : l < j
        · rw [hech j l (by omega) hlt hjk, zero_mul]
        · by_cases hlk : l = k
          · rw [hlk, hck, mul_zero]
          · rw [ih l (by omega) (by omega), mul_zero]
      · intro hnot
        exact absurd (Finset.mem_range.mpr (by omega)) hnot
  exact hcj0 (key k j0 hj0 (by omega))

theorem nonsingular_of_vandermonde (k : Nat) (E : Nat → Nat → ℚ) (x : Nat → ℚ)
    (hinj : ∀ r s, r < k → s < k → x r = x s → r = s)
    (hE : ∀ r j, r < k → j < k → E r j = x r ^ (k - 1 - j)) : ¬ Singular k E := by
  rintro ⟨c, hck, ⟨j0, hj0, hcj0⟩, hann⟩
  have hv : Function.Injective (fun r : Fin k => x r) := by
    intro r s h
    exact Fin.ext (hinj r s r.isLt s.isLt h)
  have hdet := Matrix.det_vandermonde_ne_zero_iff.mpr hv
  have hmul : (Matrix.vandermonde fun r : Fin k => x r).mulVec (fun l : Fin k => c (k - 1 - l))
      = 0 := by
    funext r
    show ∑ l : Fin k, (x r) ^ (l : Nat) * c (k - 1 - l) = 0
    rw [Fin.sum_univ_eq_sum_range (fun l => x r ^ l * c (k - 1 - l)) k,
      ← Finset.sum_range_reflect]
    have h1 := hann r r.isLt
    rw [Finset.sum_range_succ, hck, mul_zero, add_zero] at h1
    rw [← h1]
    apply Finset.sum_congr rfl
    intro j hj
    have hjk : j < k := Finset.mem_range.mp hj
    rw [hE r j r.isLt hjk, show k - 1 - (k - 1 - j) = j by omega]
  have hzero := Matrix.eq_zero_of_mulVec_eq_zero hdet hmul
  have := congrFun hzero ⟨k - 1 - j0, by omega⟩
  simp only [Pi.zero_apply] at this
  rw [show k - 1 - (k - 1 - j0) = j0 by omega] at this
  exact hcj0 this

theorem singular_of_equal_rows (k : Nat) (E : Nat → Nat → ℚ) (r1 r2 : Nat) (h12 : r1 ≠ r2)
    (h1 : r1 < k) (h2 : r2 < k) (hE : ∀ j, j < k → E r1 j = E r2 j) : Singular k E := by
  have hdet : (Matrix.of fun (r c : Fin k) => E r c).det = 0 := by
    apply Matrix.det_zero_of_row_eq (i := ⟨r1, h1⟩) (j := ⟨r2, h2⟩)
    · intro h; exact h12 (Fin.mk.inj h)
    · funext j; exact hE j j.isLt
  obtain ⟨v, hv0, hv⟩ := Matrix.exists_mulVec_eq_zero_iff.mpr hdet
  refine ⟨fun j => if h : j < k then v ⟨j, h⟩ else 0, ?_, ?_, ?_⟩
  · simp
  · obtain ⟨j, hj⟩ := Function.ne_iff.mp hv0
    exact ⟨j, j.isLt, by simpa using hj⟩
  · intro r hr
    rw [Finset.sum_range_succ]
    simp only [lt_irrefl, dite_false, mul_zero, add_zero]
    rw [← Fin.sum_univ_eq_sum_range (fun j => E r j * (if h : j < k then v ⟨j, h⟩ else 0)) k]
    have := congrFun hv ⟨r, hr⟩
    simpa [Matrix.mulVec, Matrix.dotProduct] using this

theorem ann_unique (k : Nat) (E : Nat → Nat → ℚ) (hns : ¬ Singular k E) (c d : Nat → ℚ)
    (hc : Ann k E c) (hd : Ann k E d) (hk : c k = d k) : ∀ j, j < k → c j = d j := by
  by_contra hne
  push_neg at hne
  obtain ⟨j, hj, hcd⟩ := hne
  apply hns
  refine ⟨fun l => c l - d l, by simp [hk], ⟨j, hj, sub_ne_zero.mpr hcd⟩, ?_⟩
  intro r hr
  have h1 := hc r hr
  have h2 := hd r hr
  simp only [mul_sub, Finset.sum_sub_distrib, h1, h2, sub_zero]

theorem singular_congr (k : Nat) (E1 E2 : Nat → Nat → ℚ)
    (h : ∀ c, Ann k E1 c ↔ Ann k E2 c) : Singular k E1 ↔ Singular k E2 := by
  constructor
  · rintro ⟨c, h1, h2, h3⟩; exact ⟨c, h1, h2, (h c).mp h3⟩
  · rintro ⟨c, h1, h2, h3⟩; exact ⟨c, h1, h2, (h c).mpr h3⟩

theorem eliminateStep_spec {k : Nat} {m : Mat} (h : Shape k m) (hcan : AllCanonical m)
    {i : Nat} (hi : i < k) (hech : Echelon k i (ent m)) :
    (∃ m1, eliminateStep k i m = .ok m1 ∧ Shape k m1 ∧ AllCanonical m1 ∧
        Echelon k (i + 1) (ent m1) ∧ ∀ c, Ann k (ent m1) c ↔ Ann k (ent m) c) ∨
      (eliminateStep k i m = .error .divideByZero ∧ Singular k (ent m)) := by
  obtain ⟨mx, hmx, h1, h2, h3⟩ := findMax_ok h hi
  obtain ⟨hs1, hc1, hE1⟩ := swapRows_ok h hcan hi h2
  have hik : i < k + 1 := by omega
  have hent1 : ∀ r c, ent (swapRows m i mx) r c =
      ent m (if r = mx then i else if r = i then mx else r) c := by
    intro r c; unfold ent; rw [hE1 r c]
  have hann1 : ∀ c, Ann k (ent (swapRows m i mx)) c ↔ Ann k (ent m) c := by
    intro c
    apply ann_swap k _ _ (fun r => if r = mx then i else if r = i then mx else r) _ _ hent1
    · intro r hr
      dsimp only
      split_ifs <;> omega
    · intro r hr
      dsimp only
      split_ifs <;> omega
  have hech1 : Echelon k i (ent (swapRows m i mx)) := by
    intro r c hci hcr hrk
    rw [hent1 r c]
    apply hech _ c hci
    · split_ifs <;> omega
    · split_ifs <;> omega
  have hpiv : ent (swapRows m i mx) i i = ent m mx i := by
    rw [hent1 i i]
    by_cases himx : i = mx
    · rw [if_pos himx, himx]
    · rw [if_neg himx, if_pos rfl]
  have hstep : eliminateStep k i m =
      forLoop (eliminateRow k i) (k - (i + 1)) (i + 1) (swapRows m i mx) := by
    unfold eliminateStep
    simp only [hmx, bind, Except.bind]
  rw [hstep]
  by_cases hp : ent (swapRows m i mx) i i = 0
  · have hzero : ∀ r, i ≤ r → r < k → ent m r i = 0 := by
      intro r hr1 hr2
      rw [hpiv] at hp
      have hnum : (entF m mx i).num = 0 := by
        by_contra hne
        exact (ent_ne_zero_iff h hcan h2 hik).mpr hne hp
      have hle := h3 r hr1 hr2
      rw [hnum, (numberAbs_eq_zero 0).mpr rfl] at hle
      have hnum2 : (entF m r i).num = 0 :=
        (numberAbs_eq_zero _).mp (Nat.eq_zero_of_le_zero hle)
      by_contra hne
      exact (ent_ne_zero_iff h hcan hr2 hik).mp hne hnum2
    have hsing : Singular k (ent m) := singular_of_zero_column k i (ent m) hi hech hzero
    by_cases hlast : i + 1 = k
    · left
      refine ⟨swapRows m i mx, ?_, hs1, hc1, ?_, hann1⟩
      · rw [show k - (i + 1) = 0 by omega]; rfl
      · intro r c hc hcr hrk
        exact hech1 r c (by omega) hcr hrk
    · right
      refine ⟨?_, hsing⟩
      obtain ⟨n, hn⟩ : ∃ n, k - (i + 1) = n + 1 := ⟨k - (i + 1) - 1, by omega⟩
      rw [hn]
      simp only [forLoop, eliminateRow_zero hs1 hc1 hi (show i + 1 < k by omega) hp]
  · left
    obtain ⟨m2, hm2, hs2, hc2, hE2⟩ := eliminateRows_ok hs1 hc1 hi hp
    refine ⟨m2, hm2, hs2, hc2, ?_, ?_⟩
    · intro r c hc hcr hrk
      rw [hE2 r c]
      by_cases hci : c < i
      · have : ¬ (i < r ∧ r < k ∧ i ≤ c ∧ c < k + 1) := by omega
        rw [if_neg this]
        exact hech1 r c hci hcr hrk
      · have hceq : c = i := by omega
        subst hceq
        have : c < r ∧ r < k ∧ c ≤ c ∧ c < k + 1 := by omega
        rw [if_pos this]
        field_simp
    · intro c
      rw [← hann1 c]
      apply ann_elim k i _ _
        (fun r => ent (swapRows m i mx) r i / ent (swapRows m i mx) i i) hi
      · intro r c hr
        rw [hE2 r c]
        have : ¬ (i < r ∧ r < k ∧ i ≤ c ∧ c < k + 1) := by omega
        rw [if_neg this]
      · intro r c hir hrk hck
        rw [hE2 r c]
        by_cases hci : i ≤ c
        · rw [if_pos ⟨hir, hrk, hci, hck⟩]
        · have : ¬ (i < r ∧ r < k ∧ i ≤ c ∧ c < k + 1) := by omega
          rw [if_neg this, hech1 i c (by omega) (by omega) hi, mul_zero, sub_zero]

theorem eliminate_spec {k : Nat} {m : Mat} (h : Shape k m) (hcan : AllCanonical m) :
    (∃ m1, eliminate k m = .ok m1 ∧ Shape k m1 ∧ AllCanonical m1 ∧
        Echelon k k (ent m1) ∧ ∀ c, Ann k (ent m1) c ↔ Ann k (ent m) c) ∨
      (eliminate k m = .error .divideByZero ∧ Singular k (ent m)) := by
  have key := forLoop_spec (eliminateStep k)
    (fun i m1 => Shape k m1 ∧ AllCanonical m1 ∧ Echelon k i (ent m1) ∧
      ∀ c, Ann k (ent m1) c ↔ Ann k (ent m) c)
    (fun e => e = .divideByZero ∧ Singular k (ent m))
    k 0 m
    ⟨h, hcan, fun r c hc => by omega, fun c => Iff.rfl⟩
    (by
      intro i m1 _ hik ⟨hs, hc, he, ha⟩
      rcases eliminateStep_spec hs hc (show i < k by omega) he with
        ⟨m2, hm2, hs2, hc2, he2, ha2⟩ | ⟨herr, hsing⟩
      · left
        exact ⟨m2, hm2, hs2, hc2, he2, fun c => (ha2 c).trans (ha c)⟩
      · right
        exact ⟨_, herr, rfl, (singular_congr k _ _ ha).mp hsing⟩)
  rcases key with ⟨m1, hm1, hs, hc, he, ha⟩ | ⟨e, herr, he, hsing⟩
  · left
    rw [Nat.zero_add] at he
    exact ⟨m1, hm1, hs, hc, he, ha⟩
  · right
    subst he
    exact ⟨herr, hsing⟩

/-! ### Back-substitution -/

theorem canonical_zero : Fraction.Canonical ⟨0, 1⟩ := ⟨Int.one_pos, by simp⟩

theorem getCoeff_ok {cs : List Fraction} {j : Nat} (hj : j < cs.length) :
    getCoeff cs j = .ok (cs.getD j ⟨0, 1⟩) := by
  unfold getCoeff
  rw [List.getElem?_eq_getElem hj, List.getD_eq_getElem _ _ hj]

theorem getD_canonical {cs : List Fraction} (hcs : ∀ f ∈ cs, Fraction.Canonical f) (j : Nat) :
    (cs.getD j ⟨0, 1⟩).Canonical := by
  by_cases hj : j < cs.length
  · rw [List.getD_eq_getElem _ _ hj]; exact hcs _ (List.getElem_mem hj)
  · rw [List.getD_eq_default _ _ (Nat.le_of_not_lt hj)]; exact canonical_zero

theorem cval_set {cs : List Fraction} {i : Nat} (hi : i < cs.length) (c : Fraction) (j : Nat) :
    cval (cs.set i c) j = if j = i then c.toRat else cval cs j := by
  unfold cval
  by_cases hji : j = i
  · subst hji
    rw [if_pos rfl, List.getD_eq_getElem?_getD, List.getElem?_set_self hi]; rfl
  · have hne : i ≠ j := fun h => hji h.symm
    rw [if_neg hji, List.getD_eq_getElem?_getD, List.getElem?_set_ne hne,
      ← List.getD_eq_getElem?_getD]

theorem backSum_ok {k : Nat} {m : Mat} (h : Shape k m) (hcan : AllCanonical m) {i : Nat}
    (hi : i < k) (cs : List Fraction) (hlen : cs.length = k)
    (hcs : ∀ f ∈ cs, Fraction.Canonical f) :
    ∃ s, forLoop (fun j (sum : Fraction) => do
        let a ← getEntry m i j
        let c ← getCoeff cs j
        let t ← a.multiply c
        sum.add t) (k - (i + 1)) (i + 1) ⟨0, 1⟩ = .ok s ∧ s.Canonical ∧
      s.toRat = ∑ j in Finset.Ico (i + 1) k, ent m i j * cval cs j := by
  have key := forLoop_ok
    (fun j sum => do
        let a ← getEntry m i j
        let c ← getCoeff cs j
        let t ← Fraction.multiply a c
        Fraction.add sum t)
    (fun l s => s.Canonical ∧ s.toRat = ∑ j in Finset.Ico (i + 1) l, ent m i j * cval cs j)
    (k - (i + 1)) (i + 1) ⟨0, 1⟩
    ⟨canonical_zero, by simp [Fraction.toRat]⟩
    (by
      intro j s hij hjk ⟨hsc, hsv⟩
      have hjk2 : j < k := by omega
      have hjk3 : j < k + 1 := by omega
      obtain ⟨t, ht, htc, htv⟩ := Fraction.multiply_ok (entF m i j) (cs.getD j ⟨0, 1⟩)
        (entF_canonical h hcan hi hjk3) (getD_canonical hcs j)
      obtain ⟨s1, hs1, hs1c, hs1v⟩ := Fraction.add_ok s t hsc htc
      refine ⟨s1, ?_, hs1c, ?_⟩
      · simp only [getEntry_ok h hi hjk3, getCoeff_ok (show j < cs.length by omega), ht, hs1,
          bind, Except.bind]
      · rw [hs1v, hsv, htv, Finset.sum_Ico_succ_top (by omega)]
        rfl)
  obtain ⟨s, hs, hsc, hsv⟩ := key
  have e : i + 1 + (k - (i + 1)) = k := by omega
  rw [e] at hsv
  exact ⟨s, hs, hsc, hsv⟩

theorem backSubstituteRow_ok {k : Nat} {m : Mat} (h : Shape k m) (hcan : AllCanonical m)
    {i : Nat} (hi : i < k) (cs : List Fraction) (hlen : cs.length = k)
    (hcs : ∀ f ∈ cs, Fraction.Canonical f) (hp : ent m i i ≠ 0) :
    ∃ c, backSubstituteRow k m i cs = .ok (cs.set i c) ∧ c.Canonical ∧
      c.toRat = (ent m i k - ∑ j in Finset.Ico (i + 1) k, ent m i j * cval cs j) /
        ent m i i := by
  have hik : i < k + 1 := by omega
  obtain ⟨s, hs, hsc, hsv⟩ := backSum_ok h hcan hi cs hlen hcs
  obtain ⟨d, hd, hdc, hdv⟩ := Fraction.subtract_ok (entF m i k) s
    (entF_canonical h hcan hi (Nat.lt_succ_self k)) hsc
  obtain ⟨c, hc, hcc, hcv⟩ := Fraction.divide_ok d (entF m i i) hdc
    (entF_canonical h hcan hi hik) ((ent_ne_zero_iff h hcan hi hik).mp hp)
  simp only [bind, Except.bind] at hs
  refine ⟨c, ?_, hcc, ?_⟩
  · unfold backSubstituteRow
    simp only [Fraction.new_int, hs, getEntry_ok h hi (Nat.lt_succ_self k), hd,
      getEntry_ok h hi hik, hc, bind, Except.bind, pure, Except.pure]
  · rw [hcv, hdv, hsv]
    rfl

theorem backSubstituteRow_zero {k : Nat} {m : Mat} (h : Shape k m) (hcan : AllCanonical m)
    {i : Nat} (hi : i < k) (cs : List Fraction) (hlen : cs.length = k)
    (hcs : ∀ f ∈ cs, Fraction.Canonical f) (hp : ent m i i = 0) :
    backSubstituteRow k m i cs = .error .divideByZero := by
  have hik : i < k + 1 := by omega
  obtain ⟨s, hs, hsc, hsv⟩ := backSum_ok h hcan hi cs hlen hcs
  obtain ⟨d, hd, hdc, hdv⟩ := Fraction.subtract_ok (entF m i k) s
    (entF_canonical h hcan hi (Nat.lt_succ_self k)) hsc
  have hpn : (entF m i i).num = 0 := by
    by_contra hne
    exact (ent_ne_zero_iff h hcan hi hik).mpr hne hp
  simp only [bind, Except.bind] at hs
  unfold backSubstituteRow
  simp only [Fraction.new_int, hs, getEntry_ok h hi (Nat.lt_succ_self k), hd,
    getEntry_ok h hi hik, Fraction.divide_zero _ _ hpn, bind, Except.bind]

theorem backSubstitute_spec {k : Nat} {m : Mat} (h : Shape k m) (hcan : AllCanonical m) :
    (∃ cs, backSubstitute k m = .ok cs ∧ cs.length = k ∧
        (∀ f ∈ cs, Fraction.Canonical f) ∧
        ∀ r, r < k → ent m r r ≠ 0 ∧
          ent m r r * cval cs r + ∑ j in Finset.Ico (r + 1) k, ent m r j * cval cs j =
            ent m r k) ∨
      (backSubstitute k m = .error .divideByZero ∧ ∃ i, i < k ∧ ent m i i = 0) := by
  have key := forDown_spec (backSubstituteRow k m)
    (fun n cs => cs.length = k ∧ (∀ f ∈ cs, Fraction.Canonical f) ∧
      ∀ r, n ≤ r → r < k → ent m r r ≠ 0 ∧
        ent m r r * cval cs r + ∑ j in Finset.Ico (r + 1) k, ent m r j * cval cs j =
          ent m r k)
    (fun e => e = .divideByZero ∧ ∃ i, i < k ∧ ent m i i = 0)
    k (List.replicate k ⟨0, 1⟩)
    ⟨List.length_replicate _ _, fun f hf => by
      rw [List.eq_of_mem_replicate hf]; exact canonical_zero, fun r h1 h2 => by omega⟩
    (by
      intro i cs hik ⟨hlen, hcs, hrows⟩
      by_cases hp : ent m i i = 0
      · right
        exact ⟨_, backSubstituteRow_zero h hcan hik cs hlen hcs hp, rfl, i, hik, hp⟩
      · left
        obtain ⟨c, hc, hcc, hcv⟩ := backSubstituteRow_ok h hcan hik cs hlen hcs hp
        have hil : i < cs.length := by omega
        refine ⟨cs.set i c, hc, by rw [List.length_set]; exact hlen, ?_, ?_⟩
        · intro f hf
          rcases List.mem_or_eq_of_mem_set hf with h1 | h1
          · exact hcs f h1
          · rw [h1]; exact hcc
        · intro r hir hrk
          have hsum : ∑ j in Finset.Ico (r + 1) k, ent m r j * cval (cs.set i c) j =
              ∑ j in Finset.Ico (r + 1) k, ent m r j * cval cs j := by
            apply Finset.sum_congr rfl
            intro j hj
            have hj1 := (Finset.mem_Ico.mp hj).1
            rw [cval_set hil, if_neg (by omega)]
          by_cases hri : r = i
          · subst hri
            refine ⟨hp, ?_⟩
            rw [hsum, cval_set hil, if_pos rfl, hcv]
            field_simp
          · obtain ⟨h1, h2⟩ := hrows r (by omega) hrk
            refine ⟨h1, ?_⟩
            rw [hsum, cval_set hil, if_neg hri]
            exact h2)
  have hbs : backSubstitute k m = forDown (backSubstituteRow k m) k (List.replicate k ⟨0, 1⟩) := by
    unfold backSubstitute
    simp only [Fraction.new_int, bind, Except.bind]
  rw [hbs]
  rcases key with ⟨cs, hcs, hlen, hcan2, hrows⟩ | ⟨e, herr, he, hz⟩
  · left
    exact ⟨cs, hcs, hlen, hcan2, fun r hr => hrows r (Nat.zero_le r) hr⟩
  · right
    subst he
    exact ⟨herr, hz⟩

/-! ### The system matrix -/

theorem toRat_int (a : Int) : Fraction.toRat ⟨a, 1⟩ = (a : ℚ) := by
  simp [Fraction.toRat]

theorem canonical_int (a : Int) : Fraction.Canonical ⟨a, 1⟩ := ⟨Int.one_pos, by simp⟩

theorem buildRow_ok {k : Nat} {m : Mat} (h : Shape k m) (hcan : AllCanonical m) {i : Nat}
    (hi : i < k) (p : Point) :
    ∃ m1, forLoop (fun j (matrix : Mat) => do
        let entry ← Fraction.new (p.x ^ (k - 1 - j)) 1
        setEntry matrix i j entry) k 0 m = .ok m1 ∧ Shape k m1 ∧ AllCanonical m1 ∧
      ∀ r c, ent m1 r c = if r = i ∧ c < k then (p.x : ℚ) ^ (k - 1 - c) else ent m r c := by
  have key := forLoop_ok
    (fun j (matrix : Mat) => do
        let entry ← Fraction.new (p.x ^ (k - 1 - j)) 1
        setEntry matrix i j entry)
    (fun j m1 => Shape k m1 ∧ AllCanonical m1 ∧
      ∀ r c, ent m1 r c = if r = i ∧ c < j then (p.x : ℚ) ^ (k - 1 - c) else ent m r c)
    k 0 m
    ⟨h, hcan, fun r c => by
      have : ¬ (r = i ∧ c < 0) := by omega
      rw [if_neg this]⟩
    (by
      intro j m1 _ hjk ⟨hs, hc, hE⟩
      obtain ⟨m2, hm2, hs2, hc2, hE2⟩ := ent_setEntry hs hc hi (show j < k + 1 by omega)
        ⟨p.x ^ (k - 1 - j), 1⟩ (canonical_int _)
      refine ⟨m2, ?_, hs2, hc2, ?_⟩
      · simp only [Fraction.new_int, hm2, bind, Except.bind]
      · intro r c
        rw [hE2 r c, hE r c, toRat_int]
        by_cases hrc : r = i ∧ c = j
        · obtain ⟨hr1, hc1⟩ := hrc
          subst hr1; subst hc1
          rw [if_pos ⟨rfl, rfl⟩, if_pos ⟨rfl, Nat.lt_succ_self _⟩]
          push_cast; rfl
        · rw [if_neg hrc]
          by_cases hc1 : r = i ∧ c < j
          · rw [if_pos hc1, if_pos (by omega)]
          · rw [if_neg hc1, if_neg (by omega)])
  obtain ⟨m1, hm1, hs, hc, hE⟩ := key
  rw [Nat.zero_add] at hE
  exact ⟨m1, hm1, hs, hc, hE⟩

theorem buildMatrix_ok (k : Nat) (solving : List Point) (hlen : k ≤ solving.length) :
    ∃ m, buildMatrix k solving = .ok m ∧ Shape k m ∧ AllCanonical m ∧
      ∀ r c, r < k → c < k + 1 → ent m r c = systemTable k solving r c := by
  have hs0 : Shape k (List.replicate k (List.replicate (k + 1) (⟨0, 1⟩ : Fraction))) := by
    refine ⟨List.length_replicate _ _, ?_⟩
    intro row hrow
    rw [List.eq_of_mem_replicate hrow, List.length_replicate]
  have hc0 : AllCanonical (List.replicate k (List.replicate (k + 1) (⟨0, 1⟩ : Fraction))) := by
    intro row hrow f hf
    rw [List.eq_of_mem_replicate hrow] at hf
    rw [List.eq_of_mem_replicate hf]
    exact canonical_zero
  have key := forLoop_ok
    (fun i (matrix : Mat) =>
      match solving[i]? with
      | none => Except.error JsError.typeError
      | some p => do
        let matrix ← forLoop (fun j (matrix : Mat) => do
          let entry ← Fraction.new (p.x ^ (k - 1 - j)) 1
          setEntry matrix i j entry) k 0 matrix
        let entry ← Fraction.new p.y 1
        setEntry matrix i k entry)
    (fun i m1 => Shape k m1 ∧ AllCanonical m1 ∧
      ∀ r c, r < i → c < k + 1 → ent m1 r c = systemTable k solving r c)
    k 0 (List.replicate k (List.replicate (k + 1) (⟨0, 1⟩ : Fraction)))
    ⟨hs0, hc0, fun r c hr => by omega⟩
    (by
      intro i m1 _ hik ⟨hs, hc, hE⟩
      have hik2 : i < k := by omega
      have hil : i < solving.length := by omega
      obtain ⟨m2, hm2, hs2, hc2, hE2⟩ := buildRow_ok hs hc hik2 (solving[i])
      obtain ⟨m3, hm3, hs3, hc3, hE3⟩ := ent_setEntry hs2 hc2 hik2 (Nat.lt_succ_self k)
        ⟨(solving[i]).y, 1⟩ (canonical_int _)
      simp only [Fraction.new_int, bind, Except.bind] at hm2
      refine ⟨m3, ?_, hs3, hc3, ?_⟩
      · simp only [List.getElem?_eq_getElem hil, hm2, Fraction.new_int, hm3, bind, Except.bind]
      · intro r c hr hck
        rw [hE3 r c, hE2 r c, toRat_int]
        unfold systemTable
        by_cases hri : r = i
        · subst hri
          rw [List.getD_eq_getElem _ _ hil]
          by_cases hc1 : c < k
          · rw [if_neg (by omega), if_pos ⟨rfl, hc1⟩, if_pos hc1]
          · rw [if_pos ⟨rfl, by omega⟩, if_neg hc1]
        · rw [if_neg (by omega), if_neg (by omega)]
          have := hE r c (by omega) hck
          unfold systemTable at this
          exact this)
  obtain ⟨m, hm, hs, hc, hE⟩ := key
  rw [Nat.zero_add] at hE
  refine ⟨m, ?_, hs, hc, hE⟩
  unfold buildMatrix
  simp only [Fraction.new_int, bind, Except.bind]
  simp only [Fraction.new_int, bind, Except.bind] at hm
  exact hm

theorem ann_congr (k : Nat) (E1 E2 : Nat → Nat → ℚ)
    (hE : ∀ r c, r < k → c < k + 1 → E1 r c = E2 r c) (c : Nat → ℚ) :
    Ann k E1 c ↔ Ann k E2 c := by
  have hrow : ∀ r, r < k →
      ∑ j in Finset.range (k + 1), E1 r j * c j = ∑ j in Finset.range (k + 1), E2 r j * c j := by
    intro r hr
    apply Finset.sum_congr rfl
    intro j hj
    rw [hE r j hr (Finset.mem_range.mp hj)]
  constructor
  · intro h r hr; rw [← hrow r hr]; exact h r hr
  · intro h r hr; rw [hrow r hr]; exact h r hr

theorem ann_of_rows (k : Nat) (E : Nat → Nat → ℚ) (cs : List Fraction)
    (hech : Echelon k k E)
    (hrows : ∀ r, r < k →
      E r r * cval cs r + ∑ j in Finset.Ico (r + 1) k, E r j * cval cs j = E r k) :
    Ann k E (extend k cs) := by
  intro r hr
  rw [Finset.sum_range_succ]
  have hk : extend k cs k = -1 := by unfold extend; rw [if_neg (lt_irrefl k)]
  have h1 : ∑ j in Finset.range k, E r j * extend k cs j =
      ∑ j in Finset.range k, E r j * cval cs j := by
    apply Finset.sum_congr rfl
    intro j hj
    unfold extend
    rw [if_pos (Finset.mem_range.mp hj)]
  rw [h1, hk, Finset.range_eq_Ico, ← Finset.sum_Ico_consecutive _ (Nat.zero_le r) (Nat.le_of_lt hr)]
  have h2 : ∑ j in Finset.Ico 0 r, E r j * cval cs j = 0 := by
    apply Finset.sum_eq_zero
    intro j hj
    have hj2 := (Finset.mem_Ico.mp hj).2
    rw [hech r j (by omega) hj2 hr, zero_mul]
  rw [h2, Finset.sum_eq_sum_Ico_succ_bot hr, hrows r hr]
  ring

theorem ann_systemTable (k : Nat) (solving : List Point) (cs : List Fraction) :
    Ann k (systemTable k solving) (extend k cs) ↔
      ∀ r, r < k → polyEval k (cval cs) ((solving.getD r ⟨0, 0⟩).x : ℚ) =
        ((solving.getD r ⟨0, 0⟩).y : ℚ) := by
  have hrow : ∀ r, ∑ j in Finset.range (k + 1), systemTable k solving r j * extend k cs j =
      polyEval k (cval cs) ((solving.getD r ⟨0, 0⟩).x : ℚ) - ((solving.getD r ⟨0, 0⟩).y : ℚ) := by
    intro r
    rw [Finset.sum_range_succ]
    unfold polyEval
    have h1 : ∑ j in Finset.range k, systemTable k solving r j * extend k cs j =
        ∑ j in Finset.range k, cval cs j * ((solving.getD r ⟨0, 0⟩).x : ℚ) ^ (k - 1 - j) := by
      apply Finset.sum_congr rfl
      intro j hj
      unfold extend systemTable
      rw [if_pos (Finset.mem_range.mp hj), if_pos (Finset.mem_range.mp hj)]
      ring
    rw [h1]
    unfold extend systemTable
    rw [if_neg (lt_irrefl k), if_neg (lt_irrefl k)]
    ring
  constructor
  · intro h r hr
    have := h r hr
    rw [hrow r] at this
    exact sub_eq_zero.mp this
  · intro h r hr
    rw [hrow r, h r hr, sub_self]

/-- The reconstruction either returns canonical coefficients that satisfy every
equation of the system, whose coefficient part is then regular, or it raises the
error of `divide`, and then the coefficient part is singular. -/
theorem reconstruct_spec (k : Nat) (solving : List Point) (hlen : k ≤ solving.length) :
    (∃ cs, reconstruct k solving = .ok cs ∧ cs.length = k ∧
        (∀ f ∈ cs, Fraction.Canonical f) ∧
        Ann k (systemTable k solving) (extend k cs) ∧
        ¬ Singular k (systemTable k solving)) ∨
      (reconstruct k solving = .error .divideByZero ∧ Singular k (systemTable k solving)) := by
  obtain ⟨m, hm, hs, hc, hE⟩ := buildMatrix_ok k solving hlen
  have hsing : Singular k (ent m) ↔ Singular k (systemTable k solving) :=
    singular_congr k _ _ (ann_congr k _ _ hE)
  unfold reconstruct
  simp only [hm, bind, Except.bind]
  rcases eliminate_spec hs hc with ⟨m1, hm1, hs1, hc1, he1, ha1⟩ | ⟨herr, hsg⟩
  · simp only [hm1]
    have hsing1 : Singular k (ent m1) ↔ Singular k (ent m) := singular_congr k _ _ ha1
    rcases backSubstitute_spec hs1 hc1 with ⟨cs, hcs, hl, hcc, hrows⟩ | ⟨herr, i, hi, hz⟩
    · left
      refine ⟨cs, hcs, hl, hcc, ?_, ?_⟩
      · rw [← ann_congr k _ _ hE, ← ha1]
        exact ann_of_rows k _ cs he1 (fun r hr => (hrows r hr).2)
      · rw [← hsing, ← hsing1]
        exact nonsingular_of_triangular k _ he1 (fun r hr => (hrows r hr).1)
    · right
      refine ⟨herr, ?_⟩
      rw [← hsing, ← hsing1]
      apply singular_of_zero_column k i _ hi
      · intro r c hc hcr hrk
        exact he1 r c (by omega) hcr hrk
      · intro r hir hrk
        by_cases hri : r = i
        · rw [hri]; exact hz
        · exact he1 r i hi (by omega) hrk
  · right
    simp only [herr]
    exact ⟨trivial, hsing.mp hsg⟩

/-! ### The sort and the two sets of points -/

theorem insertPoint_perm (p : Point) (l : List Point) : (insertPoint p l).Perm (p :: l) := by
  induction l with
  | nil => exact List.Perm.refl _
  | cons q rest ih =>
    unfold insertPoint
    by_cases h : p.x < q.x
    · rw [if_pos h]
    · rw [if_neg h]
      exact (List.Perm.cons q ih).trans (List.Perm.swap p q rest)

theorem insertPoint_sorted (p : Point) (l : List Point)
    (hs : l.Pairwise (fun a b => a.x < b.x)) (hne : ∀ q ∈ l, q.x ≠ p.x) :
    (insertPoint p l).Pairwise (fun a b => a.x < b.x) := by
  induction l with
  | nil => exact List.pairwise_singleton _ _
  | cons q rest ih =>
    unfold insertPoint
    rw [List.pairwise_cons] at hs
    by_cases h : p.x < q.x
    · rw [if_pos h]
      refine List.Pairwise.cons ?_ (List.Pairwise.cons hs.1 hs.2)
      intro b hb
      rcases List.mem_cons.mp hb with h1 | h1
      · rw [h1]; exact h
      · exact lt_trans h (hs.1 b h1)
    · rw [if_neg h]
      refine List.Pairwise.cons ?_ (ih hs.2 (fun b hb => hne b (List.mem_cons_of_mem _ hb)))
      intro b hb
      rcases List.mem_cons.mp ((insertPoint_perm p rest).mem_iff.mp hb) with h1 | h1
      · rw [h1]
        have := hne q (List.mem_cons_self _ _)
        omega
      · exact hs.1 b h1

theorem foldl_insert_perm (l : List Point) : ∀ acc : List Point,
    (l.foldl (fun sorted p => insertPoint p sorted) acc).Perm (acc ++ l) := by
  induction l with
  | nil => intro acc; simp
  | cons p rest ih =>
    intro acc
    rw [List.foldl_cons]
    refine (ih (insertPoint p acc)).trans ?_
    refine ((insertPoint_perm p acc).append_right rest).trans ?_
    exact List.perm_middle.symm

theorem foldl_insert_sorted (l : List Point) : ∀ acc : List Point,
    acc.Pairwise (fun a b => a.x < b.x) → (acc ++ l).Pairwise (fun a b => a.x ≠ b.x) →
    (l.foldl (fun sorted p => insertPoint p sorted) acc).Pairwise (fun a b => a.x < b.x) := by
  induction l with
  | nil => intro acc h _; exact h
  | cons p rest ih =>
    intro acc hs hd
    rw [List.foldl_cons]
    have hperm : (insertPoint p acc ++ rest).Perm (acc ++ p :: rest) :=
      ((insertPoint_perm p acc).append_right rest).trans List.perm_middle.symm
    apply ih
    · apply insertPoint_sorted p acc hs
      intro q hq
      rw [List.pairwise_append] at hd
      exact hd.2.2 q hq p (List.mem_cons_self _ _)
    · exact (hperm.pairwise_iff (fun {a b} (h : a.x ≠ b.x) => Ne.symm h)).mpr hd

theorem sortPoints_perm (points : List Point) : (sortPoints points).Perm points := by
  have := foldl_insert_perm points []
  simpa [sortPoints] using this

theorem sortPoints_sorted (points : List Point)
    (hd : points.Pairwise (fun a b => a.x ≠ b.x)) :
    (sortPoints points).Pairwise (fun a b => a.x < b.x) :=
  foldl_insert_sorted points [] List.Pairwise.nil (by simpa using hd)

theorem solvingPoints_length (k : Nat) (points : List Point) (hlen : k ≤ points.length) :
    (solvingPoints k points).length = k := by
  unfold solvingPoints
  rw [List.length_take, (sortPoints_perm points).length_eq]
  omega

theorem solving_append_unused (k : Nat) (points : List Point) :
    solvingPoints k points ++ unusedPoints k points = sortPoints points :=
  List.take_append_drop k _

/-! ### Evaluation and validation -/

theorem cval_eq {cs : List Fraction} {j : Nat} (hj : j < cs.length) :
    cval cs j = (cs[j]).toRat := by
  unfold cval; rw [List.getD_eq_getElem _ _ hj]

theorem evaluatePolynomial_ok (x : Int) (cs : List Fraction)
    (hcs : ∀ f ∈ cs, Fraction.Canonical f) :
    ∃ r, evaluatePolynomial x cs = .ok r ∧ r.Canonical ∧
      r.toRat = polyEval cs.length (cval cs) (x : ℚ) := by
  have key := forLoop_ok
    (fun i (result : Fraction) => do
      let c ← getCoeff cs i
      let power ← Fraction.new (x ^ (cs.length - 1 - i)) 1
      let term ← c.multiply power
      result.add term)
    (fun i r => r.Canonical ∧
      r.toRat = ∑ j in Finset.range i, cval cs j * (x : ℚ) ^ (cs.length - 1 - j))
    cs.length 0 ⟨0, 1⟩
    ⟨canonical_zero, by simp [Fraction.toRat]⟩
    (by
      intro i r _ hi ⟨hrc, hrv⟩
      have hil : i < cs.length := by omega
      obtain ⟨t, ht, htc, htv⟩ := Fraction.multiply_ok (cs.getD i ⟨0, 1⟩)
        ⟨x ^ (cs.length - 1 - i), 1⟩ (getD_canonical hcs i) (canonical_int _)
      obtain ⟨r1, hr1, hr1c, hr1v⟩ := Fraction.add_ok r t hrc htc
      refine ⟨r1, ?_, hr1c, ?_⟩
      · simp only [getCoeff_ok hil, Fraction.new_int, ht, hr1, bind, Except.bind]
      · rw [hr1v, hrv, htv, Finset.sum_range_succ, toRat_int]
        push_cast
        rfl)
  obtain ⟨r, hr, hrc, hrv⟩ := key
  rw [Nat.zero_add] at hrv
  refine ⟨r, ?_, hrc, hrv⟩
  unfold evaluatePolynomial
  simp only [Fraction.new_int, bind, Except.bind]
  simp only [Fraction.new_int, bind, Except.bind] at hr
  exact hr

theorem verdict_iff {r : Fraction} (hr : r.Canonical) (y : Int) :
    (r.num = y ∧ r.den = 1) ↔ r.toRat = (y : ℚ) := by
  constructor
  · rintro ⟨h1, h2⟩
    unfold Fraction.toRat
    rw [h1, h2]; simp
  · intro h
    have : r = ⟨y, 1⟩ := Fraction.Canonical.ext hr (canonical_int y) (by rw [h, toRat_int])
    rw [this]
    exact ⟨rfl, rfl⟩

theorem validate_ok (cs : List Fraction) (hcs : ∀ f ∈ cs, Fraction.Canonical f)
    (pts : List Point) :
    validate cs pts = .ok (pts.map fun p =>
      (p.x, decide (polyEval cs.length (cval cs) (p.x : ℚ) = (p.y : ℚ)))) := by
  induction pts with
  | nil => rfl
  | cons p rest ih =>
    obtain ⟨r, hr, hrc, hrv⟩ := evaluatePolynomial_ok p.x cs hcs
    unfold validate
    simp only [hr, ih, bind, Except.bind, pure, Except.pure, List.map_cons]
    congr 3
    rw [decide_eq_decide, verdict_iff hrc, hrv]

/-! ### The solve as a whole -/

theorem solving_pairwise (k : Nat) (points : List Point)
    (hd : points.Pairwise (fun a b => a.x ≠ b.x)) :
    (solvingPoints k points).Pairwise (fun a b => a.x ≠ b.x) := by
  have h1 : (sortPoints points).Pairwise (fun a b => a.x ≠ b.x) :=
    ((sortPoints_perm points).pairwise_iff (fun {a b} (h : a.x ≠ b.x) => Ne.symm h)).mpr hd
  exact h1.sublist (List.take_sublist k _)

theorem nonsingular_of_distinct (k : Nat) (solving : List Point) (hlen : k ≤ solving.length)
    (hd : solving.Pairwise (fun a b => a.x ≠ b.x)) : ¬ Singular k (systemTable k solving) := by
  apply nonsingular_of_vandermonde k _ (fun r => ((solving.getD r ⟨0, 0⟩).x : ℚ))
  · intro r s hr hs hx
    have hx2 : (solving.getD r ⟨0, 0⟩).x = (solving.getD s ⟨0, 0⟩).x := by exact_mod_cast hx
    have hr2 : r < solving.length := by omega
    have hs2 : s < solving.length := by omega
    rw [List.getD_eq_getElem _ _ hr2, List.getD_eq_getElem _ _ hs2] at hx2
    rw [List.pairwise_iff_getElem] at hd
    by_contra hne
    rcases Nat.lt_or_gt_of_ne hne with h | h
    · exact hd r s hr2 hs2 h hx2
    · exact hd s r hs2 hr2 h hx2.symm
  · intro r j _ hj
    unfold systemTable
    rw [if_pos hj]

theorem singular_of_duplicate (k : Nat) (solving : List Point) (hlen : solving.length = k)
    (hdup : ¬ solving.Pairwise (fun a b => a.x ≠ b.x)) : Singular k (systemTable k solving) := by
  rw [List.pairwise_iff_getElem] at hdup
  push_neg at hdup
  obtain ⟨r, s, hr, hs, hrs, hx⟩ := hdup
  apply singular_of_equal_rows k _ r s (Nat.ne_of_lt hrs) (by omega) (by omega)
  intro j hj
  unfold systemTable
  rw [if_pos hj, if_pos hj, List.getD_eq_getElem _ _ hr, List.getD_eq_getElem _ _ hs, hx]

theorem solve_spec (k : Nat) (points : List Point) (hlen : k ≤ points.length)
    (hd : points.Pairwise (fun a b => a.x ≠ b.x)) :
    ∃ cs, reconstruct k (solvingPoints k points) = .ok cs ∧
      solve (k : Int) points = .ok ⟨cs, (unusedPoints k points).map fun p =>
        (p.x, decide (polyEval k (cval cs) (p.x : ℚ) = (p.y : ℚ)))⟩ ∧
      cs.length = k ∧ (∀ f ∈ cs, Fraction.Canonical f) ∧
      Ann k (systemTable k (solvingPoints k points)) (extend k cs) ∧
      ¬ Singular k (systemTable k (solvingPoints k points)) := by
  have hl : k ≤ (solvingPoints k points).length := by
    rw [solvingPoints_length k points hlen]
  have hns := nonsingular_of_distinct k _ hl (solving_pairwise k points hd)
  rcases reconstruct_spec k (solvingPoints k points) hl with
    ⟨cs, hcs, hlen2, hcan, hann, _⟩ | ⟨_, hsing⟩
  · refine ⟨cs, hcs, ?_, hlen2, hcan, hann, hns⟩
    unfold solve
    have hneg : ¬ ((k : Int) < 0 ∨ (4294967295 ≤ (k : Int) ∧ (points.length : Int) < k)) := by
      omega
    rw [if_neg hneg]
    simp only [Int.toNat_ofNat, hcs, validate_ok cs hcan, hlen2, bind, Except.bind, pure,
      Except.pure]
  · exact absurd hsing hns

theorem polyEval_solving (k : Nat) (solving : List Point) (cs : List Fraction)
    (hlen : solving.length = k)
    (hann : Ann k (systemTable k solving) (extend k cs)) :
    ∀ p ∈ solving, polyEval k (cval cs) (p.x : ℚ) = (p.y : ℚ) := by
  intro p hp
  obtain ⟨r, hr, hrp⟩ := List.getElem_of_mem hp
  have := (ann_systemTable k solving cs).mp hann r (by omega)
  rw [List.getD_eq_getElem _ _ hr, hrp] at this
  exact this

theorem cval_map_int (a : List Int) (j : Nat) (hj : j < a.length) :
    cval (a.map fun z => (⟨z, 1⟩ : Fraction)) j = ((a.getD j 0 : Int) : ℚ) := by
  unfold cval
  rw [List.getD_eq_getElem _ _ (by rw [List.length_map]; exact hj),
    List.getD_eq_getElem _ _ hj, List.getElem_map, toRat_int]

theorem polyEval_map_int (a : List Int) (x : Int) :
    polyEval a.length (cval (a.map fun z => (⟨z, 1⟩ : Fraction))) (x : ℚ) =
      ((∑ j in Finset.range a.length, a.getD j 0 * x ^ (a.length - 1 - j) : Int) : ℚ) := by
  unfold polyEval
  push_cast
  apply Finset.sum_congr rfl
  intro j hj
  rw [cval_map_int a j (Finset.mem_range.mp hj)]

/-- On points sampled from the polynomial with integer coefficients `a`, the
reconstruction returns `a` itself. -/
theorem sampled_coefficients (a : List Int) (points : List Point)
    (hlen : a.length ≤ points.length)
    (hsample : ∀ p ∈ points,
      p.y = ∑ j in Finset.range a.length, a.getD j 0 * p.x ^ (a.length - 1 - j))
    (cs : List Fraction) (hcl : cs.length = a.length)
    (hcan : ∀ f ∈ cs, Fraction.Canonical f)
    (hann : Ann a.length (systemTable a.length (solvingPoints a.length points))
      (extend a.length cs))
    (hns : ¬ Singular a.length (systemTable a.length (solvingPoints a.length points))) :
    cs = a.map fun z => (⟨z, 1⟩ : Fraction) := by
  have hann2 : Ann a.length (systemTable a.length (solvingPoints a.length points))
      (extend a.length (a.map fun z => (⟨z, 1⟩ : Fraction))) := by
    rw [ann_systemTable]
    intro r hr
    have hl := solvingPoints_length a.length points hlen
    have hr2 : r < (solvingPoints a.length points).length := by omega
    rw [List.getD_eq_getElem _ _ hr2]
    have hmem : (solvingPoints a.length points)[r] ∈ points :=
      (sortPoints_perm points).mem_iff.mp (List.mem_of_mem_take (List.getElem_mem hr2))
    rw [polyEval_map_int, ← hsample _ hmem]
  have huniq := ann_unique a.length _ hns _ _ hann hann2 (by
    unfold extend; rw [if_neg (lt_irrefl _), if_neg (lt_irrefl _)])
  apply List.ext_getElem (by rw [hcl, List.length_map])
  intro j h1 h2
  have hj : j < a.length := by omega
  have := huniq j hj
  unfold extend at this
  rw [if_pos hj, if_pos hj, cval_eq h1, cval_eq h2] at this
  apply Fraction.Canonical.ext (hcan _ (List.getElem_mem h1)) _ this
  rw [List.getElem_map]
  exact canonical_int _

/-! ### The contract of the reconstruction -/

/-- C1: for at least `k` points with pairwise distinct `x`, the solve completes; the
solving points are the first `k` of the points in ascending `x`; and the `k`
coefficients returned, exact rationals in canonical form, satisfy
`sum_j c[j] * x ^ (k - 1 - j) = y` at every solving point `(x, y)`. -/
theorem solvePolynomial_interpolates (k : Nat) (points : List Point)
    (hlen : k ≤ points.length) (hdist : points.Pairwise (fun p q => p.x ≠ q.x)) :
    ∃ sol, solve (k : Int) points = .ok sol ∧
      reconstruct k (solvingPoints k points) = .ok sol.coefficients ∧
      sol.coefficients.length = k ∧
      (∀ f ∈ sol.coefficients, Fraction.Canonical f) ∧
      (∀ p ∈ solvingPoints k points,
        ∑ j in Finset.range k, cval sol.coefficients j * (p.x : ℚ) ^ (k - 1 - j) = (p.y : ℚ)) ∧
      (solvingPoints k points).length = k ∧
      (solvingPoints k points ++ unusedPoints k points).Perm points ∧
      (solvingPoints k points ++ unusedPoints k points).Pairwise (fun p q => p.x < q.x) := by
  obtain ⟨cs, hrec, hsolve, hl, hcan, hann, _⟩ := solve_spec k points hlen hdist
  have hsl := solvingPoints_length k points hlen
  refine ⟨_, hsolve, hrec, hl, hcan, ?_, hsl, ?_, ?_⟩
  · exact polyEval_solving k _ cs hsl hann
  · rw [solving_append_unused]; exact sortPoints_perm points
  · rw [solving_append_unused]; exact sortPoints_sorted points hdist

theorem solvePolynomial_interpolates_witness :
    (3 ≤ ([⟨2, 7⟩, ⟨6, 39⟩, ⟨1, 4⟩, ⟨3, 12⟩] : List Point).length ∧
      ([⟨2, 7⟩, ⟨6, 39⟩, ⟨1, 4⟩, ⟨3, 12⟩] : List Point).Pairwise (fun p q => p.x ≠ q.x)) ∧
    ∃ sol, solve ((3 : Nat) : Int) [⟨2, 7⟩, ⟨6, 39⟩, ⟨1, 4⟩, ⟨3, 12⟩] = .ok sol ∧
      reconstruct 3 (solvingPoints 3 [⟨2, 7⟩, ⟨6, 39⟩, ⟨1, 4⟩, ⟨3, 12⟩]) =
        .ok sol.coefficients ∧
      sol.coefficients.length = 3 ∧
      (∀ f ∈ sol.coefficients, Fraction.Canonical f) ∧
      (∀ p ∈ solvingPoints 3 [⟨2, 7⟩, ⟨6, 39⟩, ⟨1, 4⟩, ⟨3, 12⟩],
        ∑ j in Finset.range 3, cval sol.coefficients j * (p.x : ℚ) ^ (3 - 1 - j) = (p.y : ℚ)) ∧
      (solvingPoints 3 [⟨2, 7⟩, ⟨6, 39⟩, ⟨1, 4⟩, ⟨3, 12⟩]).length = 3 ∧
      (solvingPoints 3 [⟨2, 7⟩, ⟨6, 39⟩, ⟨1, 4⟩, ⟨3, 12⟩] ++
        unusedPoints 3 [⟨2, 7⟩, ⟨6, 39⟩, ⟨1, 4⟩, ⟨3, 12⟩]).Perm
          [⟨2, 7⟩, ⟨6, 39⟩, ⟨1, 4⟩, ⟨3, 12⟩] ∧
      (solvingPoints 3 [⟨2, 7⟩, ⟨6, 39⟩, ⟨1, 4⟩, ⟨3, 12⟩] ++
        unusedPoints 3 [⟨2, 7⟩, ⟨6, 39⟩, ⟨1, 4⟩, ⟨3, 12⟩]).Pairwise
          (fun p q => p.x < q.x) :=
  ⟨⟨by decide, by decide⟩,
    solvePolynomial_interpolates 3 [⟨2, 7⟩, ⟨6, 39⟩, ⟨1, 4⟩, ⟨3, 12⟩] (by decide) (by decide)⟩

/-- C2 (round trip): on at least `k` points with pairwise distinct `x` sampled from
the polynomial with the `k` integer coefficients `a` (highest degree first), the
solve returns exactly `a`: coefficient `j` has `num = a[j]` and `den = 1`. -/
theorem roundtrip_coefficients (a : List Int) (points : List Point)
    (hlen : a.length ≤ points.length) (hdist : points.Pairwise (fun p q => p.x ≠ q.x))
    (hsample : ∀ p ∈ points,
      p.y = ∑ j in Finset.range a.length, a.getD j 0 * p.x ^ (a.length - 1 - j)) :
    ∃ sol, solve (a.length : Int) points = .ok sol ∧
      sol.coefficients = a.map (fun z => (⟨z, 1⟩ : Fraction)) ∧
      ∀ j, j < a.length →
        (sol.coefficients.getD j ⟨0, 1⟩).num = a.getD j 0 ∧
        (sol.coefficients.getD j ⟨0, 1⟩).den = 1 := by
  obtain ⟨cs, _, hsolve, hl, hcan, hann, hns⟩ := solve_spec a.length points hlen hdist
  have hcs := sampled_coefficients a points hlen hsample cs hl hcan hann hns
  refine ⟨_, hsolve, hcs, ?_⟩
  intro j hj
  show (cs.getD j ⟨0, 1⟩).num = _ ∧ (cs.getD j ⟨0, 1⟩).den = 1
  rw [hcs, List.getD_eq_getElem _ _ (by rw [List.length_map]; exact hj), List.getElem_map,
    List.getD_eq_getElem _ _ hj]
  exact ⟨rfl, rfl⟩

theorem roundtrip_coefficients_witness :
    (([2, -1, 5] : List Int).length ≤ ([⟨0, 5⟩, ⟨-1, 8⟩, ⟨3, 20⟩, ⟨2, 11⟩] : List Point).length ∧
      ([⟨0, 5⟩, ⟨-1, 8⟩, ⟨3, 20⟩, ⟨2, 11⟩] : List Point).Pairwise (fun p q => p.x ≠ q.x) ∧
      ∀ p ∈ ([⟨0, 5⟩, ⟨-1, 8⟩, ⟨3, 20⟩, ⟨2, 11⟩] : List Point),
        p.y = ∑ j in Finset.range ([2, -1, 5] : List Int).length,
          ([2, -1, 5] : List Int).getD j 0 * p.x ^ (([2, -1, 5] : List Int).length - 1 - j)) ∧
    ∃ sol, solve (([2, -1, 5] : List Int).length : Int)
        [⟨0, 5⟩, ⟨-1, 8⟩, ⟨3, 20⟩, ⟨2, 11⟩] = .ok sol ∧
      sol.coefficients = ([2, -1, 5] : List Int).map (fun z => (⟨z, 1⟩ : Fraction)) ∧
      ∀ j, j < ([2, -1, 5] : List Int).length →
        (sol.coefficients.getD j ⟨0, 1⟩).num = ([2, -1, 5] : List Int).getD j 0 ∧
        (sol.coefficients.getD j ⟨0, 1⟩).den = 1 :=
  ⟨⟨by decide, by decide, by decide⟩,
    roundtrip_coefficients [2, -1, 5] [⟨0, 5⟩, ⟨-1, 8⟩, ⟨3, 20⟩, ⟨2, 11⟩]
      (by decide) (by decide) (by decide)⟩

/-- C3: on more than `k` points with pairwise distinct `x` sampled from a polynomial
with `k` integer coefficients (degree at most `k - 1`), the solve marks every
unused point `OK`: the report holds one line per unused point, none `FAILED`. -/
theorem validation_all_ok (a : List Int) (points : List Point)
    (hlen : a.length < points.length) (hdist : points.Pairwise (fun p q => p.x ≠ q.x))
    (hsample : ∀ p ∈ points,
      p.y = ∑ j in Finset.range a.length, a.getD j 0 * p.x ^ (a.length - 1 - j)) :
    ∃ sol, solve (a.length : Int) points = .ok sol ∧
      sol.report = (unusedPoints a.length points).map (fun p => (p.x, true)) ∧
      sol.report.length = points.length - a.length ∧
      ∀ v ∈ sol.report, v.2 = true := by
  obtain ⟨cs, _, hsolve, hl, hcan, hann, hns⟩ :=
    solve_spec a.length points (Nat.le_of_lt hlen) hdist
  have hcs := sampled_coefficients a points (Nat.le_of_lt hlen) hsample cs hl hcan hann hns
  have hrep : ((unusedPoints a.length points).map fun p =>
      (p.x, decide (polyEval a.length (cval cs) (p.x : ℚ) = (p.y : ℚ)))) =
      (unusedPoints a.length points).map (fun p => (p.x, true)) := by
    apply List.map_congr_left
    intro p hp
    have hmem : p ∈ points :=
      (sortPoints_perm points).mem_iff.mp (List.mem_of_mem_drop hp)
    rw [hcs, polyEval_map_int, ← hsample p hmem]
    simp
  refine ⟨_, hsolve, hrep, ?_, ?_⟩
  · show (List.map _ _).length = _
    rw [List.length_map]
    unfold unusedPoints
    rw [List.length_drop, (sortPoints_perm points).length_eq]
  · intro v hv
    have hv2 : v ∈ (unusedPoints a.length points).map (fun p => (p.x, true)) := by
      rw [← hrep]; exact hv
    obtain ⟨p, _, hp⟩ := List.mem_map.mp hv2
    rw [← hp]

theorem validation_all_ok_witness :
    (([2, -1, 5] : List Int).length < ([⟨0, 5⟩, ⟨-1, 8⟩, ⟨3, 20⟩, ⟨2, 11⟩] : List Point).length ∧
      ([⟨0, 5⟩, ⟨-1, 8⟩, ⟨3, 20⟩, ⟨2, 11⟩] : List Point).Pairwise (fun p q => p.x ≠ q.x) ∧
      ∀ p ∈ ([⟨0, 5⟩, ⟨-1, 8⟩, ⟨3, 20⟩, ⟨2, 11⟩] : List Point),
        p.y = ∑ j in Finset.range ([2, -1, 5] : List Int).length,
          ([2, -1, 5] : List Int).getD j 0 * p.x ^ (([2, -1, 5] : List Int).length - 1 - j)) ∧
    ∃ sol, solve (([2, -1, 5] : List Int).length : Int)
        [⟨0, 5⟩, ⟨-1, 8⟩, ⟨3, 20⟩, ⟨2, 11⟩] = .ok sol ∧
      sol.report = (unusedPoints ([2, -1, 5] : List Int).length
        [⟨0, 5⟩, ⟨-1, 8⟩, ⟨3, 20⟩, ⟨2, 11⟩]).map (fun p => (p.x, true)) ∧
      sol.report.length =
        ([⟨0, 5⟩, ⟨-1, 8⟩, ⟨3, 20⟩, ⟨2, 11⟩] : List Point).length -
          ([2, -1, 5] : List Int).length ∧
      ∀ v ∈ sol.report, v.2 = true :=
  ⟨⟨by decide, by decide, by decide⟩,
    validation_all_ok [2, -1, 5] [⟨0, 5⟩, ⟨-1, 8⟩, ⟨3, 20⟩, ⟨2, 11⟩]
      (by decide) (by decide) (by decide)⟩

/-- C4 (the scenario of `testCase1`): the digit strings decode to `4`, `7`, `12` and
`39`; from `(1,4)`, `(2,7)`, `(3,12)` with `k = 3` the reconstruction returns
`[1/1, 0/1, 3/1]`; that polynomial evaluates to `39/1` at `x = 6`; and a fourth point
`(6, y)` is reported `OK` exactly when `y = 39`, `FAILED` for every other `y`. -/
theorem testCase1_scenario :
    (stringToBigInt "4" 10 = .ok 4 ∧ stringToBigInt "111" 2 = .ok 7 ∧
      stringToBigInt "12" 10 = .ok 12 ∧ stringToBigInt "213" 4 = .ok 39) ∧
    reconstruct 3 [⟨1, 4⟩, ⟨2, 7⟩, ⟨3, 12⟩] = .ok [⟨1, 1⟩, ⟨0, 1⟩, ⟨3, 1⟩] ∧
    evaluatePolynomial 6 [⟨1, 1⟩, ⟨0, 1⟩, ⟨3, 1⟩] = .ok ⟨39, 1⟩ ∧
    (∀ y : Int, solve 3 [⟨1, 4⟩, ⟨2, 7⟩, ⟨3, 12⟩, ⟨6, y⟩] =
      .ok ⟨[⟨1, 1⟩, ⟨0, 1⟩, ⟨3, 1⟩], [(6, decide (y = 39))]⟩) ∧
    solvePolynomial 3 [⟨1, 10, "4"⟩, ⟨2, 2, "111"⟩, ⟨3, 10, "12"⟩, ⟨6, 4, "213"⟩] =
      .ok ⟨[⟨1, 1⟩, ⟨0, 1⟩, ⟨3, 1⟩], [(6, true)]⟩ := by
  have hrec : reconstruct 3 [⟨1, 4⟩, ⟨2, 7⟩, ⟨3, 12⟩] = .ok [⟨1, 1⟩, ⟨0, 1⟩, ⟨3, 1⟩] := by
    decide!
  have hev : evaluatePolynomial 6 [⟨1, 1⟩, ⟨0, 1⟩, ⟨3, 1⟩] = .ok ⟨39, 1⟩ := by
    decide!
  refine ⟨⟨by decide!, by decide!, by decide!, by decide!⟩, hrec, hev, ?_, by decide!⟩
  intro y
  have hsort : sortPoints [⟨1, 4⟩, ⟨2, 7⟩, ⟨3, 12⟩, ⟨6, y⟩] =
      [⟨1, 4⟩, ⟨2, 7⟩, ⟨3, 12⟩, ⟨6, y⟩] := by
    simp [sortPoints, insertPoint]
  have hsolving : solvingPoints 3 [⟨1, 4⟩, ⟨2, 7⟩, ⟨3, 12⟩, ⟨6, y⟩] =
      [⟨1, 4⟩, ⟨2, 7⟩, ⟨3, 12⟩] := by
    unfold solvingPoints; rw [hsort]; rfl
  have hunused : unusedPoints 3 [⟨1, 4⟩, ⟨2, 7⟩, ⟨3, 12⟩, ⟨6, y⟩] = [⟨6, y⟩] := by
    unfold unusedPoints; rw [hsort]; rfl
  unfold solve
  rw [if_neg (by omega)]
  simp only [show (3 : Int).toNat = 3 from rfl, hsolving, hunused, hrec, validate, hev, bind,
    Except.bind, pure, Except.pure]
  congr 4
  rw [decide_eq_decide]
  constructor
  · rintro ⟨h, _⟩; exact h.symm
  · intro h; exact ⟨h.symm, trivial⟩

/-- C10 (singular detection): when two of the `k` solving points share their `x`,
the reconstruction returns no coefficients: it raises the zero-pivot error of
`divide`, in the forward elimination or else in the back-substitution, and so does
every solve with this solving set.  Three points sharing one `x` with `k = 3` are
one case. -/
theorem duplicate_x_fails (k : Nat) (solving : List Point) (hlen : solving.length = k)
    (hdup : ¬ solving.Pairwise (fun p q => p.x ≠ q.x)) :
    reconstruct k solving = .error .divideByZero ∧
    (∃ m, buildMatrix k solving = .ok m ∧
      (eliminate k m = .error .divideByZero ∨
        ∃ m1, eliminate k m = .ok m1 ∧ backSubstitute k m1 = .error .divideByZero)) ∧
    (∀ points, solvingPoints k points = solving →
      solve (k : Int) points = .error .divideByZero) ∧
    reconstruct 3 [⟨2, 4⟩, ⟨2, 7⟩, ⟨2, 12⟩] = .error .divideByZero := by
  have hsing := singular_of_duplicate k solving hlen hdup
  have hrec : reconstruct k solving = .error .divideByZero := by
    rcases reconstruct_spec k solving (Nat.le_of_eq hlen.symm) with
      ⟨_, _, _, _, _, hns⟩ | ⟨herr, _⟩
    · exact absurd hsing hns
    · exact herr
  refine ⟨hrec, ?_, ?_, by decide!⟩
  · obtain ⟨m, hm, _⟩ := buildMatrix_ok k solving (Nat.le_of_eq hlen.symm)
    refine ⟨m, hm, ?_⟩
    have h := hrec
    unfold reconstruct at h
    simp only [hm, bind, Except.bind] at h
    cases he : eliminate k m with
    | error e =>
      simp only [he] at h
      left
      rw [Except.error.inj h]
    | ok m1 =>
      simp only [he] at h
      right
      exact ⟨m1, rfl, h⟩
  · intro points hp
    have hkl : k ≤ points.length := by
      have h1 : (solvingPoints k points).length = k := by rw [hp]; exact hlen
      unfold solvingPoints at h1
      rw [List.length_take, (sortPoints_perm points).length_eq] at h1
      omega
    unfold solve
    have hneg : ¬ ((k : Int) < 0 ∨ (4294967295 ≤ (k : Int) ∧ (points.length : Int) < k)) := by
      omega
    rw [if_neg hneg]
    simp only [Int.toNat_ofNat, hp, hrec, bind, Except.bind]

theorem duplicate_x_fails_witness :
    (([⟨1, 4⟩, ⟨5, 7⟩, ⟨1, 12⟩] : List Point).length = 3 ∧
      ¬ ([⟨1, 4⟩, ⟨5, 7⟩, ⟨1, 12⟩] : List Point).Pairwise (fun p q => p.x ≠ q.x)) ∧
    (reconstruct 3 [⟨1, 4⟩, ⟨5, 7⟩, ⟨1, 12⟩] = .error .divideByZero ∧
    (∃ m, buildMatrix 3 [⟨1, 4⟩, ⟨5, 7⟩, ⟨1, 12⟩] = .ok m ∧
      (eliminate 3 m = .error .divideByZero ∨
        ∃ m1, eliminate 3 m = .ok m1 ∧ backSubstitute 3 m1 = .error .divideByZero)) ∧
    (∀ points, solvingPoints 3 points = [⟨1, 4⟩, ⟨5, 7⟩, ⟨1, 12⟩] →
      solve ((3 : Nat) : Int) points = .error .divideByZero) ∧
    reconstruct 3 [⟨2, 4⟩, ⟨2, 7⟩, ⟨2, 12⟩] = .error .divideByZero) :=
  ⟨⟨by decide, by decide⟩,
    duplicate_x_fails 3 [⟨1, 4⟩, ⟨5, 7⟩, ⟨1, 12⟩] (by decide) (by decide)⟩

/-! ### The contract of the validation pass -/

/-- C11: for canonical coefficients the validation pass never raises; a point
`(x, y)` gets `OK` exactly when the evaluated object has `num = y` and `den = 1`,
and that holds exactly when the exact value of the polynomial at `x` is `y`;
otherwise it gets `FAILED`. -/
theorem validation_verdict (coefficients : List Fraction)
    (hc : ∀ f ∈ coefficients, Fraction.Canonical f) (unused : List Point) :
    validate coefficients unused = .ok (unused.map fun p =>
      (p.x, decide (∑ i in Finset.range coefficients.length,
        cval coefficients i * (p.x : ℚ) ^ (coefficients.length - 1 - i) = (p.y : ℚ)))) ∧
    ∀ p : Point, ∃ calculatedY, evaluatePolynomial p.x coefficients = .ok calculatedY ∧
      validate coefficients [p] =
        .ok [(p.x, decide (calculatedY.num = p.y ∧ calculatedY.den = 1))] ∧
      ((calculatedY.num = p.y ∧ calculatedY.den = 1) ↔
        ∑ i in Finset.range coefficients.length,
          cval coefficients i * (p.x : ℚ) ^ (coefficients.length - 1 - i) = (p.y : ℚ)) := by
  refine ⟨validate_ok coefficients hc unused, ?_⟩
  intro p
  obtain ⟨r, hr, hrc, hrv⟩ := evaluatePolynomial_ok p.x coefficients hc
  refine ⟨r, hr, ?_, ?_⟩
  · simp only [validate, hr, bind, Except.bind, pure, Except.pure]
  · rw [verdict_iff hrc, hrv]; rfl

theorem validation_verdict_witness :
    (∀ f ∈ ([⟨1, 2⟩, ⟨-3, 1⟩] : List Fraction), Fraction.Canonical f) ∧
    (validate [⟨1, 2⟩, ⟨-3, 1⟩] [⟨4, -1⟩, ⟨5, 0⟩] = .ok (([⟨4, -1⟩, ⟨5, 0⟩] : List Point).map fun p =>
      (p.x, decide (∑ i in Finset.range ([⟨1, 2⟩, ⟨-3, 1⟩] : List Fraction).length,
        cval [⟨1, 2⟩, ⟨-3, 1⟩] i *
          (p.x : ℚ) ^ (([⟨1, 2⟩, ⟨-3, 1⟩] : List Fraction).length - 1 - i) = (p.y : ℚ)))) ∧
    ∀ p : Point, ∃ calculatedY, evaluatePolynomial p.x [⟨1, 2⟩, ⟨-3, 1⟩] = .ok calculatedY ∧
      validate [⟨1, 2⟩, ⟨-3, 1⟩] [p] =
        .ok [(p.x, decide (calculatedY.num = p.y ∧ calculatedY.den = 1))] ∧
      ((calculatedY.num = p.y ∧ calculatedY.den = 1) ↔
        ∑ i in Finset.range ([⟨1, 2⟩, ⟨-3, 1⟩] : List Fraction).length,
          cval [⟨1, 2⟩, ⟨-3, 1⟩] i *
            (p.x : ℚ) ^ (([⟨1, 2⟩, ⟨-3, 1⟩] : List Fraction).length - 1 - i) = (p.y : ℚ))) :=
  ⟨by decide, validation_verdict [⟨1, 2⟩, ⟨-3, 1⟩] (by decide) [⟨4, -1⟩, ⟨5, 0⟩]⟩

/-- C12: for `n` canonical coefficients `evaluatePolynomial(x, coeffs)` returns the
canonical object whose value is `sum_i coeffs[i] * x ^ (n - 1 - i)`, index `0` at the
highest power and the last index at the constant term; its `num` and `den` are those
of that rational in lowest terms; for empty `coeffs` it returns `0/1`. -/
theorem evaluatePolynomial_exact (x : Int) (coeffs : List Fraction)
    (hc : ∀ f ∈ coeffs, Fraction.Canonical f) :
    (∃ r, evaluatePolynomial x coeffs = .ok r ∧ r.Canonical ∧
      r.toRat = ∑ i in Finset.range coeffs.length,
        cval coeffs i * (x : ℚ) ^ (coeffs.length - 1 - i) ∧
      r.num = (∑ i in Finset.range coeffs.length,
        cval coeffs i * (x : ℚ) ^ (coeffs.length - 1 - i)).num ∧
      r.den = ((∑ i in Finset.range coeffs.length,
        cval coeffs i * (x : ℚ) ^ (coeffs.length - 1 - i)).den : Int)) ∧
    evaluatePolynomial x [] = .ok ⟨0, 1⟩ := by
  obtain ⟨r, hr, hrc, hrv⟩ := evaluatePolynomial_ok x coeffs hc
  have hv : r.toRat = ∑ i in Finset.range coeffs.length,
      cval coeffs i * (x : ℚ) ^ (coeffs.length - 1 - i) := hrv
  refine ⟨⟨r, hr, hrc, hv, ?_, ?_⟩, ?_⟩
  · rw [← hv, hrc.num_eq]
  · rw [← hv, hrc.den_eq]
  · unfold evaluatePolynomial
    simp only [Fraction.new_int, bind, Except.bind]
    rfl

theorem evaluatePolynomial_exact_witness :
    (∀ f ∈ ([⟨1, 2⟩, ⟨-3, 1⟩, ⟨5, 7⟩] : List Fraction), Fraction.Canonical f) ∧
    ((∃ r, evaluatePolynomial (-2) [⟨1, 2⟩, ⟨-3, 1⟩, ⟨5, 7⟩] = .ok r ∧ r.Canonical ∧
      r.toRat = ∑ i in Finset.range ([⟨1, 2⟩, ⟨-3, 1⟩, ⟨5, 7⟩] : List Fraction).length,
        cval [⟨1, 2⟩, ⟨-3, 1⟩, ⟨5, 7⟩] i *
          (((-2 : Int) : ℚ)) ^ (([⟨1, 2⟩, ⟨-3, 1⟩, ⟨5, 7⟩] : List Fraction).length - 1 - i) ∧
      r.num = (∑ i in Finset.range ([⟨1, 2⟩, ⟨-3, 1⟩, ⟨5, 7⟩] : List Fraction).length,
        cval [⟨1, 2⟩, ⟨-3, 1⟩, ⟨5, 7⟩] i *
          (((-2 : Int) : ℚ)) ^ (([⟨1, 2⟩, ⟨-3, 1⟩, ⟨5, 7⟩] : List Fraction).length - 1 - i)).num ∧
      r.den = ((∑ i in Finset.range ([⟨1, 2⟩, ⟨-3, 1⟩, ⟨5, 7⟩] : List Fraction).length,
        cval [⟨1, 2⟩, ⟨-3, 1⟩, ⟨5, 7⟩] i *
          (((-2 : Int) : ℚ)) ^
            (([⟨1, 2⟩, ⟨-3, 1⟩, ⟨5, 7⟩] : List Fraction).length - 1 - i)).den : Int)) ∧
    evaluatePolynomial (-2) [] = .ok ⟨0, 1⟩) :=
  ⟨by decide, evaluatePolynomial_exact (-2) [⟨1, 2⟩, ⟨-3, 1⟩, ⟨5, 7⟩] (by decide)⟩

/-! ### The gcd helper at zero -/

/-- C20, as the code has it: `gcd(0, 0)` returns `0`; the constructor never divides
by it, since it rejects a zero denominator first; for `b ≠ 0`, `gcd(0, b)` is `b`
and `new Fraction(0, b)` is `0/1`. -/
theorem gcd_zero_zero (b : Int) (hb : b ≠ 0) :
    Fraction.gcd 0 0 = 0 ∧ Fraction.new 0 0 = .error .denominatorZero ∧
    Fraction.gcd 0 b = b ∧ Fraction.new 0 b = .ok ⟨0, 1⟩ := by
  have hg : Fraction.gcd 0 b = b := by
    rw [Fraction.gcd_eq, if_neg hb, Int.zero_tmod, Fraction.gcd_eq, if_pos rfl]
  refine ⟨rfl, rfl, hg, ?_⟩
  unfold Fraction.new
  rw [if_neg hb]
  simp only [hg, if_neg hb, Int.zero_tdiv, Int.tdiv_self hb]
  rfl

theorem gcd_zero_zero_witness :
    (-6 : Int) ≠ 0 ∧
    (Fraction.gcd 0 0 = 0 ∧ Fraction.new 0 0 = .error .denominatorZero ∧
    Fraction.gcd 0 (-6) = -6 ∧ Fraction.new 0 (-6) = .ok ⟨0, 1⟩) :=
  ⟨by decide, gcd_zero_zero (-6) (by decide)⟩

/-- C20, as stated, fails: `gcd(0, 0)` is not `1`. -/
theorem gcd_at_zero_is_not_one : Fraction.gcd 0 0 ≠ 1 := by
  decide

/-! ### Radix decoding -/

theorem digitSum_cons (b d : Nat) (ds : List Nat) :
    digitSum b (d :: ds) = (d : Int) * (b : Int) ^ ds.length + digitSum b ds := by
  unfold digitSum
  rw [List.length_cons, Finset.sum_range_succ', add_comm]
  congr 1
  apply Finset.sum_congr rfl
  intro i hi
  have hi2 := Finset.mem_range.mp hi
  rw [show ds.length + 1 - 1 - (i + 1) = ds.length - 1 - i by omega]
  rfl

theorem digitSum_snoc (b d : Nat) (ds : List Nat) :
    digitSum b (ds ++ [d]) = digitSum b ds * (b : Int) + (d : Int) := by
  induction ds with
  | nil => simp [digitSum]
  | cons e rest ih =>
    rw [List.cons_append, digitSum_cons, digitSum_cons, ih, List.length_append,
      List.length_singleton, pow_succ]
    ring

theorem digitSum_reverse_digits (b : Nat) (L : List Nat) :
    digitSum b L.reverse = ((Nat.ofDigits b L : Nat) : Int) := by
  induction L with
  | nil => simp [digitSum]
  | cons d rest ih =>
    rw [List.reverse_cons, digitSum_snoc, ih, Nat.ofDigits_cons]
    push_cast
    ring

theorem parseInt_of_digit (b : Nat) (hb2 : 2 ≤ b) (hb36 : b ≤ 36) (c : Char) (d : Nat)
    (hd : digitValue c = some d) (hlt : d < b) : parseInt c b = some d := by
  unfold parseInt
  have h1 : b % 4294967296 = b := Nat.mod_eq_of_lt (by omega)
  have hb0 : ¬ b = 0 := by omega
  simp only [h1, if_neg hb0]
  rw [if_neg (by omega), hd]
  simp only [if_pos hlt]

theorem foldlM_digits (b : Nat) (hb2 : 2 ≤ b) (hb36 : b ≤ 36) (cs : List Char) :
    ∀ acc : Int, (∀ c ∈ cs, ∃ d, digitValue c = some d ∧ d < b) →
    cs.foldlM
      (fun result c =>
        match parseInt c b with
        | none => Except.error JsError.rangeError
        | some digit => Except.ok (result * (b : Int) + (digit : Int))) acc =
      .ok (acc * (b : Int) ^ cs.length +
        digitSum b (cs.map fun c => (digitValue c).getD 0)) := by
  induction cs with
  | nil => intro acc _; simp [digitSum]; rfl
  | cons c rest ih =>
    intro acc hall
    obtain ⟨d, hd, hlt⟩ := hall c (List.mem_cons_self _ _)
    rw [List.foldlM_cons, parseInt_of_digit b hb2 hb36 c d hd hlt]
    show List.foldlM _ (acc * (b : Int) + (d : Int)) rest = _
    rw [ih _ (fun c hc => hall c (List.mem_cons_of_mem _ hc)), List.map_cons, digitSum_cons, hd,
      List.length_cons, List.length_map, pow_succ]
    congr 1
    simp only [Option.getD_some]
    ring

theorem digitValue_digitChar : ∀ d, d < 36 → digitValue (digitChar d) = some d := by
  decide

/-- C15: for a base `b` in `2..36` and a string of valid base-`b` digits
`d_0 ... d_(n-1)`, `stringToBigInt` returns exactly `sum_i d_i * b ^ (n - 1 - i)` as an
unbounded integer, `0` for the empty string; so the base-`b` numeral of any natural
number `m` decodes to `m`, beyond `2 ^ 53` as well; `"111"` in base `2` is `7` and
`"213"` in base `4` is `39`. -/
theorem stringToBigInt_exact (b : Nat) (hb2 : 2 ≤ b) (hb36 : b ≤ 36) (s : String)
    (hs : ∀ c ∈ s.toList, ∃ d, digitValue c = some d ∧ d < b) (m : Nat) :
    stringToBigInt s b = .ok (∑ i in Finset.range (digitsOf s).length,
      ((digitsOf s).getD i 0 : Int) * (b : Int) ^ ((digitsOf s).length - 1 - i)) ∧
    (digitsOf s).length = s.length ∧
    stringToBigInt "" b = .ok 0 ∧
    stringToBigInt (numeral b m) b = .ok (m : Int) ∧
    stringToBigInt "111" 2 = .ok 7 ∧ stringToBigInt "213" 4 = .ok 39 ∧
    stringToBigInt "9007199254740993" 10 = .ok 9007199254740993 := by
  refine ⟨?_, ?_, rfl, ?_, by decide!, by decide!, by decide!⟩
  · unfold stringToBigInt
    rw [foldlM_digits b hb2 hb36 s.toList 0 hs, zero_mul, zero_add]
    rfl
  · unfold digitsOf
    rw [List.length_map]
    rfl
  · have hdig : ∀ d ∈ (Nat.digits b m).reverse, d < 36 := by
      intro d hd
      have := Nat.digits_lt_base (show 1 < b by omega) (List.mem_reverse.mp hd)
      omega
    have hmap : ((Nat.digits b m).reverse.map digitChar).map
        (fun c => (digitValue c).getD 0) = (Nat.digits b m).reverse := by
      rw [List.map_map]
      conv_rhs => rw [← List.map_id (Nat.digits b m).reverse]
      apply List.map_congr_left
      intro d hd
      simp only [Function.comp, digitValue_digitChar d (hdig d hd), Option.getD_some, id]
    have e : (String.mk ((Nat.digits b m).reverse.map digitChar)).toList =
        (Nat.digits b m).reverse.map digitChar := rfl
    unfold stringToBigInt numeral
    rw [e, foldlM_digits b hb2 hb36 _ 0, hmap, digitSum_reverse_digits, Nat.ofDigits_digits,
      zero_mul, zero_add]
    intro c hc
    obtain ⟨d, hd, hcd⟩ := List.mem_map.mp hc
    refine ⟨d, ?_, Nat.digits_lt_base (show 1 < b by omega) (List.mem_reverse.mp hd)⟩
    rw [← hcd]
    exact digitValue_digitChar d (hdig d hd)

theorem stringToBigInt_exact_witness :
    ((2 : Nat) ≤ 16 ∧ (16 : Nat) ≤ 36 ∧
      ∀ c ∈ "e1b5".toList, ∃ d, digitValue c = some d ∧ d < 16) ∧
    (stringToBigInt "e1b5" 16 = .ok (∑ i in Finset.range (digitsOf "e1b5").length,
      ((digitsOf "e1b5").getD i 0 : Int) * ((16 : Nat) : Int) ^ ((digitsOf "e1b5").length - 1 - i)) ∧
    (digitsOf "e1b5").length = "e1b5".length ∧
    stringToBigInt "" 16 = .ok 0 ∧
    stringToBigInt (numeral 16 57781) 16 = .ok ((57781 : Nat) : Int) ∧
    stringToBigInt "111" 2 = .ok 7 ∧ stringToBigInt "213" 4 = .ok 39 ∧
    stringToBigInt "9007199254740993" 10 = .ok 9007199254740993) :=
  ⟨⟨by decide, by decide, by decide⟩,
    stringToBigInt_exact 16 (by decide) (by decide) "e1b5" (by decide) 57781⟩

/-! ### Problems outside the contract -/

theorem buildMatrix_short (k : Nat) (solving : List Point) (hlen : solving.length < k) :
    buildMatrix k solving = .error .typeError := by
  have hs0 : Shape k (List.replicate k (List.replicate (k + 1) (⟨0, 1⟩ : Fraction))) := by
    refine ⟨List.length_replicate _ _, ?_⟩
    intro row hrow
    rw [List.eq_of_mem_replicate hrow, List.length_replicate]
  have hc0 : AllCanonical (List.replicate k (List.replicate (k + 1) (⟨0, 1⟩ : Fraction))) := by
    intro row hrow f hf
    rw [List.eq_of_mem_replicate hrow] at hf
    rw [List.eq_of_mem_replicate hf]
    exact canonical_zero
  have key := forLoop_spec
    (fun i (matrix : Mat) =>
      match solving[i]? with
      | none => Except.error JsError.typeError
      | some p => do
        let matrix ← forLoop (fun j (matrix : Mat) => do
          let entry ← Fraction.new (p.x ^ (k - 1 - j)) 1
          setEntry matrix i j entry) k 0 matrix
        let entry ← Fraction.new p.y 1
        setEntry matrix i k entry)
    (fun i m1 => i ≤ solving.length ∧ Shape k m1 ∧ AllCanonical m1)
    (fun e => e = JsError.typeError)
    k 0 (List.replicate k (List.replicate (k + 1) (⟨0, 1⟩ : Fraction)))
    ⟨Nat.zero_le _, hs0, hc0⟩
    (by
      intro i m1 _ hik ⟨hil, hs, hc⟩
      have hik2 : i < k := by omega
      by_cases hlt : i < solving.length
      · left
        obtain ⟨m2, hm2, hs2, hc2, _⟩ := buildRow_ok hs hc hik2 (solving[i])
        obtain ⟨m3, hm3, hs3, hc3, _⟩ := ent_setEntry hs2 hc2 hik2 (Nat.lt_succ_self k)
          ⟨(solving[i]).y, 1⟩ (canonical_int _)
        simp only [Fraction.new_int, bind, Except.bind] at hm2
        refine ⟨m3, ?_, by omega, hs3, hc3⟩
        simp only [List.getElem?_eq_getElem hlt, hm2, Fraction.new_int, hm3, bind, Except.bind]
      · right
        refine ⟨JsError.typeError, ?_, rfl⟩
        simp only [List.getElem?_eq_none (Nat.le_of_not_lt hlt)])
  unfold buildMatrix
  simp only [Fraction.new_int, bind, Except.bind]
  simp only [Fraction.new_int, bind, Except.bind] at key
  rcases key with ⟨m, _, hle, _⟩ | ⟨e, he, hq⟩
  · omega
  · rw [he, hq]

theorem solve_zero (points : List Point) :
    solve 0 points = .ok ⟨[], (sortPoints points).map fun p => (p.x, decide (p.y = 0))⟩ := by
  have hrec : reconstruct 0 (solvingPoints 0 points) = .ok [] := by
    unfold solvingPoints
    rw [List.take_zero]
    rfl
  have hun : unusedPoints 0 points = sortPoints points := by
    unfold unusedPoints; rw [List.drop_zero]
  have hmap : ((sortPoints points).map fun p =>
      (p.x, decide (polyEval ([] : List Fraction).length (cval []) (p.x : ℚ) = (p.y : ℚ)))) =
      (sortPoints points).map fun p => (p.x, decide (p.y = 0)) := by
    apply List.map_congr_left
    intro p _
    congr 1
    rw [decide_eq_decide]
    simp [polyEval, eq_comm]
  have hval := validate_ok [] (by intro f hf; cases hf) (sortPoints points)
  rw [hmap] at hval
  unfold solve
  rw [if_neg (by omega)]
  simp only [show (0 : Int).toNat = 0 from rfl, hrec, hun, hval, bind, Except.bind, pure,
    Except.pure]

/-- C13, as the code has it: no check precedes the allocation of the matrix.  A
negative `k`, and a `k` of `2 ^ 32 - 1` or more above the number of points, raise a
RangeError at the allocation, `Array(k)` or `Array(k + 1)`; a smaller `k` above the
number of points raises a TypeError while the rows are filled; two solving points
with the same `x`, for `k` at most the number of points and below `2 ^ 32 - 1`, pass
the construction and raise the error of `divide` later; in these cases no
coefficients are returned.  For `k = 0` the solve completes with an
empty coefficient vector and reports each point `OK` exactly when its `y` is `0`. -/
theorem malformed_problem (k : Nat) (points : List Point) :
    (∀ j : Int, j < 0 → solve j points = .error .rangeError) ∧
    (points.length < k → 4294967295 ≤ k → solve (k : Int) points = .error .rangeError) ∧
    (points.length < k → k < 4294967295 →
      buildMatrix k (solvingPoints k points) = .error .typeError ∧
      solve (k : Int) points = .error .typeError) ∧
    (k ≤ points.length → k < 4294967295 →
      ¬ (solvingPoints k points).Pairwise (fun p q => p.x ≠ q.x) →
      (∃ m, buildMatrix k (solvingPoints k points) = .ok m) ∧
      solve (k : Int) points = .error .divideByZero) ∧
    solve 0 points = .ok ⟨[], (sortPoints points).map fun p => (p.x, decide (p.y = 0))⟩ := by
  refine ⟨?_, ?_, ?_, ?_, solve_zero points⟩
  · intro j hj
    unfold solve
    rw [if_pos (Or.inl hj)]
  · intro hlt hbig
    unfold solve
    rw [if_pos (by omega)]
  · intro hlt hsmall
    have hl : (solvingPoints k points).length < k := by
      unfold solvingPoints
      rw [List.length_take, (sortPoints_perm points).length_eq]
      omega
    have hb := buildMatrix_short k _ hl
    refine ⟨hb, ?_⟩
    unfold solve reconstruct
    rw [if_neg (by omega)]
    simp only [Int.toNat_ofNat, hb, bind, Except.bind]
  · intro hle _ hdup
    have hl := solvingPoints_length k points hle
    obtain ⟨m, hm, _⟩ := buildMatrix_ok k _ (Nat.le_of_eq hl.symm)
    refine ⟨⟨m, hm⟩, ?_⟩
    have hsing := singular_of_duplicate k _ hl hdup
    rcases reconstruct_spec k _ (Nat.le_of_eq hl.symm) with
      ⟨_, _, _, _, _, hns⟩ | ⟨herr, _⟩
    · exact absurd hsing hns
    · unfold solve
      rw [if_neg (by omega)]
      simp only [Int.toNat_ofNat, herr, bind, Except.bind]

theorem malformed_problem_witness :
    solve (-1) [⟨1, 5⟩, ⟨1, 6⟩] = .error .rangeError ∧
    solve ((4294967296 : Nat) : Int) [⟨1, 5⟩, ⟨1, 6⟩] = .error .rangeError ∧
    solve ((4294967295 : Nat) : Int) [⟨1, 5⟩, ⟨1, 6⟩] = .error .rangeError ∧
    (buildMatrix 3 (solvingPoints 3 [⟨1, 5⟩, ⟨1, 6⟩]) = .error .typeError ∧
      solve ((3 : Nat) : Int) [⟨1, 5⟩, ⟨1, 6⟩] = .error .typeError) ∧
    ((∃ m, buildMatrix 2 (solvingPoints 2 [⟨1, 5⟩, ⟨1, 6⟩]) = .ok m) ∧
      solve ((2 : Nat) : Int) [⟨1, 5⟩, ⟨1, 6⟩] = .error .divideByZero) ∧
    solve 0 [⟨1, 5⟩, ⟨1, 6⟩] =
      .ok ⟨[], (sortPoints [⟨1, 5⟩, ⟨1, 6⟩]).map fun p => (p.x, decide (p.y = 0))⟩ :=
  ⟨(malformed_problem 3 [⟨1, 5⟩, ⟨1, 6⟩]).1 (-1) (by decide),
    (malformed_problem 4294967296 [⟨1, 5⟩, ⟨1, 6⟩]).2.1 (by decide) (by decide),
    (malformed_problem 4294967295 [⟨1, 5⟩, ⟨1, 6⟩]).2.1 (by decide) (by decide),
    (malformed_problem 3 [⟨1, 5⟩, ⟨1, 6⟩]).2.2.1 (by decide) (by decide),
    (malformed_problem 2 [⟨1, 5⟩, ⟨1, 6⟩]).2.2.2.1 (by decide) (by decide) (by decide),
    (malformed_problem 2 [⟨1, 5⟩, ⟨1, 6⟩]).2.2.2.2⟩

/-- C13, as stated, fails: with `k = 0` the solve is not rejected, it returns an
empty coefficient vector. -/
theorem zero_k_not_rejected :
    solve 0 [⟨1, 5⟩] = .ok ⟨[], [(1, false)]⟩ := by
  decide!

/-! ### Independence from the validation points -/

theorem sortPoints_split (solving validation points : List Point)
    (hd : (solving ++ validation).Pairwise (fun p q => p.x ≠ q.x))
    (hlt : ∀ s ∈ solving, ∀ v ∈ validation, s.x < v.x)
    (hp : points.Perm (solving ++ validation)) :
    sortPoints points = sortPoints solving ++ sortPoints validation := by
  haveI : IsAntisymm Point (fun a b => a.x < b.x) :=
    ⟨fun a b h1 h2 => absurd h1 (not_lt.mpr (le_of_lt h2))⟩
  have hsym : ∀ {a b : Point}, a.x ≠ b.x → b.x ≠ a.x := fun h => Ne.symm h
  have hdp : points.Pairwise (fun p q => p.x ≠ q.x) := (hp.pairwise_iff hsym).mpr hd
  rw [List.pairwise_append] at hd
  apply List.eq_of_perm_of_sorted (r := fun a b : Point => a.x < b.x)
  · exact (sortPoints_perm points).trans
      (hp.trans ((sortPoints_perm solving).append (sortPoints_perm validation)).symm)
  · exact sortPoints_sorted points hdp
  · show List.Pairwise _ _
    rw [List.pairwise_append]
    refine ⟨sortPoints_sorted solving hd.1, sortPoints_sorted validation hd.2.1, ?_⟩
    intro a ha b hb
    exact hlt a ((sortPoints_perm solving).mem_iff.mp ha) b
      ((sortPoints_perm validation).mem_iff.mp hb)

theorem solve_split (k : Nat) (solving validation points : List Point)
    (hk : solving.length = k)
    (hd : (solving ++ validation).Pairwise (fun p q => p.x ≠ q.x))
    (hlt : ∀ s ∈ solving, ∀ v ∈ validation, s.x < v.x)
    (hp : points.Perm (solving ++ validation)) :
    ∃ cs, reconstruct k (sortPoints solving) = .ok cs ∧
      solve (k : Int) points = .ok ⟨cs, (sortPoints validation).map fun p =>
        (p.x, decide (polyEval k (cval cs) (p.x : ℚ) = (p.y : ℚ)))⟩ := by
  have hsym : ∀ {a b : Point}, a.x ≠ b.x → b.x ≠ a.x := fun h => Ne.symm h
  have hdp : points.Pairwise (fun p q => p.x ≠ q.x) := (hp.pairwise_iff hsym).mpr hd
  have hlen : k ≤ points.length := by
    rw [hp.length_eq, List.length_append]; omega
  have hsort := sortPoints_split solving validation points hd hlt hp
  have hsl : (sortPoints solving).length = k := by
    rw [(sortPoints_perm solving).length_eq]; exact hk
  have hsolv : solvingPoints k points = sortPoints solving := by
    unfold solvingPoints; rw [hsort]; exact List.take_left' hsl
  have hun : unusedPoints k points = sortPoints validation := by
    unfold unusedPoints; rw [hsort]; exact List.drop_left' hsl
  obtain ⟨cs, hrec, hsolve, _⟩ := solve_spec k points hlen hdp
  rw [hsolv] at hrec
  rw [hun] at hsolve
  exact ⟨cs, hrec, hsolve⟩

/-- C14: a well-posed problem (`k` solving points of pairwise distinct `x`, every
validation point at a larger `x`) is solved without an error whatever the `y` of the
validation points, and two problems that differ only in those `y` get the same
coefficient vector; the validation points decide only the `OK`/`FAILED` entries of
the report, one per validation point. -/
theorem validation_is_data (k : Nat)
    (solving validation1 validation2 points1 points2 : List Point)
    (hk : solving.length = k)
    (hx : validation1.map Point.x = validation2.map Point.x)
    (hd : (solving ++ validation1).Pairwise (fun p q => p.x ≠ q.x))
    (hlt : ∀ s ∈ solving, ∀ v ∈ validation1, s.x < v.x)
    (hp1 : points1.Perm (solving ++ validation1))
    (hp2 : points2.Perm (solving ++ validation2)) :
    ∃ cs, solve (k : Int) points1 = .ok ⟨cs, (sortPoints validation1).map fun p =>
        (p.x, decide (∑ j in Finset.range k, cval cs j * (p.x : ℚ) ^ (k - 1 - j) = (p.y : ℚ)))⟩ ∧
      solve (k : Int) points2 = .ok ⟨cs, (sortPoints validation2).map fun p =>
        (p.x, decide (∑ j in Finset.range k, cval cs j * (p.x : ℚ) ^ (k - 1 - j) = (p.y : ℚ)))⟩ ∧
      cs.length = k := by
  have hd2 : (solving ++ validation2).Pairwise (fun p q => p.x ≠ q.x) := by
    have h1 : ((solving ++ validation1).map Point.x).Pairwise (fun a b => a ≠ b) :=
      List.pairwise_map.mpr hd
    rw [List.map_append, hx, ← List.map_append] at h1
    exact List.pairwise_map.mp h1
  have hlt2 : ∀ s ∈ solving, ∀ v ∈ validation2, s.x < v.x := by
    intro s hs v hv
    have hmem : v.x ∈ validation1.map Point.x := by
      rw [hx]; exact List.mem_map_of_mem _ hv
    obtain ⟨v1, hv1, hv1x⟩ := List.mem_map.mp hmem
    rw [← hv1x]
    exact hlt s hs v1 hv1
  obtain ⟨cs1, hrec1, hsolve1⟩ := solve_split k solving validation1 points1 hk hd hlt hp1
  obtain ⟨cs2, hrec2, hsolve2⟩ := solve_split k solving validation2 points2 hk hd2 hlt2 hp2
  have hcs : cs2 = cs1 := by
    rw [hrec1] at hrec2
    exact (Except.ok.inj hrec2).symm
  rw [hcs] at hsolve2
  refine ⟨cs1, hsolve1, hsolve2, ?_⟩
  have hsym : ∀ {a b : Point}, a.x ≠ b.x → b.x ≠ a.x := fun h => Ne.symm h
  have hlen : k ≤ points1.length := by
    rw [hp1.length_eq, List.length_append]; omega
  obtain ⟨cs, _, hsolve, hl, _⟩ := solve_spec k points1 hlen ((hp1.pairwise_iff hsym).mpr hd)
  rw [hsolve1] at hsolve
  have := Except.ok.inj hsolve
  rw [Solution.mk.injEq] at this
  rw [this.1]
  exact hl

theorem validation_is_data_witness :
    (([⟨1, 3⟩, ⟨2, 5⟩] : List Point).length = 2 ∧
      ([⟨4, 9⟩, ⟨3, 7⟩] : List Point).map Point.x = ([⟨4, 0⟩, ⟨3, 100⟩] : List Point).map Point.x ∧
      ([⟨1, 3⟩, ⟨2, 5⟩] ++ [⟨4, 9⟩, ⟨3, 7⟩] : List Point).Pairwise (fun p q => p.x ≠ q.x) ∧
      (∀ s ∈ ([⟨1, 3⟩, ⟨2, 5⟩] : List Point), ∀ v ∈ ([⟨4, 9⟩, ⟨3, 7⟩] : List Point), s.x < v.x) ∧
      ([⟨4, 9⟩, ⟨2, 5⟩, ⟨3, 7⟩, ⟨1, 3⟩] : List Point).Perm
        ([⟨1, 3⟩, ⟨2, 5⟩] ++ [⟨4, 9⟩, ⟨3, 7⟩] : List Point) ∧
      ([⟨3, 100⟩, ⟨1, 3⟩, ⟨4, 0⟩, ⟨2, 5⟩] : List Point).Perm
        ([⟨1, 3⟩, ⟨2, 5⟩] ++ [⟨4, 0⟩, ⟨3, 100⟩] : List Point)) ∧
    ∃ cs, solve ((2 : Nat) : Int) [⟨4, 9⟩, ⟨2, 5⟩, ⟨3, 7⟩, ⟨1, 3⟩] =
        .ok ⟨cs, (sortPoints [⟨4, 9⟩, ⟨3, 7⟩]).map fun p =>
          (p.x, decide (∑ j in Finset.range 2, cval cs j * (p.x : ℚ) ^ (2 - 1 - j) = (p.y : ℚ)))⟩ ∧
      solve ((2 : Nat) : Int) [⟨3, 100⟩, ⟨1, 3⟩, ⟨4, 0⟩, ⟨2, 5⟩] =
        .ok ⟨cs, (sortPoints [⟨4, 0⟩, ⟨3, 100⟩]).map fun p =>
          (p.x, decide (∑ j in Finset.range 2, cval cs j * (p.x : ℚ) ^ (2 - 1 - j) = (p.y : ℚ)))⟩ ∧
      cs.length = 2 :=
  ⟨⟨by decide, by decide, by decide, by decide, by decide, by decide⟩,
    validation_is_data 2 [⟨1, 3⟩, ⟨2, 5⟩] [⟨4, 9⟩, ⟨3, 7⟩] [⟨4, 0⟩, ⟨3, 100⟩]
      [⟨4, 9⟩, ⟨2, 5⟩, ⟨3, 7⟩, ⟨1, 3⟩] [⟨3, 100⟩, ⟨1, 3⟩, ⟨4, 0⟩, ⟨2, 5⟩]
      (by decide) (by decide) (by decide) (by decide) (by decide) (by decide)⟩

/-! ### The row chosen by the pivot search -/

theorem numberAbs_small (n : Int) (h : n.natAbs < 2 ^ 53) : numberAbs n = n.natAbs := by
  unfold numberAbs
  dsimp only
  rw [if_pos h]

theorem findMax_first {k : Nat} {m : Mat} (h : Shape k m) {i : Nat} (hi : i < k) :
    ∃ mx, findMax k i m = .ok mx ∧ i ≤ mx ∧ mx < k ∧
      (∀ r, i ≤ r → r < k →
        numberAbs (entF m r i).num ≤ numberAbs (entF m mx i).num) ∧
      (∀ r, i ≤ r → r < mx →
        numberAbs (entF m r i).num < numberAbs (entF m mx i).num) := by
  have key := forLoop_ok
    (fun j max => do
      let a ← getEntry m j i
      let b ← getEntry m max i
      pure (if numberAbs a.num > numberAbs b.num then j else max))
    (fun j mx => i ≤ mx ∧ mx < j ∧
      (∀ r, i ≤ r → r < j → numberAbs (entF m r i).num ≤ numberAbs (entF m mx i).num) ∧
      (∀ r, i ≤ r → r < mx → numberAbs (entF m r i).num < numberAbs (entF m mx i).num))
    (k - (i + 1)) (i + 1) i
    ⟨Nat.le_refl i, Nat.lt_succ_self i, fun r h1 h2 => by
      have : r = i := by omega
      subst this; exact Nat.le_refl _, fun r h1 h2 => by omega⟩
    (by
      intro j mx hj hjk ⟨h1, h2, h3, h4⟩
      have hjk2 : j < k := by omega
      have hmk : mx < k := by omega
      have hik : i < k + 1 := by omega
      simp only [getEntry_ok h hjk2 hik, getEntry_ok h hmk hik, bind, Except.bind, pure,
        Except.pure]
      by_cases hgt : numberAbs (entF m j i).num > numberAbs (entF m mx i).num
      · refine ⟨j, by rw [if_pos hgt], by omega, Nat.lt_succ_self j, ?_, ?_⟩
        · intro r hr1 hr2
          by_cases hrj : r = j
          · subst hrj; exact Nat.le_refl _
          · exact le_trans (h3 r hr1 (by omega)) (Nat.le_of_lt hgt)
        · intro r hr1 hr2
          exact lt_of_le_of_lt (h3 r hr1 hr2) hgt
      · refine ⟨mx, by rw [if_neg hgt], h1, by omega, ?_, h4⟩
        intro r hr1 hr2
        by_cases hrj : r = j
        · subst hrj; exact Nat.le_of_not_lt hgt
        · exact h3 r hr1 (by omega))
  obtain ⟨mx, hmx, h1, h2, h3, h4⟩ := key
  have e : i + 1 + (k - (i + 1)) = k := by omega
  rw [e] at h2 h3
  exact ⟨mx, hmx, h1, h2, h3, h4⟩

theorem eliminateStep_unfold {k i mx : Nat} {m : Mat} (hmx : findMax k i m = .ok mx) :
    eliminateStep k i m =
      forLoop (eliminateRow k i) (k - (i + 1)) (i + 1) (swapRows m i mx) := by
  unfold eliminateStep
  simp only [hmx, bind, Except.bind]

theorem swapRows_pivot_row {k : Nat} {m : Mat} (h : Shape k m) (hcan : AllCanonical m)
    {i mx : Nat} (hi : i < k) (hmx : mx < k) (c : Nat) :
    entF (swapRows m i mx) i c = entF m mx c := by
  rw [(swapRows_ok h hcan hi hmx).2.2 i c]
  by_cases himx : i = mx
  · rw [if_pos himx, himx]
  · rw [if_neg himx, if_pos rfl]

/-- C16, as the code has it: at step `i` the row the elimination loop swaps into
position `i` is a row `max` among `i .. k - 1` whose column-`i` numerator has the
largest magnitude after conversion to a double, `Math.abs(Number(num))`, of the rows
`i .. k - 1` at that moment; the denominators are not looked at.  When every
candidate entry is an integer below `2 ^ 53` in magnitude, that entry has the
largest absolute value as a rational number. -/
theorem pivot_row_largest_number {k : Nat} {m : Mat} (h : Shape k m) (hcan : AllCanonical m)
    {i : Nat} (hi : i < k) :
    ∃ mx, findMax k i m = .ok mx ∧ i ≤ mx ∧ mx < k ∧
      eliminateStep k i m =
        forLoop (eliminateRow k i) (k - (i + 1)) (i + 1) (swapRows m i mx) ∧
      (∀ c, entF (swapRows m i mx) i c = entF m mx c) ∧
      (∀ r, i ≤ r → r < k →
        numberAbs (entF m r i).num ≤ numberAbs (entF m mx i).num) ∧
      ((∀ r, i ≤ r → r < k → (entF m r i).den = 1 ∧ (entF m r i).num.natAbs < 2 ^ 53) →
        ∀ r, i ≤ r → r < k → |ent m r i| ≤ |ent m mx i|) := by
  obtain ⟨mx, hmx, h1, h2, h3, _⟩ := findMax_first h hi
  refine ⟨mx, hmx, h1, h2, eliminateStep_unfold hmx,
    fun c => swapRows_pivot_row h hcan hi h2 c, h3, ?_⟩
  intro hint r hr1 hr2
  have hval : ∀ r, i ≤ r → r < k → |ent m r i| = (((entF m r i).num.natAbs : Int) : ℚ) := by
    intro r hr1 hr2
    unfold ent Fraction.toRat
    rw [(hint r hr1 hr2).1, Int.cast_one, div_one, ← Int.cast_abs, Int.abs_eq_natAbs]
  rw [hval r hr1 hr2, hval mx h1 h2]
  have hle := h3 r hr1 hr2
  rw [numberAbs_small _ (hint r hr1 hr2).2, numberAbs_small _ (hint mx h1 h2).2] at hle
  exact_mod_cast hle

theorem pivot_row_largest_number_witness :
    (Shape 2 [[⟨2, 1⟩, ⟨1, 1⟩, ⟨5, 1⟩], [⟨-3, 1⟩, ⟨1, 1⟩, ⟨7, 1⟩]] ∧
      AllCanonical [[⟨2, 1⟩, ⟨1, 1⟩, ⟨5, 1⟩], [⟨-3, 1⟩, ⟨1, 1⟩, ⟨7, 1⟩]] ∧ 0 < 2) ∧
    ∃ mx, findMax 2 0 [[⟨2, 1⟩, ⟨1, 1⟩, ⟨5, 1⟩], [⟨-3, 1⟩, ⟨1, 1⟩, ⟨7, 1⟩]] = .ok mx ∧
      0 ≤ mx ∧ mx < 2 ∧
      eliminateStep 2 0 [[⟨2, 1⟩, ⟨1, 1⟩, ⟨5, 1⟩], [⟨-3, 1⟩, ⟨1, 1⟩, ⟨7, 1⟩]] =
        forLoop (eliminateRow 2 0) (2 - (0 + 1)) (0 + 1)
          (swapRows [[⟨2, 1⟩, ⟨1, 1⟩, ⟨5, 1⟩], [⟨-3, 1⟩, ⟨1, 1⟩, ⟨7, 1⟩]] 0 mx) ∧
      (∀ c, entF (swapRows [[⟨2, 1⟩, ⟨1, 1⟩, ⟨5, 1⟩], [⟨-3, 1⟩, ⟨1, 1⟩, ⟨7, 1⟩]] 0 mx) 0 c =
        entF [[⟨2, 1⟩, ⟨1, 1⟩, ⟨5, 1⟩], [⟨-3, 1⟩, ⟨1, 1⟩, ⟨7, 1⟩]] mx c) ∧
      (∀ r, 0 ≤ r → r < 2 →
        numberAbs (entF [[⟨2, 1⟩, ⟨1, 1⟩, ⟨5, 1⟩], [⟨-3, 1⟩, ⟨1, 1⟩, ⟨7, 1⟩]] r 0).num ≤
          numberAbs (entF [[⟨2, 1⟩, ⟨1, 1⟩, ⟨5, 1⟩], [⟨-3, 1⟩, ⟨1, 1⟩, ⟨7, 1⟩]] mx 0).num) ∧
      ((∀ r, 0 ≤ r → r < 2 →
          (entF [[⟨2, 1⟩, ⟨1, 1⟩, ⟨5, 1⟩], [⟨-3, 1⟩, ⟨1, 1⟩, ⟨7, 1⟩]] r 0).den = 1 ∧
          (entF [[⟨2, 1⟩, ⟨1, 1⟩, ⟨5, 1⟩], [⟨-3, 1⟩, ⟨1, 1⟩, ⟨7, 1⟩]] r 0).num.natAbs < 2 ^ 53) →
        ∀ r, 0 ≤ r → r < 2 →
          |ent [[⟨2, 1⟩, ⟨1, 1⟩, ⟨5, 1⟩], [⟨-3, 1⟩, ⟨1, 1⟩, ⟨7, 1⟩]] r 0| ≤
            |ent [[⟨2, 1⟩, ⟨1, 1⟩, ⟨5, 1⟩], [⟨-3, 1⟩, ⟨1, 1⟩, ⟨7, 1⟩]] mx 0|) :=
  ⟨⟨by decide, by decide, by decide⟩,
    pivot_row_largest_number (by decide) (by decide) (by decide)⟩

/-- C16, as stated, fails: for the points with `x = 1, 2, 4` and `k = 3`, after the
first step column `1` holds `1/1` in row `1` and `3/4` in row `2`; the search takes
row `2`, whose entry is the smaller one as a rational number. -/
theorem pivot_not_largest_value :
    ∃ m0 m1, buildMatrix 3 [⟨1, 0⟩, ⟨2, 0⟩, ⟨4, 0⟩] = .ok m0 ∧
      eliminateStep 3 0 m0 = .ok m1 ∧ findMax 3 1 m1 = .ok 2 ∧
      entF m1 1 1 = ⟨1, 1⟩ ∧ entF m1 2 1 = ⟨3, 4⟩ ∧ |ent m1 2 1| < |ent m1 1 1| := by
  refine ⟨[[⟨1, 1⟩, ⟨1, 1⟩, ⟨1, 1⟩, ⟨0, 1⟩], [⟨4, 1⟩, ⟨2, 1⟩, ⟨1, 1⟩, ⟨0, 1⟩],
      [⟨16, 1⟩, ⟨4, 1⟩, ⟨1, 1⟩, ⟨0, 1⟩]],
    [[⟨16, 1⟩, ⟨4, 1⟩, ⟨1, 1⟩, ⟨0, 1⟩], [⟨0, 1⟩, ⟨1, 1⟩, ⟨3, 4⟩, ⟨0, 1⟩],
      [⟨0, 1⟩, ⟨3, 4⟩, ⟨15, 16⟩, ⟨0, 1⟩]],
    by decide!, by decide!, by decide!, rfl, rfl, ?_⟩
  have e1 : ent [[⟨16, 1⟩, ⟨4, 1⟩, ⟨1, 1⟩, ⟨0, 1⟩], [⟨0, 1⟩, ⟨1, 1⟩, ⟨3, 4⟩, ⟨0, 1⟩],
      [⟨0, 1⟩, ⟨3, 4⟩, ⟨15, 16⟩, ⟨0, 1⟩]] 2 1 = 3 / 4 := by
    show ((3 : Int) : ℚ) / ((4 : Int) : ℚ) = 3 / 4
    norm_num
  have e2 : ent [[⟨16, 1⟩, ⟨4, 1⟩, ⟨1, 1⟩, ⟨0, 1⟩], [⟨0, 1⟩, ⟨1, 1⟩, ⟨3, 4⟩, ⟨0, 1⟩],
      [⟨0, 1⟩, ⟨3, 4⟩, ⟨15, 16⟩, ⟨0, 1⟩]] 1 1 = 1 := by
    show ((1 : Int) : ℚ) / ((1 : Int) : ℚ) = 1
    norm_num
  rw [e1, e2]
  norm_num [abs_of_pos]

/-- C17, as the code has it: at step `i` the selected row is the lowest-index row
among `i .. k - 1` whose column-`i` numerator attains the maximum of
`Math.abs(Number(num))`: the magnitudes are compared after rounding to the nearest
double.  When every candidate numerator is below `2 ^ 53` in magnitude the
comparison is the exact one on integers, and the selected row is the lowest-index
row whose numerator has the maximum absolute value. -/
theorem pivot_row_first_maximum {k : Nat} {m : Mat} (h : Shape k m) {i : Nat} (hi : i < k) :
    ∃ mx, findMax k i m = .ok mx ∧ i ≤ mx ∧ mx < k ∧
      (∀ r, i ≤ r → r < k →
        numberAbs (entF m r i).num ≤ numberAbs (entF m mx i).num) ∧
      (∀ r, i ≤ r → r < mx →
        numberAbs (entF m r i).num < numberAbs (entF m mx i).num) ∧
      ((∀ r, i ≤ r → r < k → (entF m r i).num.natAbs < 2 ^ 53) →
        (∀ r, i ≤ r → r < k → (entF m r i).num.natAbs ≤ (entF m mx i).num.natAbs) ∧
        (∀ r, i ≤ r → r < mx → (entF m r i).num.natAbs < (entF m mx i).num.natAbs)) := by
  obtain ⟨mx, hmx, h1, h2, h3, h4⟩ := findMax_first h hi
  refine ⟨mx, hmx, h1, h2, h3, h4, ?_⟩
  intro hsmall
  constructor
  · intro r hr1 hr2
    have := h3 r hr1 hr2
    rw [numberAbs_small _ (hsmall r hr1 hr2), numberAbs_small _ (hsmall mx h1 h2)] at this
    exact this
  · intro r hr1 hr2
    have := h4 r hr1 hr2
    rw [numberAbs_small _ (hsmall r hr1 (by omega)), numberAbs_small _ (hsmall mx h1 h2)] at this
    exact this

theorem pivot_row_first_maximum_witness :
    (Shape 3 [[⟨2, 1⟩, ⟨1, 1⟩, ⟨1, 1⟩, ⟨5, 1⟩], [⟨-7, 2⟩, ⟨1, 1⟩, ⟨1, 1⟩, ⟨7, 1⟩],
        [⟨7, 3⟩, ⟨1, 1⟩, ⟨1, 1⟩, ⟨0, 1⟩]] ∧ 0 < 3) ∧
    ∃ mx, findMax 3 0 [[⟨2, 1⟩, ⟨1, 1⟩, ⟨1, 1⟩, ⟨5, 1⟩], [⟨-7, 2⟩, ⟨1, 1⟩, ⟨1, 1⟩, ⟨7, 1⟩],
        [⟨7, 3⟩, ⟨1, 1⟩, ⟨1, 1⟩, ⟨0, 1⟩]] = .ok mx ∧ 0 ≤ mx ∧ mx < 3 ∧
      (∀ r, 0 ≤ r → r < 3 →
        numberAbs (entF [[⟨2, 1⟩, ⟨1, 1⟩, ⟨1, 1⟩, ⟨5, 1⟩], [⟨-7, 2⟩, ⟨1, 1⟩, ⟨1, 1⟩, ⟨7, 1⟩],
          [⟨7, 3⟩, ⟨1, 1⟩, ⟨1, 1⟩, ⟨0, 1⟩]] r 0).num ≤
        numberAbs (entF [[⟨2, 1⟩, ⟨1, 1⟩, ⟨1, 1⟩, ⟨5, 1⟩], [⟨-7, 2⟩, ⟨1, 1⟩, ⟨1, 1⟩, ⟨7, 1⟩],
          [⟨7, 3⟩, ⟨1, 1⟩, ⟨1, 1⟩, ⟨0, 1⟩]] mx 0).num) ∧
      (∀ r, 0 ≤ r → r < mx →
        numberAbs (entF [[⟨2, 1⟩, ⟨1, 1⟩, ⟨1, 1⟩, ⟨5, 1⟩], [⟨-7, 2⟩, ⟨1, 1⟩, ⟨1, 1⟩, ⟨7, 1⟩],
          [⟨7, 3⟩, ⟨1, 1⟩, ⟨1, 1⟩, ⟨0, 1⟩]] r 0).num <
        numberAbs (entF [[⟨2, 1⟩, ⟨1, 1⟩, ⟨1, 1⟩, ⟨5, 1⟩], [⟨-7, 2⟩, ⟨1, 1⟩, ⟨1, 1⟩, ⟨7, 1⟩],
          [⟨7, 3⟩, ⟨1, 1⟩, ⟨1, 1⟩, ⟨0, 1⟩]] mx 0).num) ∧
      ((∀ r, 0 ≤ r → r < 3 →
          (entF [[⟨2, 1⟩, ⟨1, 1⟩, ⟨1, 1⟩, ⟨5, 1⟩], [⟨-7, 2⟩, ⟨1, 1⟩, ⟨1, 1⟩, ⟨7, 1⟩],
            [⟨7, 3⟩, ⟨1, 1⟩, ⟨1, 1⟩, ⟨0, 1⟩]] r 0).num.natAbs < 2 ^ 53) →
        (∀ r, 0 ≤ r → r < 3 →
          (entF [[⟨2, 1⟩, ⟨1, 1⟩, ⟨1, 1⟩, ⟨5, 1⟩], [⟨-7, 2⟩, ⟨1, 1⟩, ⟨1, 1⟩, ⟨7, 1⟩],
            [⟨7, 3⟩, ⟨1, 1⟩, ⟨1, 1⟩, ⟨0, 1⟩]] r 0).num.natAbs ≤
          (entF [[⟨2, 1⟩, ⟨1, 1⟩, ⟨1, 1⟩, ⟨5, 1⟩], [⟨-7, 2⟩, ⟨1, 1⟩, ⟨1, 1⟩, ⟨7, 1⟩],
            [⟨7, 3⟩, ⟨1, 1⟩, ⟨1, 1⟩, ⟨0, 1⟩]] mx 0).num.natAbs) ∧
        (∀ r, 0 ≤ r → r < mx →
          (entF [[⟨2, 1⟩, ⟨1, 1⟩, ⟨1, 1⟩, ⟨5, 1⟩], [⟨-7, 2⟩, ⟨1, 1⟩, ⟨1, 1⟩, ⟨7, 1⟩],
            [⟨7, 3⟩, ⟨1, 1⟩, ⟨1, 1⟩, ⟨0, 1⟩]] r 0).num.natAbs <
          (entF [[⟨2, 1⟩, ⟨1, 1⟩, ⟨1, 1⟩, ⟨5, 1⟩], [⟨-7, 2⟩, ⟨1, 1⟩, ⟨1, 1⟩, ⟨7, 1⟩],
            [⟨7, 3⟩, ⟨1, 1⟩, ⟨1, 1⟩, ⟨0, 1⟩]] mx 0).num.natAbs)) :=
  ⟨⟨by decide, by decide⟩, pivot_row_first_maximum (by decide) (by decide)⟩

theorem log2_of_bounds (n e : Nat) (he : e ≠ 0) (h1 : 2 ^ e ≤ n) (h2 : n < 2 ^ (e + 1)) :
    Nat.log2 n = e := by
  rw [Nat.log2_eq_log_two]
  exact (Nat.log_eq_iff (Or.inl he)).mpr ⟨h1, h2⟩

theorem numberAbs_tie_low : numberAbs 9007199254740992 = 9007199254740992 := by
  have hlog : Nat.log2 9007199254740992 = 53 :=
    log2_of_bounds _ 53 (by decide) (by decide) (by decide)
  unfold numberAbs
  dsimp only
  rw [show Int.natAbs 9007199254740992 = 9007199254740992 from rfl, if_neg (by decide), hlog]
  decide!

theorem numberAbs_tie_high : numberAbs 9007199254740993 = 9007199254740992 := by
  have hlog : Nat.log2 9007199254740993 = 53 :=
    log2_of_bounds _ 53 (by decide) (by decide) (by decide)
  unfold numberAbs
  dsimp only
  rw [show Int.natAbs 9007199254740993 = 9007199254740993 from rfl, if_neg (by decide), hlog]
  decide!

/-- C17, as stated, fails: for `k = 2` and the points with `x = 2 ^ 53` and
`x = 2 ^ 53 + 1`, the two numerators of column `0` round to the same double, so the
search keeps row `0`, while the numerator of row `1` is the larger integer. -/
theorem pivot_not_exact :
    ∃ m0, buildMatrix 2 [⟨9007199254740992, 0⟩, ⟨9007199254740993, 0⟩] = .ok m0 ∧
      findMax 2 0 m0 = .ok 0 ∧
      (entF m0 0 0).num.natAbs < (entF m0 1 0).num.natAbs ∧
      numberAbs (entF m0 0 0).num = numberAbs (entF m0 1 0).num := by
  refine ⟨[[⟨9007199254740992, 1⟩, ⟨1, 1⟩, ⟨0, 1⟩],
    [⟨9007199254740993, 1⟩, ⟨1, 1⟩, ⟨0, 1⟩]], by decide!, ?_, by decide!, ?_⟩
  · simp only [findMax, forLoop, getEntry, bind, Except.bind, pure, Except.pure]
    simp [numberAbs_tie_low, numberAbs_tie_high]
  · show numberAbs 9007199254740992 = numberAbs 9007199254740993
    rw [numberAbs_tie_low, numberAbs_tie_high]

/-! ### The states of the elimination loop -/

theorem forLoop_split {σ : Type} (body : Nat → σ → Except JsError σ) :
    ∀ (a n i : Nat) (s s1 : σ), a ≤ n → forLoop body n i s = .ok s1 →
      ∃ sa, forLoop body a i s = .ok sa ∧ forLoop body (n - a) (i + a) sa = .ok s1 := by
  intro a
  induction a with
  | zero => intro n i s s1 _ h; exact ⟨s, rfl, h⟩
  | succ a ih =>
    intro n i s s1 han h
    obtain ⟨n1, hn1⟩ : ∃ n1, n = n1 + 1 := ⟨n - 1, by omega⟩
    subst hn1
    cases hb : body i s with
    | error e => simp only [forLoop, hb] at h; cases h
    | ok s2 =>
      simp only [forLoop, hb] at h
      obtain ⟨sa, h1, h2⟩ := ih n1 (i + 1) s2 s1 (by omega) h
      refine ⟨sa, by simp only [forLoop, hb]; exact h1, ?_⟩
      rw [show n1 + 1 - (a + 1) = n1 - a by omega, show i + (a + 1) = i + 1 + a by omega]
      exact h2

theorem eliminate_prefix_spec {k : Nat} {m : Mat} (h : Shape k m) (hcan : AllCanonical m)
    (n : Nat) (hn : n ≤ k) :
    (∃ m1, forLoop (eliminateStep k) n 0 m = .ok m1 ∧ Shape k m1 ∧ AllCanonical m1 ∧
        Echelon k n (ent m1) ∧ ∀ c, Ann k (ent m1) c ↔ Ann k (ent m) c) ∨
      (forLoop (eliminateStep k) n 0 m = .error .divideByZero ∧ Singular k (ent m)) := by
  have key := forLoop_spec (eliminateStep k)
    (fun i m1 => Shape k m1 ∧ AllCanonical m1 ∧ Echelon k i (ent m1) ∧
      ∀ c, Ann k (ent m1) c ↔ Ann k (ent m) c)
    (fun e => e = .divideByZero ∧ Singular k (ent m))
    n 0 m
    ⟨h, hcan, fun r c hc => by omega, fun c => Iff.rfl⟩
    (by
      intro i m1 _ hik ⟨hs, hc, he, ha⟩
      rcases eliminateStep_spec hs hc (show i < k by omega) he with
        ⟨m2, hm2, hs2, hc2, he2, ha2⟩ | ⟨herr, hsing⟩
      · left
        exact ⟨m2, hm2, hs2, hc2, he2, fun c => (ha2 c).trans (ha c)⟩
      · right
        exact ⟨_, herr, rfl, (singular_congr k _ _ ha).mp hsing⟩)
  rcases key with ⟨m1, hm1, hs, hc, he, ha⟩ | ⟨e, herr, he, hsing⟩
  · left
    rw [Nat.zero_add] at he
    exact ⟨m1, hm1, hs, hc, he, ha⟩
  · right
    subst he
    exact ⟨herr, hsing⟩

theorem pivot_zero_singular {k : Nat} {m : Mat} (h : Shape k m) (hcan : AllCanonical m)
    {i mx : Nat} (hi : i < k) (hech : Echelon k i (ent m)) (hmx : findMax k i m = .ok mx)
    (hz : (entF (swapRows m i mx) i i).num = 0) : Singular k (ent m) := by
  obtain ⟨mx1, hmx1, _, h2, h3⟩ := findMax_ok h hi
  have hmm : mx1 = mx := by
    rw [hmx] at hmx1; exact (Except.ok.inj hmx1).symm
  subst hmm
  have hik : i < k + 1 := by omega
  rw [swapRows_pivot_row h hcan hi h2] at hz
  apply singular_of_zero_column k i (ent m) hi hech
  intro r hr1 hr2
  have hle := h3 r hr1 hr2
  rw [hz, (numberAbs_eq_zero 0).mpr rfl] at hle
  have hnum : (entF m r i).num = 0 := (numberAbs_eq_zero _).mp (Nat.eq_zero_of_le_zero hle)
  by_contra hne
  exact (ent_ne_zero_iff h hcan hr2 hik).mp hne hnum

theorem ann_iff_solves (k : Nat) (E : Nat → Nat → ℚ) (v : Nat → ℚ) :
    Ann k E (fun j => if j < k then v j else -1) ↔
      ∀ r, r < k → ∑ j in Finset.range k, E r j * v j = E r k := by
  have hrow : ∀ r, ∑ j in Finset.range (k + 1), E r j * (if j < k then v j else -1) =
      ∑ j in Finset.range k, E r j * v j - E r k := by
    intro r
    rw [Finset.sum_range_succ, if_neg (lt_irrefl k)]
    have h1 : ∑ j in Finset.range k, E r j * (if j < k then v j else -1) =
        ∑ j in Finset.range k, E r j * v j := by
      apply Finset.sum_congr rfl
      intro j hj
      rw [if_pos (Finset.mem_range.mp hj)]
    rw [h1]
    ring
  constructor
  · intro h r hr
    have := h r hr
    rw [hrow r] at this
    exact sub_eq_zero.mp this
  · intro h r hr
    show ∑ j in Finset.range (k + 1), E r j * (if j < k then v j else -1) = 0
    rw [hrow r, h r hr, sub_self]

/-- C19: when the elimination loop completes on a `k x (k+1)` matrix of canonical
objects, the matrix after the iteration for pivot column `i` has `0/1` at every
`matrix[r][c]` with `c ≤ i` and `r > c`; the final matrix is upper triangular; and a
vector of `k` rationals satisfies the `k` equations of the input matrix exactly when
it satisfies those of the final matrix. -/
theorem elimination_row_echelon {k : Nat} {m m1 : Mat} (h : Shape k m)
    (hcan : AllCanonical m) (hel : eliminate k m = .ok m1) :
    (∀ i, i < k → ∃ mi, forLoop (eliminateStep k) (i + 1) 0 m = .ok mi ∧
      ∀ r c, c ≤ i → c < r → r < k → entF mi r c = ⟨0, 1⟩) ∧
    (∀ r c, c < r → r < k → entF m1 r c = ⟨0, 1⟩) ∧
    (∀ v : Nat → ℚ,
      (∀ r, r < k → ∑ j in Finset.range k, ent m r j * v j = ent m r k) ↔
      (∀ r, r < k → ∑ j in Finset.range k, ent m1 r j * v j = ent m1 r k)) := by
  have hzero : ∀ {mi : Mat}, Shape k mi → AllCanonical mi → ∀ r c, c < r → r < k →
      ent mi r c = 0 → entF mi r c = ⟨0, 1⟩ := by
    intro mi hs hc r c hcr hrk hz
    apply Fraction.Canonical.ext (entF_canonical hs hc hrk (by omega)) canonical_zero
    rw [toRat_int]
    exact_mod_cast hz
  have hstate : ∀ n, n ≤ k → ∃ mi, forLoop (eliminateStep k) n 0 m = .ok mi ∧ Shape k mi ∧
      AllCanonical mi ∧ Echelon k n (ent mi) ∧ ∀ c, Ann k (ent mi) c ↔ Ann k (ent m) c := by
    intro n hn
    obtain ⟨mi, hmi, _⟩ := forLoop_split (eliminateStep k) n k 0 m m1 hn hel
    rcases eliminate_prefix_spec h hcan n hn with ⟨m2, hm2, rest⟩ | ⟨herr, _⟩
    · exact ⟨m2, hm2, rest⟩
    · rw [hmi] at herr; cases herr
  refine ⟨?_, ?_, ?_⟩
  · intro i hi
    obtain ⟨mi, hmi, hs, hc, he, _⟩ := hstate (i + 1) hi
    refine ⟨mi, hmi, ?_⟩
    intro r c hci hcr hrk
    exact hzero hs hc r c hcr hrk (he r c (by omega) hcr hrk)
  · obtain ⟨mk, hmk, hs, hc, he, _⟩ := hstate k (Nat.le_refl k)
    have hmm : mk = m1 := by
      have : forLoop (eliminateStep k) k 0 m = .ok m1 := hel
      rw [hmk] at this; exact Except.ok.inj this
    subst hmm
    intro r c hcr hrk
    exact hzero hs hc r c hcr hrk (he r c (by omega) hcr hrk)
  · obtain ⟨mk, hmk, _, _, _, ha⟩ := hstate k (Nat.le_refl k)
    have hmm : mk = m1 := by
      have : forLoop (eliminateStep k) k 0 m = .ok m1 := hel
      rw [hmk] at this; exact Except.ok.inj this
    subst hmm
    intro v
    rw [← ann_iff_solves k (ent m) v, ← ann_iff_solves k (ent mk) v]
    exact (ha _).symm

theorem elimination_row_echelon_witness :
    (Shape 2 [[⟨1, 1⟩, ⟨1, 1⟩, ⟨5, 1⟩], [⟨3, 1⟩, ⟨1, 1⟩, ⟨7, 1⟩]] ∧
      AllCanonical [[⟨1, 1⟩, ⟨1, 1⟩, ⟨5, 1⟩], [⟨3, 1⟩, ⟨1, 1⟩, ⟨7, 1⟩]] ∧
      eliminate 2 [[⟨1, 1⟩, ⟨1, 1⟩, ⟨5, 1⟩], [⟨3, 1⟩, ⟨1, 1⟩, ⟨7, 1⟩]] =
        .ok [[⟨3, 1⟩, ⟨1, 1⟩, ⟨7, 1⟩], [⟨0, 1⟩, ⟨2, 3⟩, ⟨8, 3⟩]]) ∧
    ((∀ i, i < 2 → ∃ mi, forLoop (eliminateStep 2) (i + 1) 0
        [[⟨1, 1⟩, ⟨1, 1⟩, ⟨5, 1⟩], [⟨3, 1⟩, ⟨1, 1⟩, ⟨7, 1⟩]] = .ok mi ∧
      ∀ r c, c ≤ i → c < r → r < 2 → entF mi r c = ⟨0, 1⟩) ∧
    (∀ r c, c < r → r < 2 →
      entF [[⟨3, 1⟩, ⟨1, 1⟩, ⟨7, 1⟩], [⟨0, 1⟩, ⟨2, 3⟩, ⟨8, 3⟩]] r c = ⟨0, 1⟩) ∧
    (∀ v : Nat → ℚ,
      (∀ r, r < 2 → ∑ j in Finset.range 2,
        ent [[⟨1, 1⟩, ⟨1, 1⟩, ⟨5, 1⟩], [⟨3, 1⟩, ⟨1, 1⟩, ⟨7, 1⟩]] r j * v j =
          ent [[⟨1, 1⟩, ⟨1, 1⟩, ⟨5, 1⟩], [⟨3, 1⟩, ⟨1, 1⟩, ⟨7, 1⟩]] r 2) ↔
      (∀ r, r < 2 → ∑ j in Finset.range 2,
        ent [[⟨3, 1⟩, ⟨1, 1⟩, ⟨7, 1⟩], [⟨0, 1⟩, ⟨2, 3⟩, ⟨8, 3⟩]] r j * v j =
          ent [[⟨3, 1⟩, ⟨1, 1⟩, ⟨7, 1⟩], [⟨0, 1⟩, ⟨2, 3⟩, ⟨8, 3⟩]] r 2))) :=
  ⟨⟨by decide, by decide, by decide!⟩,
    elimination_row_echelon (by decide) (by decide) (by decide!)⟩

/-- C18 (no spurious failure): for at least `k` points of pairwise distinct `x`, the
matrix is built, and at every step `i` of the elimination the pivot `matrix[i][i]`
left by the swap, the divisor of that step, is not zero; the elimination completes;
every `matrix[i][i]` of the final matrix, the divisors of the back-substitution, is
not zero; so no division by a zero Fraction and no zero denominator is met: the
back-substitution and the whole solve complete. -/
theorem no_spurious_failure (k : Nat) (points : List Point) (hlen : k ≤ points.length)
    (hdist : points.Pairwise (fun p q => p.x ≠ q.x)) :
    ∃ m m1 cs, buildMatrix k (solvingPoints k points) = .ok m ∧
      (∀ i, i < k → ∃ mi mx, forLoop (eliminateStep k) i 0 m = .ok mi ∧
        findMax k i mi = .ok mx ∧ (entF (swapRows mi i mx) i i).num ≠ 0) ∧
      eliminate k m = .ok m1 ∧
      (∀ i, i < k → (entF m1 i i).num ≠ 0) ∧
      backSubstitute k m1 = .ok cs ∧
      ∃ report, solve (k : Int) points = .ok ⟨cs, report⟩ := by
  have hl := solvingPoints_length k points hlen
  obtain ⟨m, hm, hs, hc, hE⟩ := buildMatrix_ok k _ (Nat.le_of_eq hl.symm)
  have hns : ¬ Singular k (ent m) := by
    rw [singular_congr k _ _ (ann_congr k _ _ hE)]
    exact nonsingular_of_distinct k _ (Nat.le_of_eq hl.symm) (solving_pairwise k points hdist)
  have hstate : ∀ n, n ≤ k → ∃ mi, forLoop (eliminateStep k) n 0 m = .ok mi ∧ Shape k mi ∧
      AllCanonical mi ∧ Echelon k n (ent mi) ∧ ∀ c, Ann k (ent mi) c ↔ Ann k (ent m) c := by
    intro n hn
    rcases eliminate_prefix_spec hs hc n hn with h1 | ⟨_, hsing⟩
    · exact h1
    · exact absurd hsing hns
  obtain ⟨m1, hm1, hs1, hc1, he1, ha1⟩ := hstate k (Nat.le_refl k)
  have hns1 : ¬ Singular k (ent m1) := by
    rw [singular_congr k _ _ ha1]; exact hns
  have hback : ∃ cs, backSubstitute k m1 = .ok cs ∧ ∀ r, r < k → ent m1 r r ≠ 0 := by
    rcases backSubstitute_spec hs1 hc1 with ⟨cs, hcs, _, _, hrows⟩ | ⟨_, i, hi, hz⟩
    · exact ⟨cs, hcs, fun r hr => (hrows r hr).1⟩
    · exfalso
      apply hns1
      apply singular_of_zero_column k i _ hi
      · intro r c hci hcr hrk
        exact he1 r c (by omega) hcr hrk
      · intro r hir hrk
        by_cases hri : r = i
        · rw [hri]; exact hz
        · exact he1 r i hi (by omega) hrk
  obtain ⟨cs, hcs, hdiag⟩ := hback
  refine ⟨m, m1, cs, hm, ?_, hm1, ?_, hcs, ?_⟩
  · intro i hi
    obtain ⟨mi, hmi, hsi, hci, hei, hai⟩ := hstate i (Nat.le_of_lt hi)
    obtain ⟨mx, hmx, _⟩ := findMax_ok hsi hi
    refine ⟨mi, mx, hmi, hmx, ?_⟩
    intro hz
    apply hns
    rw [← singular_congr k _ _ hai]
    exact pivot_zero_singular hsi hci hi hei hmx hz
  · intro i hi
    exact (ent_ne_zero_iff hs1 hc1 hi (by omega)).mp (hdiag i hi)
  · obtain ⟨cs2, hrec, hsolve, _⟩ := solve_spec k points hlen hdist
    have hrec2 : reconstruct k (solvingPoints k points) = .ok cs := by
      unfold reconstruct
      have hel : eliminate k m = .ok m1 := hm1
      simp only [hm, hel, hcs, bind, Except.bind]
    rw [hrec2] at hrec
    have hcc : cs = cs2 := Except.ok.inj hrec
    rw [← hcc] at hsolve
    exact ⟨_, hsolve⟩

theorem no_spurious_failure_witness :
    (3 ≤ ([⟨2, 7⟩, ⟨6, 39⟩, ⟨1, 4⟩, ⟨3, 12⟩] : List Point).length ∧
      ([⟨2, 7⟩, ⟨6, 39⟩, ⟨1, 4⟩, ⟨3, 12⟩] : List Point).Pairwise (fun p q => p.x ≠ q.x)) ∧
    ∃ m m1 cs, buildMatrix 3 (solvingPoints 3 [⟨2, 7⟩, ⟨6, 39⟩, ⟨1, 4⟩, ⟨3, 12⟩]) = .ok m ∧
      (∀ i, i < 3 → ∃ mi mx, forLoop (eliminateStep 3) i 0 m = .ok mi ∧
        findMax 3 i mi = .ok mx ∧ (entF (swapRows mi i mx) i i).num ≠ 0) ∧
      eliminate 3 m = .ok m1 ∧
      (∀ i, i < 3 → (entF m1 i i).num ≠ 0) ∧
      backSubstitute 3 m1 = .ok cs ∧
      ∃ report, solve ((3 : Nat) : Int) [⟨2, 7⟩, ⟨6, 39⟩, ⟨1, 4⟩, ⟨3, 12⟩] = .ok ⟨cs, report⟩ :=
  ⟨⟨by decide, by decide⟩,
    no_spurious_failure 3 [⟨2, 7⟩, ⟨6, 39⟩, ⟨1, 4⟩, ⟨3, 12⟩] (by decide) (by decide)⟩

end HashiraTest
